import Mathlib

/-!
OSDSYS asset decoders.

A shallow embedding of the binary-format decoders of the OSDSYS repository
(`TextureLoader.cpp`, `ICOBLoader.cpp`, `VAGDecoder.cpp`), of the headerless stream
splitter of `SoundLoader.cpp` and of the state machine of `Core.cpp`, together with
the properties established about them.

Conventions of the embedding:
* `uint32_t` values are natural numbers, and every `uint32_t` operation that can
  wrap is followed by `u32` (reduction modulo `2^32`);
* `size_t` values are natural numbers (64-bit sizes do not wrap on any buffer that
  fits in memory); in the split loop of `SoundLoader::LoadFile`, whose subtractions
  are at stake, they are reduced with `u64` and `sub64` (modulo `2^64`);
* byte buffers are lists of natural numbers below 256;
* C++ `float` and `double` values are the rationals they denote, and every
  floating-point operation that can round is followed by `fl32` or `fl64` (IEEE
  binary32 and binary64, round to nearest, ties to even, one rounding per operation);
  overflow to infinity, which the bounded inputs of the decoders do not reach, is
  outside the model.
-/

namespace OSDSYS

/-! ## Machine integers -/

/-- Wrap a natural number to the range of `uint32_t`. -/
def u32 (n : Nat) : Nat := n % 2 ^ 32

/-! ## Floating point -/

/-- Rounding of a rational to the nearest integer, ties to the even one. -/
def roundHalfEven (q : ℚ) : Int :=
  let f := ⌊q⌋
  if q - f < 1 / 2 then f
  else if 1 / 2 < q - f then f + 1
  else if f % 2 = 0 then f else f + 1

/-- Rounding of the exact result `x` of one arithmetic operation to the nearest value
of an IEEE binary format with `prec` significand bits and least normal exponent
`emin` (round to nearest, ties to even; below `2^emin` the spacing is that of the
subnormal numbers).  Results beyond the largest finite value are not modelled. -/
def roundFloat (prec emin : Int) (x : ℚ) : ℚ :=
  if x = 0 then 0
  else
    let e := max (Int.log 2 |x|) emin
    let ulp : ℚ := (2 : ℚ) ^ (e - (prec - 1))
    (roundHalfEven (x / ulp) : ℚ) * ulp

/-- The result of a `float` (binary32) operation whose exact value is `x`. -/
def fl32 (x : ℚ) : ℚ := roundFloat 24 (-126) x

/-- The result of a `double` (binary64) operation whose exact value is `x`. -/
def fl64 (x : ℚ) : ℚ := roundFloat 53 (-1022) x

/-! ## TextureLoader: GS address computation -/

/-- Pixel storage modes, `enum PS2_PSM` of `PS2Constants.h`. -/
inductive PS2_PSM where
  | GS_PSM_32
  | GS_PSM_24
  | GS_PSM_16
  | GS_PSM_16S
  | GS_PSM_8
  | GS_PSM_4
  | GS_PSM_8H
  | GS_PSM_4HL
  | GS_PSM_4HH
  deriving DecidableEq, Repr

/-- Block table `block32` of `TextureLoader.cpp`. -/
def block32 : List Nat :=
  [0, 1, 4, 5, 16, 17, 20, 21, 2, 3, 6, 7, 18, 19, 22, 23,
   8, 9, 12, 13, 24, 25, 28, 29, 10, 11, 14, 15, 26, 27, 30, 31]

/-- Block table `block16` of `TextureLoader.cpp`. -/
def block16 : List Nat :=
  [0, 2, 8, 10, 1, 3, 9, 11, 4, 6, 12, 14, 5, 7, 13, 15,
   16, 18, 24, 26, 17, 19, 25, 27, 20, 22, 28, 30, 21, 23, 29, 31]

/-- Block table `block8` of `TextureLoader.cpp`. -/
def block8 : List Nat :=
  [0, 1, 4, 5, 16, 17, 20, 21, 2, 3, 6, 7, 18, 19, 22, 23,
   8, 9, 12, 13, 24, 25, 28, 29, 10, 11, 14, 15, 26, 27, 30, 31]

/-- Block table `block4` of `TextureLoader.cpp`. -/
def block4 : List Nat :=
  [0, 2, 8, 10, 1, 3, 9, 11, 4, 6, 12, 14, 5, 7, 13, 15,
   16, 18, 24, 26, 17, 19, 25, 27, 20, 22, 28, 30, 21, 23, 29, 31]

/-- The function `TextureLoader::GetGSAddress`: physical byte offset of the logical
pixel `(x, y)` in a swizzled buffer of the given width.  The arguments are
`uint32_t` values; every arithmetic step wraps modulo `2^32` as in the source. -/
def GetGSAddress (x y width : Nat) : PS2_PSM → Nat
  | .GS_PSM_32 =>
    let pagesPerRow := u32 (width + 63) >>> 6
    let pageX := x >>> 6
    let pageY := y >>> 5
    let page := u32 (pageX + u32 (pageY * pagesPerRow))
    let ox := x &&& 0x3F
    let oy := y &&& 0x1F
    let blockX := ox >>> 3
    let blockY := oy >>> 3
    let block := block32.getD (blockY * 8 + blockX) 0
    let col := ox &&& 0x7
    let row := oy &&& 0x7
    let pixelIndex :=
      u32 (u32 (u32 (u32 (page * (64 * 32)) + u32 (block * (8 * 8))) + u32 (row * 8)) + col)
    u32 (pixelIndex * 4)
  | .GS_PSM_16 | .GS_PSM_16S =>
    let pagesPerRow := u32 (width + 63) >>> 6
    let pageX := x >>> 6
    let pageY := y >>> 6
    let page := u32 (pageX + u32 (pageY * pagesPerRow))
    let ox := x &&& 0x3F
    let oy := y &&& 0x3F
    let blockX := ox >>> 4
    let blockY := oy >>> 3
    let block := block16.getD (blockY * 4 + blockX) 0
    let col := ox &&& 0xF
    let row := oy &&& 0x7
    let pixelIndex :=
      u32 (u32 (u32 (u32 (page * (64 * 64)) + u32 (block * (16 * 8))) + u32 (row * 16)) + col)
    u32 (pixelIndex * 2)
  | .GS_PSM_8 | .GS_PSM_8H =>
    let pagesPerRow := u32 (width + 127) >>> 7
    let pageX := x >>> 7
    let pageY := y >>> 6
    let page := u32 (pageX + u32 (pageY * pagesPerRow))
    let ox := x &&& 0x7F
    let oy := y &&& 0x3F
    let blockX := ox >>> 4
    let blockY := oy >>> 4
    let block := block8.getD (blockY * 8 + blockX) 0
    let col := ox &&& 0xF
    let row := oy &&& 0xF
    let pixelIndex :=
      u32 (u32 (u32 (u32 (page * (128 * 64)) + u32 (block * (16 * 16))) + u32 (row * 16)) + col)
    pixelIndex
  | .GS_PSM_4 | .GS_PSM_4HL | .GS_PSM_4HH =>
    let pagesPerRow := u32 (width + 127) >>> 7
    let pageX := x >>> 7
    let pageY := y >>> 7
    let page := u32 (pageX + u32 (pageY * pagesPerRow))
    let ox := x &&& 0x7F
    let oy := y &&& 0x7F
    let blockX := ox >>> 5
    let blockY := oy >>> 4
    let block := block4.getD (blockY * 4 + blockX) 0
    let col := ox &&& 0x1F
    let row := oy &&& 0x0F
    let pixelIndexInPage := u32 (u32 (u32 (block * (32 * 16)) + u32 (row * 32)) + col)
    let pageByteBase := u32 (page * (128 * 128 / 2))
    u32 (pageByteBase + (pixelIndexInPage >>> 1))
  | _ => u32 (u32 (u32 (y * width) + x) * 4)

/-- The four format families of the texture memory layout table. -/
inductive Family where
  | bits32
  | bits16
  | bits8
  | bits4
  deriving DecidableEq, Repr

/-- The family whose branch of the `switch` in `GetGSAddress` handles a storage
mode; `none` for the modes that fall to the `default:` label. -/
def PS2_PSM.family : PS2_PSM → Option Family
  | .GS_PSM_32 => some .bits32
  | .GS_PSM_16 | .GS_PSM_16S => some .bits16
  | .GS_PSM_8 | .GS_PSM_8H => some .bits8
  | .GS_PSM_4 | .GS_PSM_4HL | .GS_PSM_4HH => some .bits4
  | .GS_PSM_24 => none

/-- Page width in pixels, from the layout table of the specification. -/
def Family.pageW : Family → Nat
  | .bits32 => 64
  | .bits16 => 64
  | .bits8 => 128
  | .bits4 => 128

/-- Page height in pixels, from the layout table of the specification. -/
def Family.pageH : Family → Nat
  | .bits32 => 32
  | .bits16 => 64
  | .bits8 => 64
  | .bits4 => 128

/-- Block width in pixels, from the layout table of the specification. -/
def Family.blockW : Family → Nat
  | .bits32 => 8
  | .bits16 => 16
  | .bits8 => 16
  | .bits4 => 32

/-- Block height in pixels, from the layout table of the specification. -/
def Family.blockH : Family → Nat
  | .bits32 => 8
  | .bits16 => 8
  | .bits8 => 16
  | .bits4 => 16

/-- Bytes per pixel of the three byte-addressed families (the 4-bit family packs two
pixels per byte and is handled apart). -/
def Family.bpp : Family → Nat
  | .bits32 => 4
  | .bits16 => 2
  | .bits8 => 1
  | .bits4 => 1

/-- The block permutation table of a family. -/
def Family.table : Family → List Nat
  | .bits32 => block32
  | .bits16 => block16
  | .bits8 => block8
  | .bits4 => block4

/-- The pixel index of the specification's reference formula, written with division
and remainder over unbounded naturals:
`page * pixelsPerPage + physicalBlock * pixelsPerBlock + row * blockWidthPx + col`. -/
def refPixelIndex (f : Family) (x y width : Nat) : Nat :=
  let pagesPerRow := (width + f.pageW - 1) / f.pageW
  let page := x / f.pageW + (y / f.pageH) * pagesPerRow
  let ox := x % f.pageW
  let oy := y % f.pageH
  let bx := ox / f.blockW
  let by_ := oy / f.blockH
  let physicalBlock := f.table.getD (by_ * (f.pageW / f.blockW) + bx) 0
  let col := ox % f.blockW
  let row := oy % f.blockH
  page * (f.pageW * f.pageH) + physicalBlock * (f.blockW * f.blockH) + row * f.blockW + col

/-- The byte offset of the specification's reference formula: the pixel index times
the bytes per pixel, or half the pixel index rounded down for the 4-bit family. -/
def refAddress (f : Family) (x y width : Nat) : Nat :=
  match f with
  | .bits4 => refPixelIndex f x y width / 2
  | _ => refPixelIndex f x y width * f.bpp

/-! ## TextureLoader: format detection -/

/-- The outputs of `DetectPSM`: the returned storage mode and the values of the
reference parameters `w`, `h` and `offset` after the call. -/
structure Detected where
  psm : PS2_PSM
  w : Int
  h : Int
  offset : Int
  deriving DecidableEq, Repr

/-- The function `TextureLoader::DetectPSM`.  `w` and `h` are the values the caller's
variables hold before the call (the last branch leaves them untouched).  The
expression `(int)sqrt(size)` is modelled by the integer square root, which it equals
for every file size below `2^52`.  The product `sq * sq` is an `int`: from `46341^2`
bytes on it overflows; it is taken as the compiled code leaves it, reduced to 32 bits
in two's complement, and the comparison with `size` is made in `size_t`. -/
def DetectPSM (size : Nat) (w h : Int) : Detected :=
  let offset : Int := 0
  if size = 16384 then { psm := .GS_PSM_8, w := 128, h := 128, offset := offset }
  else if size = 8192 then { psm := .GS_PSM_8, w := 64, h := 128, offset := offset }
  else if size = 4096 then { psm := .GS_PSM_8, w := 64, h := 64, offset := offset }
  else if size = 2048 then { psm := .GS_PSM_4, w := 64, h := 64, offset := offset }
  else if size = 16408 then { psm := .GS_PSM_8, w := 128, h := 128, offset := 24 }
  else if size = 8216 then { psm := .GS_PSM_8, w := 64, h := 128, offset := 24 }
  else if size = 32792 then { psm := .GS_PSM_8, w := 256, h := 128, offset := 24 }
  else if size > 131072 ∧ size < 145000 then
    { psm := .GS_PSM_16, w := 256, h := 256, offset := ((size - 131072 : Nat) : Int) }
  else if size = 12288 ∨ size = 12288 + 24 then
    { psm := .GS_PSM_24, w := 64, h := 64, offset := if size > 12288 then 24 else 0 }
  else
    let sq : Int := (Nat.sqrt size : Int)
    let prod : Int := (sq * sq + 2 ^ 31) % 2 ^ 32 - 2 ^ 31
    if prod % 2 ^ 64 = (size : Int) then { psm := .GS_PSM_8, w := sq, h := sq, offset := offset }
    else { psm := .GS_PSM_32, w := w, h := h, offset := offset }

/-! ## ICOBLoader: model files -/

/-- Little-endian `uint16_t` at byte offset `off` of a buffer. -/
def u16le (b : List Nat) (off : Nat) : Nat :=
  b.getD off 0 + 256 * b.getD (off + 1) 0

/-- Little-endian `uint32_t` at byte offset `off` of a buffer. -/
def u32le (b : List Nat) (off : Nat) : Nat :=
  b.getD off 0 + 256 * b.getD (off + 1) 0 + 65536 * b.getD (off + 2) 0 +
    16777216 * b.getD (off + 3) 0

/-- Two's-complement reading of a 16-bit pattern as `int16_t`. -/
def toInt16 (n : Nat) : Int :=
  if n % 65536 < 32768 then ((n % 65536 : Nat) : Int) else ((n % 65536 : Nat) : Int) - 65536

/-- Little-endian `int16_t` at byte offset `off` of a buffer. -/
def i16le (b : List Nat) (off : Nat) : Int := toInt16 (u16le b off)

/-- An input file stream (`std::ifstream`) opened on a file: the file contents, the
read position and the fail bit. -/
structure IStream where
  data : List Nat
  pos : Nat
  fail : Bool
  deriving DecidableEq, Repr

/-- The call `file.read(buf, count)`: on a failed stream nothing is extracted; on a
good stream up to `count` bytes are copied over the start of the buffer, and the fail
bit is set when fewer than `count` bytes were available.  Returns the stream and the
buffer after the call. -/
def IStream.read (s : IStream) (buf : List Nat) (count : Nat) : IStream × List Nat :=
  if s.fail then (s, buf)
  else
    let got := (s.data.drop s.pos).take count
    ({ s with pos := s.pos + got.length, fail := decide (got.length < count) },
      got ++ buf.drop got.length)

/-- The constant `F16_SCALE = 1.0f / 4096.0f`; a power of two, exact as a `float`. -/
def F16_SCALE : ℚ := 1 / 4096

/-- The function `ICOBLoader::FixedToFloat`.  The product of a 16-bit integer and
`2^-12` is exactly representable as a `float`, so the result is modelled by the
rational it denotes. -/
def FixedToFloat (val : Int) : ℚ := (val : ℚ) * F16_SCALE

/-- The output vertex `ICOBLoader::Vertex`; `float` components are modelled by
rationals. -/
structure Vertex where
  position : ℚ × ℚ × ℚ
  texcoord : ℚ × ℚ
  color : ℚ × ℚ × ℚ × ℚ
  normal : ℚ × ℚ × ℚ
  deriving DecidableEq

/-- The loader object: the raw 20 bytes of `header_` (`ICOBHeader`, packed, five
little-endian `uint32_t`), the vertex and index vectors and the `loaded_` flag. -/
structure ICOBLoader where
  header_ : List Nat
  converted_vertices_ : List Vertex
  indices_ : List Nat
  loaded_ : Bool
  deriving DecidableEq

/-- The constructor `ICOBLoader::ICOBLoader`: header zeroed, nothing loaded. -/
def ICOBLoader.new : ICOBLoader :=
  { header_ := List.replicate 20 0, converted_vertices_ := [], indices_ := [],
    loaded_ := false }

/-- Field `file_id` of the header. -/
def ICOBLoader.file_id (l : ICOBLoader) : Nat := u32le l.header_ 0

/-- Field `animation_shapes` of the header. -/
def ICOBLoader.animation_shapes (l : ICOBLoader) : Nat := u32le l.header_ 4

/-- Field `n_vertices` of the header. -/
def ICOBLoader.n_vertices (l : ICOBLoader) : Nat := u32le l.header_ 16

/-- Accessor `GetVertices`. -/
def ICOBLoader.GetVertices (l : ICOBLoader) : List Vertex := l.converted_vertices_

/-- Accessor `GetIndices`. -/
def ICOBLoader.GetIndices (l : ICOBLoader) : List Nat := l.indices_

/-- Accessor `GetTriangleCount`. -/
def ICOBLoader.GetTriangleCount (l : ICOBLoader) : Nat := l.indices_.length / 3

/-- Accessor `GetVertexCount`. -/
def ICOBLoader.GetVertexCount (l : ICOBLoader) : Nat := l.converted_vertices_.length

/-- Accessor `IsLoaded`. -/
def ICOBLoader.IsLoaded (l : ICOBLoader) : Bool := l.loaded_

/-- The local state of the vertex loop of `Load`: the stream, the three read buffers
(`shapeBuffer`, `normalRaw`, `textureRaw`, as raw bytes) and the vertices pushed so
far. -/
structure LoopState where
  file : IStream
  shapeBuffer : List Nat
  normalRaw : List Nat
  textureRaw : List Nat
  vertices : List Vertex

/-- The conversion of the three read buffers to an output vertex (steps A to C of
the loop body).  The quotients `r / 255.0f` and `a / 128.0f` are `float` divisions,
rounded to binary32. -/
def makeVertex (shapeBuffer normalRaw textureRaw : List Nat) : Vertex :=
  let color := u32le textureRaw 4
  let r := color &&& 0xFF
  let g := (color >>> 8) &&& 0xFF
  let b := (color >>> 16) &&& 0xFF
  let a := (color >>> 24) &&& 0xFF
  let alpha : ℚ := if a ≥ 0x80 then 1 else fl32 ((a : ℚ) / 128)
  { position := (FixedToFloat (i16le shapeBuffer 0), FixedToFloat (i16le shapeBuffer 2),
      FixedToFloat (i16le shapeBuffer 4)),
    normal := (FixedToFloat (i16le normalRaw 0), FixedToFloat (i16le normalRaw 2),
      FixedToFloat (i16le normalRaw 4)),
    texcoord := (FixedToFloat (i16le textureRaw 0), FixedToFloat (i16le textureRaw 2)),
    color := (fl32 ((r : ℚ) / 255), fl32 ((g : ℚ) / 255), fl32 ((b : ℚ) / 255), alpha) }

/-- One iteration of the vertex loop of `Load`: three reads (all shapes, the normal,
the texture record), then the vertex is pushed.  The result is `none` when
`shapeBuffer[0]` is read from an empty vector (`animation_shapes = 0`), which the
language leaves undefined. -/
def vertexStep (shapes : Nat) (st : LoopState) : Option LoopState :=
  let (f1, shapeBuffer) := st.file.read st.shapeBuffer (8 * shapes)
  if shapes = 0 then none
  else
    let (f2, normalRaw) := f1.read st.normalRaw 8
    let (f3, textureRaw) := f2.read st.textureRaw 8
    some { file := f3, shapeBuffer := shapeBuffer, normalRaw := normalRaw,
           textureRaw := textureRaw,
           vertices := st.vertices ++ [makeVertex shapeBuffer normalRaw textureRaw] }

/-- The vertex loop `for (i = 0; i < n_vertices; ++i)`, by recursion on the number of
iterations left. -/
def vertexLoop (shapes : Nat) : Nat → LoopState → Option LoopState
  | 0, st => some st
  | n + 1, st =>
    match vertexStep shapes st with
    | none => none
    | some st' => vertexLoop shapes n st'

/-- The function `ICOBLoader::Load` on an opened file (`some bytes`) or a file that
cannot be opened (`none`).  `normalRaw0` and `textureRaw0` are the indeterminate
initial contents of the uninitialised locals `normalRaw` and `textureRaw`.  The
result is the returned flag and the loader afterwards, or `none` when the run reads
`shapeBuffer[0]` out of bounds.  Memory is unbounded: `reserve` and the allocation of
`shapeBuffer` always succeed. -/
def ICOBLoader.Load (self : ICOBLoader) (file : Option (List Nat))
    (normalRaw0 textureRaw0 : List Nat) : Option (Bool × ICOBLoader) :=
  let self := { self with loaded_ := false, converted_vertices_ := [], indices_ := [] }
  match file with
  | none => some (false, self)
  | some bytes =>
    let (f, hdr) := IStream.read { data := bytes, pos := 0, fail := false } self.header_ 20
    let self := { self with header_ := hdr }
    if self.n_vertices = 0 ∨ self.n_vertices % 3 ≠ 0 then some (false, self)
    else
      let shapeBuffer := List.replicate (8 * self.animation_shapes) 0
      match vertexLoop self.animation_shapes self.n_vertices
          { file := f, shapeBuffer := shapeBuffer, normalRaw := normalRaw0,
            textureRaw := textureRaw0, vertices := [] } with
      | none => none
      | some st =>
        let self := { self with converted_vertices_ := st.vertices,
                                indices_ := List.range self.n_vertices }
        if st.file.fail then some (false, self)
        else some (true, { self with loaded_ := true })

/-- The stream has been asked for `t` bytes in total since it was opened on `d`:
it is still good exactly when the file holds that many, and then stands at `t`
(used to state the invariant of the vertex loop). -/
def StreamAt (d : List Nat) (t : Nat) (s : IStream) : Prop :=
  s.data = d ∧ (s.fail = false ↔ t ≤ d.length) ∧ (s.fail = false → s.pos = t)

/-- The finite values of the IEEE binary32 format (`float`): `m * 2^e` with a
24-bit significand `|m| < 2^24` and `-149 ≤ e ≤ 104`.  A sum or product whose exact
value is of this form is returned by the hardware without rounding. -/
def IsFloat32 (q : ℚ) : Prop :=
  ∃ m e : Int, |m| < 2 ^ 24 ∧ -149 ≤ e ∧ e ≤ 104 ∧ q = (m : ℚ) * (2 : ℚ) ^ e

/-- The colour decoded from a packed 32-bit colour, by division and remainder: with
`r`, `g`, `b`, `a` the four bytes from the least significant one, the red, green and
blue components are the binary32 values nearest to `r / 255`, `g / 255`, `b / 255`, and
alpha is `1` when `a >= 128` and `a / 128` otherwise. -/
def vertexColor (color : Nat) : ℚ × ℚ × ℚ × ℚ :=
  let r := color % 256
  let g := color / 256 % 256
  let b := color / 65536 % 256
  let a := color / 16777216 % 256
  (fl32 ((r : ℚ) / 255), fl32 ((g : ℚ) / 255), fl32 ((b : ℚ) / 255),
    if a ≥ 128 then 1 else (a : ℚ) / 128)

/-- The vertex stored in the record at byte offset `off` of a model file with the
given shape count: position from the first shape record, normal after the `shapes`
position records, then the texture record (UV pair and packed colour); every
coordinate is the little-endian int16 divided by 4096. -/
def recordVertex (bytes : List Nat) (shapes off : Nat) : Vertex :=
  { position := ((i16le bytes off : ℚ) / 4096, (i16le bytes (off + 2) : ℚ) / 4096,
      (i16le bytes (off + 4) : ℚ) / 4096),
    normal := ((i16le bytes (off + 8 * shapes) : ℚ) / 4096,
      (i16le bytes (off + 8 * shapes + 2) : ℚ) / 4096,
      (i16le bytes (off + 8 * shapes + 4) : ℚ) / 4096),
    texcoord := ((i16le bytes (off + 8 * shapes + 8) : ℚ) / 4096,
      (i16le bytes (off + 8 * shapes + 10) : ℚ) / 4096),
    color := vertexColor (u32le bytes (off + 8 * shapes + 12)) }

/-- The offsets inside a vertex record that the static mesh is decoded from: the x, y,
z of shape 0, the x, y, z of the normal, and the whole texture record. -/
def usedRecordOffset (shapes j : Nat) : Prop :=
  j < 6 ∨ (8 * shapes ≤ j ∧ j < 8 * shapes + 6) ∨ (8 * shapes + 8 ≤ j ∧ j < 8 * shapes + 16)

/-- A complete model file: header with two shapes and three vertices, three 32-byte
vertex records, and three trailing bytes. -/
def smallModel : List Nat :=
  [0, 0, 1, 0, 2, 0, 0, 0, 7, 0, 0, 0, 0, 0, 128, 63, 3, 0, 0, 0] ++ List.range 96 ++ [9, 9, 9]

/-- A model file cut short: a valid header (magic `0x00010000`, one shape, three
vertices) followed by one complete 24-byte vertex record and ten more bytes. -/
def truncatedModel : List Nat :=
  [0, 0, 1, 0, 1, 0, 0, 0, 0, 0, 0, 0, 0, 0, 128, 63, 3, 0, 0, 0] ++
  [0, 16, 0, 0, 0, 240, 0, 0, 0, 0, 0, 16, 0, 0, 0, 0, 0, 8, 0, 8, 255, 255, 255, 128] ++
  [0, 16, 0, 16, 0, 0, 0, 0, 0, 0]

/-! ## TextureLoader: pixel readers -/

/-- The output format tags assigned by `LoadFromPath` (`TexFormat`). -/
inductive TexFormat where
  | RGBA16
  | RGBA32
  | Indexed8
  | Indexed4
  deriving DecidableEq, Repr

/-- The texture record `TexData` as `TextureLoader.cpp` uses it: `int` dimensions, the
detected storage mode, the output format, the validity flag and the RGBA8888 pixel
vector. -/
structure TexData where
  width : Int
  height : Int
  originalPsm : PS2_PSM
  format : TexFormat
  valid : Bool
  pixels : List Nat
  deriving DecidableEq, Repr

/-- The call `pixels.resize(n)` on a byte vector: existing bytes are kept up to the
new size, new bytes are zero. -/
def resizeBytes (v : List Nat) (n : Nat) : List Nat :=
  v.take n ++ List.replicate (n - v.length) 0

/-- The four stores `pixels[dstIdx+0..3] = r, g, b, a` of a reader's loop body. -/
def put4 (pixels : List Nat) (dstIdx r g b a : Nat) : List Nat :=
  (((pixels.set dstIdx r).set (dstIdx + 1) g).set (dstIdx + 2) b).set (dstIdx + 3) a

/-- The nested loop `for (y = 0; y < height; y++) for (x = 0; x < width; x++)` shared by
the readers, running the given body on the pixel vector. -/
def pixelLoop (width height : Nat) (body : Nat → Nat → List Nat → List Nat)
    (pixels : List Nat) : List Nat :=
  (List.range height).foldl
    (fun px y => (List.range width).foldl (fun px x => body x y px) px) pixels

/-- The nested loop of the readers with a body that has no result when it reads
outside the source: the loop then has no result either. -/
def pixelLoopM (width height : Nat) (body : Nat → Nat → List Nat → Option (List Nat))
    (pixels : List Nat) : Option (List Nat) :=
  (List.range height).foldlM
    (fun px y => (List.range width).foldlM (fun px x => body x y px) px) pixels

/-- The conversion of a 16-bit texel in `Read16`: the `uint8_t` values `r`, `g`, `b`, `a`
stored for the raw value. -/
def texel16 (raw : Nat) : Nat × Nat × Nat × Nat :=
  let r := ((raw &&& 0x1F) <<< 3) % 256
  let g := ((raw >>> 5) &&& 0x1F) % 256
  let g := (g <<< 3) % 256
  let b := ((raw >>> 10) &&& 0x1F) % 256
  let b := (b <<< 3) % 256
  let a := if raw >>> 15 ≠ 0 then 255 else 0
  let r := r ||| (r >>> 5)
  let g := g ||| (g >>> 5)
  let b := b ||| (b >>> 5)
  let a := if a = 0 ∧ (r ≠ 0 ∨ g ≠ 0 ∨ b ≠ 0) then 255 else a
  (r, g, b, a)

/-- The function `TextureLoader::Read16` on the bytes `src` points to.  The result is
`none` when the `int` product `width * height * 4` is negative (`resize` throws) or
does not fit an `int` (signed overflow), and when a texel is read outside the source
(undefined in C++).  In the loops the `int` values are non-negative and their
conversion to `uint32_t` is the identity. -/
def Read16 (src : List Nat) (out : TexData) : Option (Bool × TexData) :=
  if out.width * out.height * 4 < 0 ∨ 2 ^ 31 ≤ out.width * out.height * 4 then none
  else
    let width := out.width.toNat
    let pixels := resizeBytes out.pixels (out.width * out.height * 4).toNat
    match pixelLoopM width out.height.toNat (fun x y px => do
        let addr := GetGSAddress x y width .GS_PSM_16
        let lo ← src[addr]?
        let hi ← src[addr + 1]?
        let raw := lo + 256 * hi
        let t := texel16 raw
        let dstIdx := (y * width + x) * 4
        pure (put4 px dstIdx t.1 t.2.1 t.2.2.1 t.2.2.2)) pixels with
    | none => none
    | some pixels => some (true, { out with pixels := pixels })

/-- The alpha expression of `Read32` for four-byte pixels,
`std::min((int)src[addr+3]*2, 255)`, as stored to the `uint8_t` output. -/
def alpha32 (a : Nat) : Nat := (min (a * 2) 255) % 256

/-- The function `TextureLoader::Read32`, for 24-bit (three bytes a pixel, linear) and
32-bit (four bytes a pixel, swizzled) data.  `addr` is a `uint32_t`, so `addr + k`
wraps modulo `2^32`; the `int` expressions are non-negative inside the loops and their
conversion to `uint32_t` is the identity.  The result is `none` when
`width * height * 4` is negative or does not fit an `int`, and when a byte is read
outside the source. -/
def Read32 (src : List Nat) (out : TexData) : Option (Bool × TexData) :=
  if out.width * out.height * 4 < 0 ∨ 2 ^ 31 ≤ out.width * out.height * 4 then none
  else
    let bpp : Nat := if out.originalPsm = .GS_PSM_24 then 3 else 4
    let width := out.width.toNat
    let pixels := resizeBytes out.pixels (out.width * out.height * 4).toNat
    match pixelLoopM width out.height.toNat (fun x y px => do
        let addr :=
          if out.originalPsm = .GS_PSM_24 then (y * width + x) * 3
          else GetGSAddress x y width .GS_PSM_32
        let dstIdx := (y * width + x) * 4
        let r ← src[u32 (addr + 0)]?
        let g ← src[u32 (addr + 1)]?
        let b ← src[u32 (addr + 2)]?
        let a ← if bpp = 4 then (src[u32 (addr + 3)]?).map alpha32 else some 255
        pure (put4 px dstIdx r g b a)) pixels with
    | none => none
    | some pixels => some (true, { out with pixels := pixels })

/-- The alpha expression of `Read8`, `(val > 128) ? 255 : (val * 2)`, as stored to the
`uint8_t` output (the `int` result is truncated to eight bits). -/
def alpha8 (val : Nat) : Nat := (if val > 128 then 255 else val * 2) % 256

/-- The function `TextureLoader::Read8`.  The flag `hasClut` is forced to `false`
before the loops, so the palette branch (which stores nothing) is never taken.  The
result is `none` when `width * height * 4` is negative or does not fit an `int`.  A
read past the end of the source, undefined in C++, is kept here as a read of the
index with the value 0, so that the index of such a read stays visible in the
result. -/
def Read8 (src : List Nat) (out : TexData) : Option (Bool × TexData) :=
  if out.width * out.height * 4 < 0 ∨ 2 ^ 31 ≤ out.width * out.height * 4 then none
  else
    let hasClut := false
    let width := out.width.toNat
    let pixels := resizeBytes out.pixels (out.width * out.height * 4).toNat
    let pixels := pixelLoop width out.height.toNat (fun x y px =>
      let addr := GetGSAddress x y width .GS_PSM_8
      let val := src.getD addr 0
      let dstIdx := (y * width + x) * 4
      if hasClut then px
      else put4 px dstIdx 255 255 255 (alpha8 val)) pixels
    some (true, { out with pixels := pixels })

/-- The value `v` of `Read4` for the source byte `b` at column `x`: the low nibble for
even `x`, the high nibble for odd `x`, then `v *= 17` in a `uint8_t`. -/
def nibble17 (b x : Nat) : Nat :=
  let v := if x % 2 = 0 then (b &&& 0xF) % 256 else (b >>> 4) % 256
  (v * 17) % 256

/-- The function `TextureLoader::Read4`.  The value `addrByte` is computed by the
source and never used: the byte is fetched at the linear address `linAddr`.  The
result is `none` when `width * height * 4` is negative or does not fit an `int`, and
when a byte is read outside the source. -/
def Read4 (src : List Nat) (out : TexData) : Option (Bool × TexData) :=
  if out.width * out.height * 4 < 0 ∨ 2 ^ 31 ≤ out.width * out.height * 4 then none
  else
    let width := out.width.toNat
    let pixels := resizeBytes out.pixels (out.width * out.height * 4).toNat
    match pixelLoopM width out.height.toNat (fun x y px => do
        let _addrByte := GetGSAddress (x / 2) y (width / 2) .GS_PSM_4
        let linAddr := (y * width + x) / 2
        let b ← src[linAddr]?
        let v := nibble17 b x
        let dst := (y * width + x) * 4
        pure (put4 px dst 255 255 255 v)) pixels with
    | none => none
    | some pixels => some (true, { out with pixels := pixels })

/-- The divisor of the bounds test of `LoadFromPath`,
`psm == GS_PSM_4 ? 2 : (psm == GS_PSM_16 ? 0.5 : 1)`, a `double`. -/
def boundsDivisor (psm : PS2_PSM) : ℚ :=
  if psm = .GS_PSM_4 then 2 else if psm = .GS_PSM_16 then 1 / 2 else 1

/-- The value of `off` after the bounds test of `LoadFromPath`: reset to `0` when
`off + (w * h) / divisor > size`, evaluated in floating point (exact for these
magnitudes). -/
def checkedOffset (size : Nat) (d : Detected) : Int :=
  if (d.offset : ℚ) + ((d.w * d.h : Int) : ℚ) / boundsDivisor d.psm > (size : ℚ) then 0
  else d.offset

/-- The function `TextureLoader::LoadFromPath` on a file that cannot be opened (`none`)
or on the bytes of the file.  `w0` and `h0` are the indeterminate initial values of the
locals `w` and `h`. -/
def LoadFromPath (file : Option (List Nat)) (w0 h0 : Int) (out : TexData) :
    Option (Bool × TexData) :=
  match file with
  | none => some (false, out)
  | some data =>
    let size := data.length
    let d := DetectPSM size w0 h0
    let out := { out with originalPsm := d.psm, width := d.w, height := d.h, valid := true }
    let off := checkedOffset size d
    let ptr := data.drop off.toNat
    match d.psm with
    | .GS_PSM_16 => Read16 ptr { out with format := .RGBA16 }
    | .GS_PSM_24 => Read32 ptr { out with format := .RGBA32 }
    | .GS_PSM_32 => Read32 ptr { out with format := .RGBA32 }
    | .GS_PSM_8 => Read8 ptr { out with format := .Indexed8 }
    | .GS_PSM_4 => Read4 ptr { out with format := .Indexed4 }
    | _ => some (false, out)

/-- The indices of `src` that the reader chosen by `LoadFromPath` for the storage mode
dereferences at the pixel `(x, y)`: two bytes in `Read16`, three (24-bit) or four
(32-bit) in `Read32`, one in `Read8` and in `Read4`. -/
def sourceReads (psm : PS2_PSM) (width x y : Nat) : List Nat :=
  match psm with
  | .GS_PSM_16 =>
    [GetGSAddress x y width .GS_PSM_16, GetGSAddress x y width .GS_PSM_16 + 1]
  | .GS_PSM_24 =>
    [u32 ((y * width + x) * 3 + 0), u32 ((y * width + x) * 3 + 1),
     u32 ((y * width + x) * 3 + 2)]
  | .GS_PSM_32 =>
    [u32 (GetGSAddress x y width .GS_PSM_32 + 0), u32 (GetGSAddress x y width .GS_PSM_32 + 1),
     u32 (GetGSAddress x y width .GS_PSM_32 + 2), u32 (GetGSAddress x y width .GS_PSM_32 + 3)]
  | .GS_PSM_8 => [GetGSAddress x y width .GS_PSM_8]
  | .GS_PSM_4 => [(y * width + x) / 2]
  | _ => []

/-! ## VAGDecoder: ADPCM audio -/

/-- Table `VagLut`: the five predictor coefficient pairs.  Every entry is a multiple
of `1/64`, exact as a `double`. -/
def VagLut : List (ℚ × ℚ) :=
  [(0, 0), (60 / 64, 0), (115 / 64, -52 / 64), (98 / 64, -55 / 64), (122 / 64, -60 / 64)]

/-- The function `Swap32` of `VAGDecoder.cpp`, on a `uint32_t` value. -/
def Swap32 (v : Nat) : Nat :=
  ((v >>> 24) &&& 0xff) ||| (u32 (v <<< 8) &&& 0xff00) ||| ((v >>> 8) &&& 0xff00) |||
    (u32 (v <<< 24) &&& 0xff000000)

/-- The test of the four magic bytes `'V','A','G','p'` at offset `i` of a buffer. -/
def isMagicAt (buffer : List Nat) (i : Nat) : Bool :=
  buffer.getD i 0 == 86 && buffer.getD (i + 1) 0 == 65 && buffer.getD (i + 2) 0 == 71 &&
    buffer.getD (i + 3) 0 == 112

/-- The loop `for (i = 0; i <= size - 48; i += 4)` of `ScanForHeaders`, from index `i`
with the offsets collected so far; the first argument bounds the number of
iterations. -/
def scanLoop (buffer : List Nat) : Nat → Nat → List Nat → List Nat
  | 0, _, offsets => offsets
  | fuel + 1, i, offsets =>
    if i ≤ buffer.length - 48 then
      scanLoop buffer fuel (i + 4) (if isMagicAt buffer i then offsets ++ [i] else offsets)
    else offsets

/-- The function `VAGDecoder::ScanForHeaders`.  The loop runs at most
`size / 4` times on a buffer of at least 48 bytes, so `size` iterations suffice. -/
def ScanForHeaders (buffer : List Nat) : List Nat :=
  if buffer.length < 48 then []
  else scanLoop buffer buffer.length 0 []

/-- Conversion `(int)` of a `double` (a rational in the model): truncation toward
zero. -/
def truncToInt (q : ℚ) : Int := if 0 ≤ q then ⌊q⌋ else ⌈q⌉

/-- The decoder state carried through the block loop of `DecodeInternal`: the filter
history `h1`, `h2` (C++ `double` values, held as the rationals they denote) and the
samples pushed to `pcm`. -/
structure DecState where
  h1 : ℚ
  h2 : ℚ
  pcm : List Int

/-- The sign-extended nibble of sample `s` of the block at offset `i`: the value of
the local `sample` after `if (sample & 0x8000) sample |= 0xFFFF0000`. -/
def sampleValue (pData : List Nat) (i s : Nat) : Int :=
  let byteIndex := s / 2
  let b := pData.getD (i + 2 + byteIndex) 0
  let nibble := if s % 2 = 0 then b &&& 0xF else (b >>> 4) &&& 0xF
  let sample := nibble <<< 12
  if sample &&& 0x8000 ≠ 0 then (sample : Int) - 65536 else (sample : Int)

/-- The clamp of `val` to the range of `int16_t`. -/
def clamp16 (val : Int) : Int :=
  let val := if val > 32767 then 32767 else val
  if val < -32768 then -32768 else val

/-- One iteration of the inner loop `for (s = 0; s < 28; s++)` on the block at
offset `i` with the given predictor and shift.  The expression
`(sample >> shift) + h1 * VagLut[..][0] + h2 * VagLut[..][1]` is evaluated in `double`
from left to right, each product and each sum rounded to binary64 (the conversion of
the `int` is exact). -/
def sampleStep (pData : List Nat) (i predict shift : Nat) (st : DecState) (s : Nat) :
    DecState :=
  let sample := sampleValue pData i s
  let c := VagLut.getD (predict % 5) (0, 0)
  let fSample : ℚ :=
    fl64 (fl64 (((sample >>> shift : Int) : ℚ) + fl64 (st.h1 * c.1)) + fl64 (st.h2 * c.2))
  { h1 := fSample, h2 := st.h1, pcm := st.pcm ++ [clamp16 (truncToInt fSample)] }

/-- The body of the block loop for the 16-byte block at offset `i`: predictor and
shift from byte 0 (the flag byte 1 is read and not used), then the 28 samples. -/
def decodeBlock (pData : List Nat) (i : Nat) (st : DecState) : DecState :=
  let predict := (pData.getD i 0 >>> 4) &&& 0xF
  let shift := pData.getD i 0 &&& 0xF
  (List.range 28).foldl (sampleStep pData i predict shift) st

/-- The loop `for (i = 0; i + 16 <= size; i += 16)` of `DecodeInternal`, from
index `i`; the first argument bounds the number of iterations. -/
def blockLoop (pData : List Nat) (size : Nat) : Nat → Nat → DecState → DecState
  | 0, _, st => st
  | fuel + 1, i, st =>
    if i + 16 ≤ size then blockLoop pData size fuel (i + 16) (decodeBlock pData i st)
    else st

/-- The samples `pcm` collected by the block loop of `DecodeInternal`, starting from
zero history.  The loop runs `size / 16` times, so `size` iterations suffice. -/
def decodeSamples (pData : List Nat) (size : Nat) : List Int :=
  (blockLoop pData size size 0 { h1 := 0, h2 := 0, pcm := [] }).pcm

/-- Little-endian bytes of a 16-bit pattern. -/
def le16 (n : Nat) : List Nat := [n % 256, n / 256 % 256]

/-- Little-endian bytes of a 32-bit pattern. -/
def le32 (n : Nat) : List Nat := [n % 256, n / 256 % 256, n / 65536 % 256, n / 16777216 % 256]

/-- The two little-endian bytes of an `int16_t` sample. -/
def sampleBytes (v : Int) : List Nat := le16 (v % 65536).toNat

/-- Conversion of an `int` to `uint32_t`. -/
def ofInt32 (v : Int) : Nat := (v % 4294967296).toNat

/-- Conversion of a `uint32_t` to `int`. -/
def toInt32 (n : Nat) : Int :=
  if n % 4294967296 < 2147483648 then ((n % 4294967296 : Nat) : Int)
  else ((n % 4294967296 : Nat) : Int) - 4294967296

/-- The function `VAGDecoder::DecodeInternal`: the returned flag and the contents of
`outWav` after the call (unchanged when the call fails). -/
def DecodeInternal (pData : List Nat) (size : Nat) (outWav : List Nat) (sampleRate : Int) :
    Bool × List Nat :=
  if size = 0 then (false, outWav)
  else
    let pcm := decodeSamples pData size
    if pcm.isEmpty then (false, outWav)
    else
      let pcmBytes := pcm.length * 2
      let totalLen := u32 (36 + u32 pcmBytes)
      let fmtRate := ofInt32 sampleRate
      let byteRate := ofInt32 (sampleRate * 2)
      (true,
        [82, 73, 70, 70] ++ le32 totalLen ++ [87, 65, 86, 69, 102, 109, 116, 32] ++
        le32 16 ++ le16 1 ++ le16 1 ++ le32 fmtRate ++ le32 byteRate ++ le16 2 ++ le16 16 ++
        [100, 97, 116, 97] ++ le32 (u32 pcmBytes) ++ pcm.flatMap sampleBytes)

/-- The function `VAGDecoder::Decode`. -/
def Decode (data : List Nat) (outWav : List Nat) : Bool × List Nat :=
  if data.length < 48 then (false, outWav)
  else if data.take 4 ≠ [86, 65, 71, 112] then (false, outWav)
  else
    let sampleRate := Swap32 (u32le data 16)
    let dataSize := Swap32 (u32le data 12)
    let sampleRate := if sampleRate = 0 then 44100 else sampleRate
    let actualPayload := data.length - 48
    let dataSize :=
      if dataSize > actualPayload ∨ dataSize = 0 then u32 actualPayload else dataSize
    DecodeInternal (data.drop 48) dataSize outWav (toInt32 sampleRate)

/-- The function `VAGDecoder::DecodeRaw`. -/
def DecodeRaw (raw : List Nat) (outWav : List Nat) (sampleRate : Int) : Bool × List Nat :=
  DecodeInternal raw raw.length outWav sampleRate

/-- The sub-buffer that `SoundLoader::LoadFile` hands to `Decode` for the `i`-th
header offset: from that offset to the next offset, or to the end of the buffer. -/
def streamSlice (buffer : List Nat) (vagOffsets : List Nat) (i : Nat) : List Nat :=
  let start := vagOffsets.getD i 0
  let end_ := if i + 1 < vagOffsets.length then vagOffsets.getD (i + 1) 0 else buffer.length
  (buffer.take end_).drop start

/-- The two's-complement value, in `-8..7`, of the `k`-th nibble of the block at
offset `i`: the low nibble of data byte `k / 2` for even `k`, the high nibble for odd
`k` (the data bytes follow the two header bytes of the block). -/
def signedNibble (pData : List Nat) (i k : Nat) : Int :=
  let b := pData.getD (i + 2 + k / 2) 0
  let nibble := if k % 2 = 0 then b % 16 else b / 16 % 16
  if nibble < 8 then (nibble : Int) else (nibble : Int) - 16

/-- The filter input of the `k`-th sample of the block at offset `i`: the nibble
sign-extended to 16 bits (`nibble * 4096`), divided by `2 ^ shift` and rounded down,
where the shift is the low nibble of the block's first byte. -/
def shiftedNibble (pData : List Nat) (i k : Nat) : Int :=
  ⌊((signedNibble pData i k * 4096 : Int) : ℚ) / 2 ^ (pData.getD i 0 % 16)⌋

/-- The coefficient pair used for the stream's `n`-th sample: `VagLut[predictor mod 5]`
with the predictor in the high nibble of the first byte of block `n / 28`. -/
def filterCoef (pData : List Nat) (n : Nat) : ℚ × ℚ :=
  VagLut.getD ((pData.getD (16 * (n / 28)) 0 / 16 % 16) % 5) (0, 0)

/-- The filter input of the stream's `n`-th sample (sample `n mod 28` of block
`n / 28`). -/
def filterInput (pData : List Nat) (n : Nat) : ℚ :=
  (shiftedNibble pData (16 * (n / 28)) (n % 28) : ℚ)

/-- The history pair `(h1, h2)` before the stream's `n`-th sample in the recurrence
whose history is the unclamped filter output: zero at the start, then
`h1 ← e + h1 * c0 + h2 * c1`, `h2 ← h1`, each product and each sum, taken from left to
right, rounded to binary64. -/
def filterHist (pData : List Nat) : Nat → ℚ × ℚ
  | 0 => (0, 0)
  | n + 1 =>
    let h := filterHist pData n
    (fl64 (fl64 (filterInput pData n + fl64 (h.1 * (filterCoef pData n).1)) +
        fl64 (h.2 * (filterCoef pData n).2)), h.1)

/-- The unclamped filter output of the stream's `n`-th sample. -/
def filterOut (pData : List Nat) (n : Nat) : ℚ := (filterHist pData (n + 1)).1

/-- The decoder state after `n` samples according to the recurrence (used to state
the loop invariant). -/
def stateAfter (pData : List Nat) (n : Nat) : DecState :=
  { h1 := (filterHist pData n).1, h2 := (filterHist pData n).2,
    pcm := (List.range n).map fun k => clamp16 (truncToInt (filterOut pData k)) }

/-- A 16-byte block with predictor 1, shift 0, first two nibbles `8` (the most
negative value) and all other nibbles zero. -/
def saturatingBlock : List Nat := [0x10, 0, 0x88, 0, 0, 0, 0, 0, 0, 0, 0, 0, 0, 0, 0, 0]

/-- The big-endian 32-bit value stored at byte offset `off` of a buffer (how the
audio header stores its declared data size and sample rate). -/
def be32 (b : List Nat) (off : Nat) : Nat :=
  16777216 * b.getD off 0 + 65536 * b.getD (off + 1) 0 + 256 * b.getD (off + 2) 0 +
    b.getD (off + 3) 0

/-- A well-formed audio stream as described for the header scan: bytes only, a
48-byte header starting with `VAGp` whose declared data size is the payload length,
and a payload of `blocks ≥ 1` complete 16-byte blocks. -/
def WellFormedStream (s : List Nat) (blocks : Nat) : Prop :=
  (∀ b ∈ s, b < 256) ∧ s.take 4 = [86, 65, 71, 112] ∧ 1 ≤ blocks ∧
    s.length = 48 + 16 * blocks ∧ be32 s 12 = s.length - 48

/-- A well-formed stream of one block: header `VAGp`, declared size 16, sample rate
22050, and a 16-byte payload. -/
def streamA : List Nat :=
  [86, 65, 71, 112, 0, 0, 0, 32, 0, 0, 0, 0, 0, 0, 0, 16, 0, 0, 86, 34] ++
    List.replicate 28 0 ++ [0x23, 0, 0x1F, 0x80, 0x7F, 0x01, 0, 0, 0, 0, 0, 0, 0, 0, 0, 0]

/-- A well-formed stream of two blocks: header `VAGp`, declared size 32, sample rate
left zero, and a 32-byte payload. -/
def streamB : List Nat :=
  [86, 65, 71, 112, 0, 0, 0, 32, 0, 0, 0, 0, 0, 0, 0, 32, 0, 0, 0, 0] ++
    List.replicate 28 0 ++ [0x40, 0, 0x11, 0x22, 0x33, 0x44, 0, 0, 0, 0, 0, 0, 0, 0, 0, 0] ++
    [0x12, 7, 0xFF, 0xEE, 0, 0, 0, 0, 0, 0, 0, 0, 0, 0, 0, 0]

/-- Two complete blocks, the first carrying the end-of-stream flag value 7 in its
flag byte. -/
def flaggedBlocks : List Nat :=
  [0x12, 7, 0xFF, 0xEE, 0, 0, 0, 0, 0, 0, 0, 0, 0, 0, 0, 0] ++
    [0x40, 0, 0x11, 0x22, 0x33, 0x44, 0, 0, 0, 0, 0, 0, 0, 0, 0, 0]

/-- The same two blocks with flag bytes 0 and 3. -/
def unflaggedBlocks : List Nat :=
  [0x12, 0, 0xFF, 0xEE, 0, 0, 0, 0, 0, 0, 0, 0, 0, 0, 0, 0] ++
    [0x40, 3, 0x11, 0x22, 0x33, 0x44, 0, 0, 0, 0, 0, 0, 0, 0, 0, 0]

/-- A well-formed one-block stream whose header declares, big-endian, a data size of
16 bytes and a sample rate of 96000 Hz (`0x00017700`). -/
def vag96k : List Nat :=
  [86, 65, 71, 112, 0, 0, 0, 32, 0, 0, 0, 0, 0, 0, 0, 16, 0, 1, 0x77, 0] ++
    List.replicate 28 0 ++ [0x23, 0, 0x1F, 0x80, 0x7F, 0x01, 0, 0, 0, 0, 0, 0, 0, 0, 0, 0]

/-- A 256-byte block of 16-bit texels for a 16x8 image (one GS block): texel `k` of
the buffer holds the value `257 * k` (low and high byte both `k`). -/
def texels16 : List Nat := (List.range 256).map (fun i => i / 2)

/-- A texture record for a 16x8 16-bit image with an empty pixel vector. -/
def tex16x8 : TexData :=
  { width := 16, height := 8, originalPsm := .GS_PSM_16, format := .RGBA16, valid := true,
    pixels := [] }

/-- A 52-byte buffer holding the magic `VAGp` at the aligned offset 8 only. -/
def lateMagicBuffer : List Nat :=
  List.replicate 8 0 ++ [86, 65, 71, 112] ++ List.replicate 40 0

/-- Number of iterations the loop of `ScanForHeaders` still runs from index `i`
(used to state the loop invariant). -/
def scanCount (buffer : List Nat) (i : Nat) : Nat :=
  if i ≤ buffer.length - 48 then (buffer.length - 48 - i) / 4 + 1 else 0

/-- A 256-byte source holding the byte `k` at offset `k`. -/
def ramp256 : List Nat := List.range 256

/-- A 32-bit texture record of 8 x 8 pixels (one GS block) with no pixels yet. -/
def tex32x8 : TexData :=
  { width := 8, height := 8, originalPsm := .GS_PSM_32, format := .RGBA32, valid := true,
    pixels := [] }

/-- An 8-bit texture record of one pixel with no pixels yet. -/
def tex8x1 : TexData :=
  { width := 1, height := 1, originalPsm := .GS_PSM_8, format := .Indexed8, valid := true,
    pixels := [] }

/-- A 4-bit texture record of 8 x 4 pixels with no pixels yet. -/
def tex4x8 : TexData :=
  { width := 8, height := 4, originalPsm := .GS_PSM_4, format := .Indexed4, valid := true,
    pixels := [] }

/-- A model file whose header is accepted by the validation of `Load` (three
vertices) and declares no animation shape, followed by 48 data bytes. -/
def zeroShapeModel : List Nat :=
  [0, 0, 1, 0, 0, 0, 0, 0, 0, 0, 0, 0, 0, 0, 128, 63, 3, 0, 0, 0] ++ List.range 48

/-! ## Core: the state machine -/

/-- The enumerators of `enum class State`. -/
inductive State where
  | SCELogo
  | Boot
  | Menu
  | Config
  | Browser
  | Version
  | DVD
  | DebugVu1Scene
  | DebugFont
  | DebugSound
  | DebugTexture
  deriving DecidableEq, Repr

/-- The underlying `int` value of an enumerator, `(int)state`. -/
def State.toInt : State → Int
  | .SCELogo => -1
  | .Boot => 0
  | .Menu => 1
  | .Config => 2
  | .Browser => 3
  | .Version => 4
  | .DVD => 5
  | .DebugVu1Scene => 6
  | .DebugFont => 7
  | .DebugSound => 8
  | .DebugTexture => 9

/-- The class `ProcessTransition`.  The member `currentState` is kept by its underlying
value: the cast `(State)trigger` stores any `int`. -/
structure ProcessTransition where
  currentState : Int
  trigger : Int
  deriving DecidableEq, Repr

/-- The default member initialisers: `currentState = State::Boot`, `trigger = -1`. -/
def ProcessTransition.new : ProcessTransition :=
  { currentState := State.Boot.toInt, trigger := -1 }

/-- The method `ProcessTransition::RequestStateChange`. -/
def ProcessTransition.RequestStateChange (self : ProcessTransition) (newState : State) :
    ProcessTransition :=
  if self.trigger = -1 then { self with trigger := newState.toInt } else self

/-- The method `ProcessTransition::GetCurrentState`. -/
def ProcessTransition.GetCurrentState (self : ProcessTransition) : Int := self.currentState

/-- The method `ProcessTransition::HasPendingTransition`. -/
def ProcessTransition.HasPendingTransition (self : ProcessTransition) : Bool :=
  self.trigger != -1

/-- The method `ProcessTransition::ProcessStateChange`. -/
def ProcessTransition.ProcessStateChange (self : ProcessTransition) : ProcessTransition :=
  if self.trigger ≠ -1 then { currentState := self.trigger, trigger := -1 } else self

/-! ## SoundLoader: headerless archives -/

/-- A value of type `size_t`, taken as 64 bits wide: sums wrap modulo `2^64`. -/
def u64 (n : Nat) : Nat := n % 2 ^ 64

/-- The difference `a - b` of two `size_t` values, wrapping modulo `2^64`. -/
def sub64 (a b : Nat) : Nat := (a + 2 ^ 64 - b) % 2 ^ 64

/-- The key a chunk is registered under: the base `name`, or
`name + "_" + std::to_string(index)`. -/
inductive ChunkKey where
  | base
  | sub (index : Int)
  deriving DecidableEq, Repr

/-- One call of `RegisterChunk`: the key and the byte range `[start, stop)` of the file
buffer whose decoding was registered. -/
structure Chunk where
  key : ChunkKey
  start : Nat
  stop : Nat
  deriving DecidableEq, Repr

/-- The function `SoundLoader::RawToChunk`, by its returned flag (the chunk is
registered exactly when it returns true).  The parameter stands for the external call
`Mix_LoadWAV_RW`: whether it returns a chunk for the given WAV bytes. -/
def RawToChunk (Mix_LoadWAV_RW : List Nat → Bool) (data : List Nat) : Bool :=
  let r := DecodeRaw data [] 44100
  if r.1 then
    if Mix_LoadWAV_RW r.2 then true else false
  else false

/-- The function `SoundLoader::LoadFromMemory`, by its returned flag. -/
def LoadFromMemory (Mix_LoadWAV_RW : List Nat → Bool) (data : List Nat) (forceVAG : Bool) :
    Bool :=
  if forceVAG then
    let r := Decode data []
    if r.1 then
      if Mix_LoadWAV_RW r.2 then true else false
    else false
  else false

/-- The delimiter test of the split loop on the block at `i`: bytes `07 77 77` or
`00 07 77`. -/
def isDelimiter (buffer : List Nat) (i : Nat) : Bool :=
  if buffer.getD i 0 = 0x07 ∧ buffer.getD (i + 1) 0 = 0x77 ∧ buffer.getD (i + 2) 0 = 0x77 then
    true
  else if buffer.getD i 0 = 0x00 ∧ buffer.getD (i + 1) 0 = 0x07 ∧
      buffer.getD (i + 2) 0 = 0x77 then
    true
  else false

/-- The loop `while (nextData + 16 < buffer.size())` that skips padding blocks after a
delimiter, by recursion on a bound for the number of passes; each pass advances
`nextData` by 16 below the buffer size, so `buffer.size()` passes are never used up. -/
def skipPadding (buffer : List Nat) : Nat → Nat → Nat
  | 0, nextData => nextData
  | fuel + 1, nextData =>
    if u64 (nextData + 16) < buffer.length then
      if buffer.getD nextData 0 = 0 ∧ buffer.getD (nextData + 1) 0 = 0 then
        skipPadding buffer fuel (u64 (nextData + 16))
      else if buffer.getD nextData 0 = 0x77 ∧ buffer.getD (nextData + 1) 0 = 0x77 then
        skipPadding buffer fuel (u64 (nextData + 16))
      else nextData
    else nextData

/-- The test under which the padding loop steps over the block at `p`: its first two
bytes are `00 00` or `77 77`. -/
def paddingStart (buffer : List Nat) (p : Nat) : Prop :=
  (buffer.getD p 0 = 0 ∧ buffer.getD (p + 1) 0 = 0) ∨
  (buffer.getD p 0 = 0x77 ∧ buffer.getD (p + 1) 0 = 0x77)

/-- The variables of the split loop of `LoadFile`, with the registrations made so
far. -/
structure SplitState where
  i : Nat
  streamStart : Nat
  index : Int
  isSplit : Bool
  bank : List Chunk
  deriving DecidableEq, Repr

/-- The block `if (len > 128) { ... }` of the split loop: the slice
`[streamStart, streamEnd)` is decoded and registered as `name_index` and, for index 0,
also as `name`.  `chunk` is the outcome of `RawToChunk` on a slice. -/
def emitSlice (chunk : List Nat → Bool) (buffer : List Nat) (st : SplitState)
    (streamEnd : Nat) : SplitState :=
  let len := sub64 streamEnd st.streamStart
  if len > 128 then
    let rawSlice := (buffer.take streamEnd).drop st.streamStart
    if chunk rawSlice then
      let bank := st.bank ++
        [{ key := .sub st.index, start := st.streamStart, stop := streamEnd }]
      let bank :=
        if st.index = 0 then
          if chunk rawSlice then
            bank ++ [{ key := .base, start := st.streamStart, stop := streamEnd }]
          else bank
        else bank
      { st with index := st.index + 1, isSplit := true, bank := bank }
    else st
  else st

/-- The body of the split loop for the block at `st.i`. -/
def splitBody (chunk : List Nat → Bool) (buffer : List Nat) (st : SplitState) : SplitState :=
  if isDelimiter buffer st.i then
    let streamEnd := u64 (st.i + 16)
    let streamEnd := if streamEnd > buffer.length then buffer.length else streamEnd
    let st := emitSlice chunk buffer st streamEnd
    let nextData := skipPadding buffer buffer.length streamEnd
    { st with streamStart := nextData, i := sub64 nextData 16 }
  else st

/-- One round of the loop `for (size_t i = 0; i < buffer.size() - 16; i += 16)`: the
test, and when it passes the body and the increment.  Once the test fails the state no
longer changes. -/
def splitStep (chunk : List Nat → Bool) (buffer : List Nat) (st : SplitState) : SplitState :=
  if st.i < sub64 buffer.length 16 then
    let st := splitBody chunk buffer st
    { st with i := u64 (st.i + 16) }
  else st

/-- The state of the split loop after `k` rounds from
`isSplit = false, streamStart = 0, index = 0, i = 0`. -/
def splitRounds (chunk : List Nat → Bool) (buffer : List Nat) : Nat → SplitState
  | 0 => { i := 0, streamStart := 0, index := 0, isSplit := false, bank := [] }
  | k + 1 => splitStep chunk buffer (splitRounds chunk buffer k)

/-- The branch of `LoadFile` for a buffer with `VAGp` headers: the registrations made
for the header offsets in turn. -/
def loadVagStreams (Mix_LoadWAV_RW : List Nat → Bool) (buffer : List Nat) : List Chunk :=
  let vagOffsets := ScanForHeaders buffer
  (List.range vagOffsets.length).foldl (fun bank i =>
    let start := vagOffsets.getD i 0
    let stop := if i + 1 < vagOffsets.length then vagOffsets.getD (i + 1) 0 else buffer.length
    let subBuf := (buffer.take stop).drop start
    if LoadFromMemory Mix_LoadWAV_RW subBuf true then
      let bank := bank ++ [{ key := .sub (i : Int), start := start, stop := stop }]
      if i = 0 then
        if LoadFromMemory Mix_LoadWAV_RW subBuf true then
          bank ++ [{ key := .base, start := start, stop := stop }]
        else bank
      else bank
    else bank) []

/-- The function `SoundLoader::LoadFile` on a file that cannot be opened (`none`) or on
the bytes of the file: the returned flag and the registrations made, in order.  The
split loop is run for `buffer.size() / 16` rounds, after which its test has failed. -/
def LoadFile (Mix_LoadWAV_RW : List Nat → Bool) (file : Option (List Nat)) :
    Bool × List Chunk :=
  match file with
  | none => (false, [])
  | some buffer =>
    if buffer.length < 32 then (false, [])
    else if (ScanForHeaders buffer).length > 0 then
      (true, loadVagStreams Mix_LoadWAV_RW buffer)
    else
      let st := splitRounds (RawToChunk Mix_LoadWAV_RW) buffer (buffer.length / 16)
      if ¬ st.isSplit ∧ buffer.length > 128 then
        if RawToChunk Mix_LoadWAV_RW buffer then
          (true, st.bank ++ [{ key := .base, start := 0, stop := buffer.length }] ++
            (if RawToChunk Mix_LoadWAV_RW buffer then
              [{ key := .sub 0, start := 0, stop := buffer.length }] else []))
        else (false, st.bank)
      else if st.isSplit then (true, st.bank)
      else (false, st.bank)

/-- The invariant of the split loop: `i` and the split point `streamStart` are
multiples of 16, the split point is not beyond `i`, and `i` is inside the buffer. -/
def SplitInv (buffer : List Nat) (st : SplitState) : Prop :=
  st.i % 16 = 0 ∧ st.streamStart % 16 = 0 ∧ st.streamStart ≤ st.i ∧ st.i < buffer.length

/-- A data block of a headerless stream (it starts neither a delimiter nor padding). -/
def dataBlock : List Nat := [0x1C, 0, 1, 2, 3, 4, 5, 6, 7, 8, 9, 10, 11, 12, 13, 14]

/-- A delimiter block `07 77 77 ...`. -/
def stopBlock : List Nat := 0x07 :: List.replicate 15 0x77

/-- A headerless archive of two streams, each of eight data blocks closed by a
delimiter block: 288 bytes, the second delimiter being the last 16 bytes. -/
def twoStreams : List Nat :=
  (List.replicate 8 dataBlock).flatten ++ stopBlock ++
  (List.replicate 8 dataBlock).flatten ++ stopBlock

/-- A 64-byte buffer: a delimiter block, a block `00 00 01 02 ...` that is not all
zero, and two data blocks. -/
def mixedPadding : List Nat :=
  stopBlock ++ [0, 0, 1, 2, 3, 4, 5, 6, 7, 8, 9, 10, 11, 12, 13, 14] ++ dataBlock ++ dataBlock

/-! ## Theorems -/

/-! ### Floating point -/

theorem roundHalfEven_intCast (z : Int) : roundHalfEven (z : ℚ) = z := by
  simp [roundHalfEven]

theorem roundFloat_zero (prec emin : Int) : roundFloat prec emin 0 = 0 := by
  simp [roundFloat]

/-- An integer of fewer than `prec` bits is a value of the format: it is not rounded. -/
theorem roundFloat_intCast (prec emin : Int) (he : emin ≤ 0) (z : Int)
    (hz : |z| < 2 ^ prec.toNat) : roundFloat prec emin (z : ℚ) = z := by
  by_cases h0 : z = 0
  · subst h0
    simp [roundFloat]
  have hq0 : (z : ℚ) ≠ 0 := by exact_mod_cast h0
  have hpos : (0 : ℚ) < |(z : ℚ)| := abs_pos.2 hq0
  have h1 : (1 : ℚ) ≤ |(z : ℚ)| := by
    have : (1 : Int) ≤ |z| := Int.one_le_abs h0
    exact_mod_cast this
  have hprec : 0 < prec := by
    by_contra hc
    have : prec.toNat = 0 := Int.toNat_eq_zero.2 (by omega)
    rw [this] at hz
    have : (1 : Int) ≤ |z| := Int.one_le_abs h0
    omega
  have hL0 : 0 ≤ Int.log 2 |(z : ℚ)| := by
    rw [← Int.zpow_le_iff_le_log (by decide) hpos]
    simpa using h1
  have hLp : Int.log 2 |(z : ℚ)| < prec := by
    rw [← Int.lt_zpow_iff_log_lt (by decide) hpos]
    have h2 : (|z| : Int) < 2 ^ prec.toNat := hz
    have h3 : ((|z| : Int) : ℚ) < ((2 ^ prec.toNat : Int) : ℚ) := by exact_mod_cast h2
    have h4 : ((2 : ℕ) : ℚ) ^ prec = ((2 ^ prec.toNat : Int) : ℚ) := by
      conv_lhs => rw [← Int.toNat_of_nonneg hprec.le]
      push_cast
      rw [zpow_natCast]
    rw [h4]
    simpa using h3
  unfold roundFloat
  rw [if_neg hq0]
  simp only
  rw [max_eq_left (le_trans he hL0)]
  generalize Int.log 2 |(z : ℚ)| = L at hL0 hLp
  obtain ⟨k, hk⟩ : ∃ k : Nat, L - (prec - 1) = -(k : Int) :=
    ⟨(prec - 1 - L).toNat, by rw [Int.toNat_of_nonneg (by omega)]; ring⟩
  rw [hk, zpow_neg, zpow_natCast, div_inv_eq_mul]
  have e : (z : ℚ) * 2 ^ k = ((z * 2 ^ k : Int) : ℚ) := by push_cast; rfl
  rw [e, roundHalfEven_intCast]
  push_cast
  field_simp

theorem roundHalfEven_cases (q : ℚ) : roundHalfEven q = ⌊q⌋ ∨
    (roundHalfEven q = ⌊q⌋ + 1 ∧ 1 / 2 ≤ q - ⌊q⌋) := by
  unfold roundHalfEven
  simp only
  split
  · exact Or.inl rfl
  · rename_i h
    split
    · exact Or.inr ⟨rfl, le_of_not_lt h⟩
    · split
      · exact Or.inl rfl
      · exact Or.inr ⟨rfl, le_of_not_lt h⟩

theorem roundHalfEven_le (q : ℚ) (n : Int) (h : q ≤ n) : roundHalfEven q ≤ n := by
  have hf : ⌊q⌋ ≤ n := Int.floor_le_iff.2 (by linarith [Int.floor_le q, Int.lt_floor_add_one q])
  rcases roundHalfEven_cases q with e | ⟨e, hh⟩
  · rw [e]; exact hf
  · rw [e]
    have : (⌊q⌋ : ℚ) < n := by linarith
    have : ⌊q⌋ < n := by exact_mod_cast this
    omega

theorem le_roundHalfEven (q : ℚ) (n : Int) (h : (n : ℚ) ≤ q) : n ≤ roundHalfEven q := by
  have hf : n ≤ ⌊q⌋ := Int.le_floor.2 h
  rcases roundHalfEven_cases q with e | ⟨e, -⟩ <;> rw [e] <;> omega

theorem roundHalfEven_err (q : ℚ) : |(roundHalfEven q : ℚ) - q| ≤ 1 / 2 := by
  have h1 := Int.floor_le q
  have h2 := Int.lt_floor_add_one q
  unfold roundHalfEven
  simp only
  rw [abs_le]
  split
  · constructor <;> linarith
  · rename_i h
    have h' := le_of_not_lt h
    split
    · push_cast; constructor <;> linarith
    · rename_i h3
      have h3' := le_of_not_lt h3
      split
      · constructor <;> linarith
      · push_cast; constructor <;> linarith

theorem roundHalfEven_eq (q : ℚ) (m : Int) (h : |q - m| < 1 / 2) : roundHalfEven q = m := by
  rw [abs_lt] at h
  have e := roundHalfEven_err q
  rw [abs_le] at e
  have h1 : ((roundHalfEven q : ℚ) - m) < 1 := by linarith [e.2, h.1]
  have h2 : (-1 : ℚ) < ((roundHalfEven q : ℚ) - m) := by linarith [e.1, h.2]
  have h3 : roundHalfEven q - m < 1 := by exact_mod_cast h1
  have h4 : -1 < roundHalfEven q - m := by exact_mod_cast h2
  omega

theorem log2_eq (x : ℚ) (e : Int) (h1 : (2 : ℚ) ^ e ≤ x) (h2 : x < (2 : ℚ) ^ (e + 1)) :
    Int.log 2 x = e := by
  have hx : 0 < x := lt_of_lt_of_le (by positivity) h1
  have a : e ≤ Int.log 2 x := by
    rw [← Int.zpow_le_iff_le_log (by decide) hx]
    simpa using h1
  have b : Int.log 2 x < e + 1 := by
    rw [← Int.lt_zpow_iff_log_lt (by decide) hx]
    simpa using h2
  omega

/-- Evaluation of the rounding at a value in a known binade. -/
theorem roundFloat_eval (prec emin : Int) (x : ℚ) (e m : Int) (he : emin ≤ e)
    (h1 : (2 : ℚ) ^ e ≤ |x|) (h2 : |x| < (2 : ℚ) ^ (e + 1))
    (hm : |x / (2 : ℚ) ^ (e - (prec - 1)) - m| < 1 / 2) :
    roundFloat prec emin x = (m : ℚ) * (2 : ℚ) ^ (e - (prec - 1)) := by
  have hx : x ≠ 0 := by
    intro h
    rw [h, abs_zero] at h1
    have : (0 : ℚ) < 2 ^ e := by positivity
    linarith
  unfold roundFloat
  rw [if_neg hx]
  simp only
  rw [log2_eq _ e h1 h2, max_eq_left he, roundHalfEven_eq _ m hm]

/-- A value `z * 2^j` with fewer than `prec` significand bits and `j` not below the
least exponent of the format is not rounded. -/
theorem roundFloat_dyadic (prec emin : Int) (z j : Int) (hz : |z| < 2 ^ prec.toNat)
    (hj : emin - (prec - 1) ≤ j) :
    roundFloat prec emin ((z : ℚ) * (2 : ℚ) ^ j) = (z : ℚ) * (2 : ℚ) ^ j := by
  by_cases h0 : z = 0
  · subst h0
    simp [roundFloat]
  have hq0 : (z : ℚ) ≠ 0 := by exact_mod_cast h0
  have hpw : (0 : ℚ) < (2 : ℚ) ^ j := by positivity
  have hx0 : (z : ℚ) * (2 : ℚ) ^ j ≠ 0 := mul_ne_zero hq0 hpw.ne'
  have hpos : (0 : ℚ) < |(z : ℚ) * (2 : ℚ) ^ j| := abs_pos.2 hx0
  have hprec : 0 < prec := by
    by_contra hc
    have : prec.toNat = 0 := Int.toNat_eq_zero.2 (by omega)
    rw [this] at hz
    have : (1 : Int) ≤ |z| := Int.one_le_abs h0
    omega
  have hLp : Int.log 2 |(z : ℚ) * (2 : ℚ) ^ j| < prec + j := by
    rw [← Int.lt_zpow_iff_log_lt (by decide) hpos]
    have h3 : ((|z| : Int) : ℚ) < ((2 ^ prec.toNat : Int) : ℚ) := by exact_mod_cast hz
    have h4 : ((2 : ℕ) : ℚ) ^ (prec + j) = ((2 ^ prec.toNat : Int) : ℚ) * (2 : ℚ) ^ j := by
      rw [zpow_add₀ (by norm_num)]
      congr 1
      conv_lhs => rw [← Int.toNat_of_nonneg hprec.le]
      push_cast
      rw [zpow_natCast]
    rw [h4, abs_mul, abs_of_pos hpw]
    have h5 : |(z : ℚ)| = ((|z| : Int) : ℚ) := by push_cast; rfl
    rw [h5]
    exact mul_lt_mul_of_pos_right h3 hpw
  unfold roundFloat
  rw [if_neg hx0]
  simp only
  have hE : max (Int.log 2 |(z : ℚ) * (2 : ℚ) ^ j|) emin - (prec - 1) ≤ j := by
    rcases max_cases (Int.log 2 |(z : ℚ) * (2 : ℚ) ^ j|) emin with ⟨h, -⟩ | ⟨h, -⟩ <;>
      rw [h] <;> omega
  generalize max (Int.log 2 |(z : ℚ) * (2 : ℚ) ^ j|) emin - (prec - 1) = u at hE
  obtain ⟨k, hk⟩ : ∃ k : Nat, j = u + (k : Int) :=
    ⟨(j - u).toNat, by rw [Int.toNat_of_nonneg (by omega)]; ring⟩
  have hu : (0 : ℚ) < (2 : ℚ) ^ u := by positivity
  have e : (z : ℚ) * (2 : ℚ) ^ j / (2 : ℚ) ^ u = ((z * 2 ^ k : Int) : ℚ) := by
    rw [hk, zpow_add₀ (by norm_num), zpow_natCast]
    push_cast
    field_simp
    ring
  rw [e, roundHalfEven_intCast, hk, zpow_add₀ (by norm_num), zpow_natCast]
  push_cast
  ring

/-- Rounding keeps a value of the unit interval inside it, and moves it by at most half
a unit in the last place of the binade below 1. -/
theorem roundFloat_unit (prec emin : Int) (hp : 1 ≤ prec) (he : emin ≤ -1) (x : ℚ)
    (h0 : 0 ≤ x) (h1 : x ≤ 1) :
    0 ≤ roundFloat prec emin x ∧ roundFloat prec emin x ≤ 1 ∧
    |roundFloat prec emin x - x| ≤ (2 : ℚ) ^ (-prec) / 2 := by
  have hpp : (0 : ℚ) ≤ (2 : ℚ) ^ (-prec) / 2 := by positivity
  rcases eq_or_lt_of_le h0 with hx0 | hx0
  · rw [← hx0]
    simp only [roundFloat, ↓reduceIte, le_refl, zero_le_one, sub_self, abs_zero, true_and]
    exact hpp
  rcases eq_or_lt_of_le h1 with hx1 | hx1
  · have e := roundFloat_dyadic prec emin 1 0
      (by
        rw [abs_one]
        exact one_lt_pow₀ (by norm_num) (by omega)) (by omega)
    simp only [Int.cast_one, zpow_zero, mul_one] at e
    rw [hx1, e]
    simp only [zero_le_one, le_refl, sub_self, abs_zero, true_and]
    exact hpp
  have hL : Int.log 2 |x| < 0 := by
    rw [← Int.lt_zpow_iff_log_lt (by decide) (abs_pos.2 hx0.ne')]
    simpa [abs_of_pos hx0] using hx1
  unfold roundFloat
  rw [if_neg hx0.ne']
  simp only
  have hE : max (Int.log 2 |x|) emin - (prec - 1) ≤ -prec := by
    rcases max_cases (Int.log 2 |x|) emin with ⟨h, -⟩ | ⟨h, -⟩ <;> rw [h] <;> omega
  generalize max (Int.log 2 |x|) emin - (prec - 1) = u at hE
  obtain ⟨k, hk⟩ : ∃ k : Nat, u = -(k : Int) :=
    ⟨(-u).toNat, by rw [Int.toNat_of_nonneg (by omega)]; ring⟩
  have hu : (0 : ℚ) < (2 : ℚ) ^ u := by positivity
  have hinv : (1 : ℚ) / (2 : ℚ) ^ u = ((2 ^ k : Int) : ℚ) := by
    rw [hk, zpow_neg, zpow_natCast]
    push_cast
    field_simp
  have hm0 : 0 ≤ roundHalfEven (x / (2 : ℚ) ^ u) :=
    le_roundHalfEven _ 0 (by
      have : (0 : ℚ) ≤ x / (2 : ℚ) ^ u := by positivity
      simpa using this)
  have hm1 : roundHalfEven (x / (2 : ℚ) ^ u) ≤ 2 ^ k :=
    roundHalfEven_le _ _ (by
      rw [← hinv]
      exact div_le_div_of_nonneg_right h1 hu.le)
  have hm0' : (0 : ℚ) ≤ (roundHalfEven (x / (2 : ℚ) ^ u) : ℚ) := by exact_mod_cast hm0
  have hm1' : (roundHalfEven (x / (2 : ℚ) ^ u) : ℚ) ≤ ((2 ^ k : Int) : ℚ) := by
    exact_mod_cast hm1
  have herr := roundHalfEven_err (x / (2 : ℚ) ^ u)
  refine ⟨by positivity, ?_, ?_⟩
  · calc (roundHalfEven (x / (2 : ℚ) ^ u) : ℚ) * (2 : ℚ) ^ u
        ≤ ((2 ^ k : Int) : ℚ) * (2 : ℚ) ^ u := mul_le_mul_of_nonneg_right hm1' hu.le
      _ = 1 := by rw [← hinv]; field_simp
  · have e1 : (roundHalfEven (x / (2 : ℚ) ^ u) : ℚ) * (2 : ℚ) ^ u - x =
        ((roundHalfEven (x / (2 : ℚ) ^ u) : ℚ) - x / (2 : ℚ) ^ u) * (2 : ℚ) ^ u := by
      field_simp
    rw [e1, abs_mul, abs_of_pos hu]
    have hle : (2 : ℚ) ^ u ≤ (2 : ℚ) ^ (-prec) := zpow_le_zpow_right₀ (by norm_num) hE
    calc |(roundHalfEven (x / (2 : ℚ) ^ u) : ℚ) - x / (2 : ℚ) ^ u| * (2 : ℚ) ^ u
        ≤ 1 / 2 * (2 : ℚ) ^ u := mul_le_mul_of_nonneg_right herr hu.le
      _ ≤ 1 / 2 * (2 : ℚ) ^ (-prec) := mul_le_mul_of_nonneg_left hle (by norm_num)
      _ = (2 : ℚ) ^ (-prec) / 2 := by ring

theorem fl64_zero : fl64 0 = 0 := roundFloat_zero _ _

theorem fl64_intCast (z : Int) (hz : |z| < 2 ^ 53) : fl64 (z : ℚ) = z :=
  roundFloat_intCast 53 (-1022) (by decide) z hz

theorem fl32_zero : fl32 0 = 0 := roundFloat_zero _ _

theorem fl32_intCast (z : Int) (hz : |z| < 2 ^ 24) : fl32 (z : ℚ) = z :=
  roundFloat_intCast 24 (-126) (by decide) z hz

theorem fl32_28 : fl32 (28 / 255) = 14737633 / 134217728 := by
  have h := roundFloat_eval 24 (-126) (28 / 255) (-4) 14737633 (by decide)
    (by rw [abs_of_pos (by norm_num)]; norm_num)
    (by rw [abs_of_pos (by norm_num)]; norm_num)
    (by
      rw [abs_lt]
      constructor <;> norm_num)
  unfold fl32
  rw [h]
  norm_num

/-- The quotient `a / 128.0f` of a byte below 128 is exact. -/
theorem fl32_div128 (a : Nat) (h : a < 128) : fl32 ((a : ℚ) / 128) = (a : ℚ) / 128 := by
  have e : (a : ℚ) / 128 = ((a : Int) : ℚ) * (2 : ℚ) ^ (-7 : Int) := by
    rw [zpow_neg]
    norm_num
    ring
  rw [e]
  exact roundFloat_dyadic 24 (-126) (a : Int) (-7)
    (by
      rw [abs_of_nonneg (by omega)]
      have : (a : Int) < 128 := by exact_mod_cast h
      have h2 : (2 : Int) ^ (24 : Int).toNat = 16777216 := by decide
      omega) (by decide)

theorem and_63 (x : Nat) : x &&& 0x3F = x % 64 := Nat.and_pow_two_sub_one_eq_mod x 6
theorem and_31 (x : Nat) : x &&& 0x1F = x % 32 := Nat.and_pow_two_sub_one_eq_mod x 5
theorem and_127 (x : Nat) : x &&& 0x7F = x % 128 := Nat.and_pow_two_sub_one_eq_mod x 7
theorem and_15 (x : Nat) : x &&& 0xF = x % 16 := Nat.and_pow_two_sub_one_eq_mod x 4
theorem and_7 (x : Nat) : x &&& 0x7 = x % 8 := Nat.and_pow_two_sub_one_eq_mod x 3

theorem block4_getD_lt (k : Nat) : block4.getD k 0 < 32 := by
  by_cases hk : k < 32
  · interval_cases k <;> decide
  · rw [List.getD_eq_default _ _ (by simpa [block4] using hk)]
    decide

theorem GetGSAddress_32_eq (x y width : Nat) (hw : width + 63 < 2 ^ 32)
    (h : refAddress .bits32 x y width < 2 ^ 32) :
    GetGSAddress x y width .GS_PSM_32 = refAddress .bits32 x y width := by
  simp only [GetGSAddress, refAddress, refPixelIndex, Family.pageW, Family.pageH,
    Family.blockW, Family.blockH, Family.bpp, Family.table, u32, Nat.shiftRight_eq_div_pow,
    and_63, and_31, and_7] at h ⊢
  norm_num at h ⊢
  generalize block32.getD _ 0 = t at h ⊢
  generalize hm : y / 32 * ((width + 63) / 64) = m at h ⊢
  have e1 : (width + 63) % 4294967296 = width + 63 := Nat.mod_eq_of_lt (by omega)
  rw [e1, hm]
  omega

theorem GetGSAddress_16_eq (x y width : Nat) (hw : width + 63 < 2 ^ 32)
    (h : refAddress .bits16 x y width < 2 ^ 32) :
    GetGSAddress x y width .GS_PSM_16 = refAddress .bits16 x y width := by
  simp only [GetGSAddress, refAddress, refPixelIndex, Family.pageW, Family.pageH,
    Family.blockW, Family.blockH, Family.bpp, Family.table, u32, Nat.shiftRight_eq_div_pow,
    and_63, and_15, and_7] at h ⊢
  norm_num at h ⊢
  generalize block16.getD _ 0 = t at h ⊢
  generalize hm : y / 64 * ((width + 63) / 64) = m at h ⊢
  have e1 : (width + 63) % 4294967296 = width + 63 := Nat.mod_eq_of_lt (by omega)
  rw [e1, hm]
  omega

theorem GetGSAddress_8_eq (x y width : Nat) (hw : width + 127 < 2 ^ 32)
    (h : refAddress .bits8 x y width < 2 ^ 32) :
    GetGSAddress x y width .GS_PSM_8 = refAddress .bits8 x y width := by
  simp only [GetGSAddress, refAddress, refPixelIndex, Family.pageW, Family.pageH,
    Family.blockW, Family.blockH, Family.bpp, Family.table, u32, Nat.shiftRight_eq_div_pow,
    and_63, and_127, and_15] at h ⊢
  norm_num at h ⊢
  generalize block8.getD _ 0 = t at h ⊢
  generalize hm : y / 64 * ((width + 127) / 128) = m at h ⊢
  have e1 : (width + 127) % 4294967296 = width + 127 := Nat.mod_eq_of_lt (by omega)
  rw [e1, hm]
  omega

theorem GetGSAddress_4_eq (x y width : Nat) (hw : width + 127 < 2 ^ 32)
    (h : refAddress .bits4 x y width < 2 ^ 32) :
    GetGSAddress x y width .GS_PSM_4 = refAddress .bits4 x y width := by
  simp only [GetGSAddress, refAddress, refPixelIndex, Family.pageW, Family.pageH,
    Family.blockW, Family.blockH, Family.bpp, Family.table, u32, Nat.shiftRight_eq_div_pow,
    and_127, and_31, and_15] at h ⊢
  have ht := block4_getD_lt (y % 128 / 16 * 4 + x % 128 / 32)
  generalize block4.getD _ 0 = t at h ht ⊢
  norm_num at h ⊢
  generalize hm : y / 128 * ((width + 127) / 128) = m at h ⊢
  have e1 : (width + 127) % 4294967296 = width + 127 := Nat.mod_eq_of_lt (by omega)
  rw [e1, hm]
  omega

theorem GetGSAddress_family_eq (psm : PS2_PSM) (f : Family) (x y width : Nat)
    (hf : psm.family = some f) (hw : width + f.pageW - 1 < 2 ^ 32)
    (h : refAddress f x y width < 2 ^ 32) :
    GetGSAddress x y width psm = refAddress f x y width := by
  cases psm <;> simp only [PS2_PSM.family, Option.some.injEq, reduceCtorEq] at hf <;>
    subst hf <;> simp only [Family.pageW] at hw
  · exact GetGSAddress_32_eq x y width (by omega) h
  · exact GetGSAddress_16_eq x y width (by omega) h
  · exact GetGSAddress_16_eq x y width (by omega) h
  · exact GetGSAddress_8_eq x y width (by omega) h
  · exact GetGSAddress_4_eq x y width (by omega) h
  · exact GetGSAddress_8_eq x y width (by omega) h
  · exact GetGSAddress_4_eq x y width (by omega) h
  · exact GetGSAddress_4_eq x y width (by omega) h

/-! ### The address map is a bijection on whole pages -/

set_option maxRecDepth 100000 in
theorem table_inj_fin (f : Family) : ∀ k : Fin 32, ∀ k' : Fin 32,
    f.table.getD k.1 0 = f.table.getD k'.1 0 → k = k' := by
  cases f <;> decide

theorem table_inj (f : Family) (k k' : Nat) (hk : k < 32) (hk' : k' < 32)
    (h : f.table.getD k 0 = f.table.getD k' 0) : k = k' := by
  have := table_inj_fin f ⟨k, hk⟩ ⟨k', hk'⟩ h
  simpa using this

theorem table_getD_lt (f : Family) (k : Nat) : f.table.getD k 0 < 32 := by
  by_cases hk : k < 32
  · cases f <;> interval_cases k <;> decide
  · rw [List.getD_eq_default _ _ (by
      cases f <;> simpa [Family.table, block32, block16, block8, block4] using hk)]
    decide

theorem page_lt (a b px py : Nat) (hpx : px < a) (hpy : py < b) : px + py * a < a * b := by
  calc px + py * a < a + py * a := by omega
    _ = (py + 1) * a := by ring
    _ ≤ b * a := Nat.mul_le_mul_right a hpy
    _ = a * b := by ring

theorem page_inj (a px py px' py' : Nat) (hpx : px < a) (hpx' : px' < a)
    (h : px + py * a = px' + py' * a) : px = px' ∧ py = py' := by
  have h1 : (px + py * a) % a = px := by
    rw [Nat.add_mul_mod_self_right, Nat.mod_eq_of_lt hpx]
  have h2 : (px' + py' * a) % a = px' := by
    rw [Nat.add_mul_mod_self_right, Nat.mod_eq_of_lt hpx']
  have hx : px = px' := by rw [← h1, ← h2, h]
  subst hx
  have ha : 0 < a := by omega
  exact ⟨rfl, Nat.eq_of_mul_eq_mul_right ha (by omega)⟩

theorem pageW_pos (f : Family) : 0 < f.pageW := by cases f <;> decide

theorem pageH_pos (f : Family) : 0 < f.pageH := by cases f <;> decide

theorem ceil_mul (n a : Nat) (hn : 0 < n) : (n * a + n - 1) / n = a := by
  rw [Nat.add_sub_assoc hn, Nat.mul_add_div hn, Nat.div_eq_of_lt (by omega)]
  rfl

/-- On a buffer made of whole pages the pixel index stays below the pixel count. -/
theorem refPixelIndex_lt (f : Family) (a b x y : Nat)
    (hx : x < f.pageW * a) (hy : y < f.pageH * b) :
    refPixelIndex f x y (f.pageW * a) < f.pageW * a * (f.pageH * b) := by
  have ht := table_getD_lt f
    (y % f.pageH / f.blockH * (f.pageW / f.blockW) + x % f.pageW / f.blockW)
  have hp := page_lt a b (x / f.pageW) (y / f.pageH)
    ((Nat.div_lt_iff_lt_mul (pageW_pos f)).2 (by rw [Nat.mul_comm]; exact hx))
    ((Nat.div_lt_iff_lt_mul (pageH_pos f)).2 (by rw [Nat.mul_comm]; exact hy))
  have hq : f.pageW * a * (f.pageH * b) = f.pageW * f.pageH * (a * b) := by ring
  rw [hq]
  simp only [refPixelIndex]
  rw [ceil_mul _ _ (pageW_pos f)]
  generalize f.table.getD _ 0 = t at ht ⊢
  generalize y / f.pageH * a = m at hp ⊢
  generalize a * b = n at hp ⊢
  cases f <;> simp only [Family.pageW, Family.pageH, Family.blockW, Family.blockH] at hp ⊢ <;>
    omega

/-- On a buffer made of whole pages the pixel index determines the pixel. -/
theorem refPixelIndex_inj (f : Family) (a x y x' y' : Nat)
    (hx : x < f.pageW * a) (hx' : x' < f.pageW * a)
    (h : refPixelIndex f x y (f.pageW * a) = refPixelIndex f x' y' (f.pageW * a)) :
    x = x' ∧ y = y' := by
  have ht := table_getD_lt f
    (y % f.pageH / f.blockH * (f.pageW / f.blockW) + x % f.pageW / f.blockW)
  have ht' := table_getD_lt f
    (y' % f.pageH / f.blockH * (f.pageW / f.blockW) + x' % f.pageW / f.blockW)
  have hi := table_inj f
    (y % f.pageH / f.blockH * (f.pageW / f.blockW) + x % f.pageW / f.blockW)
    (y' % f.pageH / f.blockH * (f.pageW / f.blockW) + x' % f.pageW / f.blockW)
  have hp := page_inj a (x / f.pageW) (y / f.pageH) (x' / f.pageW) (y' / f.pageH)
    ((Nat.div_lt_iff_lt_mul (pageW_pos f)).2 (by rw [Nat.mul_comm]; exact hx))
    ((Nat.div_lt_iff_lt_mul (pageW_pos f)).2 (by rw [Nat.mul_comm]; exact hx'))
  simp only [refPixelIndex] at h
  rw [ceil_mul _ _ (pageW_pos f)] at h
  generalize f.table.getD
    (y % f.pageH / f.blockH * (f.pageW / f.blockW) + x % f.pageW / f.blockW) 0 = t
    at ht hi h
  generalize f.table.getD
    (y' % f.pageH / f.blockH * (f.pageW / f.blockW) + x' % f.pageW / f.blockW) 0 = t'
    at ht' hi h
  generalize y / f.pageH * a = m at hp h
  generalize y' / f.pageH * a = m' at hp h
  cases f <;> simp only [Family.pageW, Family.pageH, Family.blockW, Family.blockH] at hp hi h ⊢
  all_goals
    have e1 : t = t' := by omega
    have e2 := hi (by omega) (by omega) e1
    have e3 := hp (by omega)
    omega


/-- On a buffer made of whole pages every pixel index below the pixel count is
reached: an injective map between finite sets of equal size is onto. -/
theorem refPixelIndex_surj (f : Family) (a b k : Nat)
    (hk : k < f.pageW * a * (f.pageH * b)) :
    ∃ x y, x < f.pageW * a ∧ y < f.pageH * b ∧ refPixelIndex f x y (f.pageW * a) = k := by
  let S : Finset (Nat × Nat) := Finset.range (f.pageW * a) ×ˢ Finset.range (f.pageH * b)
  let g : Nat × Nat → Nat := fun p => refPixelIndex f p.1 p.2 (f.pageW * a)
  have hinj : Set.InjOn g S := by
    intro p hp q hq hpq
    simp only [S, Finset.coe_product, Finset.coe_range, Set.mem_prod, Set.mem_Iio] at hp hq
    have := refPixelIndex_inj f a p.1 p.2 q.1 q.2 hp.1 hq.1 hpq
    exact Prod.ext this.1 this.2
  have hcard : (S.image g).card = f.pageW * a * (f.pageH * b) := by
    rw [Finset.card_image_of_injOn hinj]
    simp [S]
  have hsub : S.image g ⊆ Finset.range (f.pageW * a * (f.pageH * b)) := by
    intro n hn
    obtain ⟨p, hp, rfl⟩ := Finset.mem_image.1 hn
    simp only [S, Finset.mem_product, Finset.mem_range] at hp
    exact Finset.mem_range.2 (refPixelIndex_lt f a b p.1 p.2 hp.1 hp.2)
  have heq : S.image g = Finset.range (f.pageW * a * (f.pageH * b)) :=
    Finset.eq_of_subset_of_card_le hsub (by simp [hcard])
  have hmem : k ∈ S.image g := by
    rw [heq]
    exact Finset.mem_range.2 hk
  obtain ⟨p, hp, hpk⟩ := Finset.mem_image.1 hmem
  simp only [S, Finset.mem_product, Finset.mem_range] at hp
  exact ⟨p.1, p.2, hp.1, hp.2, hpk⟩

/-- On a buffer made of whole pages whose byte size fits in 32 bits, the address
computed by the code is the reference pixel index times the bytes per pixel. -/
theorem GetGSAddress_whole_pages (psm : PS2_PSM) (f : Family) (a b x y : Nat)
    (hf : psm.family = some f) (h4 : f ≠ .bits4)
    (hov : f.pageW * a * (f.pageH * b) * f.bpp < 2 ^ 32)
    (hx : x < f.pageW * a) (hy : y < f.pageH * b) :
    GetGSAddress x y (f.pageW * a) psm = refPixelIndex f x y (f.pageW * a) * f.bpp := by
  have hlt := refPixelIndex_lt f a b x y hx hy
  have hb : 0 < b := by
    rcases Nat.eq_zero_or_pos b with h0 | h0
    · subst h0; simp at hy
    · exact h0
  have hbpp : 0 < f.bpp := by cases f <;> decide
  have h1 : refPixelIndex f x y (f.pageW * a) * f.bpp < 2 ^ 32 :=
    lt_of_le_of_lt (Nat.mul_le_mul_right _ hlt.le) hov
  have h2 : f.pageW * a * 32 ≤ f.pageW * a * (f.pageH * b) * f.bpp := by
    have h3 : 32 ≤ f.pageH * b := by
      have : 32 ≤ f.pageH := by cases f <;> decide
      calc 32 ≤ f.pageH := this
        _ = f.pageH * 1 := (Nat.mul_one _).symm
        _ ≤ f.pageH * b := Nat.mul_le_mul_left _ hb
    calc f.pageW * a * 32 ≤ f.pageW * a * (f.pageH * b) := Nat.mul_le_mul_left _ h3
      _ = f.pageW * a * (f.pageH * b) * 1 := (Nat.mul_one _).symm
      _ ≤ f.pageW * a * (f.pageH * b) * f.bpp := Nat.mul_le_mul_left _ hbpp
  have h5 : f.pageW ≤ 128 := by cases f <;> decide
  have hw : f.pageW * a + f.pageW - 1 < 2 ^ 32 := by
    generalize f.pageW * a = w at h2 hov
    generalize w * (f.pageH * b) * f.bpp = n at h2 hov
    omega
  have hr : refAddress f x y (f.pageW * a) = refPixelIndex f x y (f.pageW * a) * f.bpp := by
    cases f <;> first | rfl | exact absurd rfl h4
  rw [GetGSAddress_family_eq psm f x y _ hf hw (by rw [hr]; exact h1), hr]

/-- C1. For the 32-bit, 16-bit and 8-bit formats, on a buffer whose width is a
positive multiple of the page width and whose height is a positive multiple of the
page height (byte size below `2^32`), `GetGSAddress` restricted to the in-bounds
pixels is injective and its image is exactly the set of `k * bpp` for
`k < width * height`. -/
theorem GetGSAddress_bijection (psm : PS2_PSM) (f : Family) (width height : Nat)
    (hf : psm.family = some f) (h4 : f ≠ .bits4)
    (hw0 : 0 < width) (hwm : width % f.pageW = 0)
    (hh0 : 0 < height) (hhm : height % f.pageH = 0)
    (hov : width * height * f.bpp < 2 ^ 32) :
    (∀ x y x' y', x < width → y < height → x' < width → y' < height →
      GetGSAddress x y width psm = GetGSAddress x' y' width psm → x = x' ∧ y = y') ∧
    (∀ addr, (∃ x y, x < width ∧ y < height ∧ GetGSAddress x y width psm = addr) ↔
      ∃ k, k < width * height ∧ addr = k * f.bpp) := by
  obtain ⟨a, rfl⟩ : ∃ a, width = f.pageW * a := ⟨width / f.pageW, by
    rw [Nat.mul_div_cancel' (Nat.dvd_of_mod_eq_zero hwm)]⟩
  obtain ⟨b, rfl⟩ : ∃ b, height = f.pageH * b := ⟨height / f.pageH, by
    rw [Nat.mul_div_cancel' (Nat.dvd_of_mod_eq_zero hhm)]⟩
  have hbpp : 0 < f.bpp := by cases f <;> decide
  constructor
  · intro x y x' y' hx hy hx' hy' h
    rw [GetGSAddress_whole_pages psm f a b x y hf h4 hov hx hy,
      GetGSAddress_whole_pages psm f a b x' y' hf h4 hov hx' hy'] at h
    exact refPixelIndex_inj f a x y x' y' hx hx' (Nat.eq_of_mul_eq_mul_right hbpp h)
  · intro addr
    constructor
    · rintro ⟨x, y, hx, hy, rfl⟩
      exact ⟨refPixelIndex f x y (f.pageW * a), refPixelIndex_lt f a b x y hx hy,
        GetGSAddress_whole_pages psm f a b x y hf h4 hov hx hy⟩
    · rintro ⟨k, hk, rfl⟩
      obtain ⟨x, y, hx, hy, hxy⟩ := refPixelIndex_surj f a b k hk
      exact ⟨x, y, hx, hy, by
        rw [GetGSAddress_whole_pages psm f a b x y hf h4 hov hx hy, hxy]⟩

theorem GetGSAddress_bijection_witness :
    (∀ x y x' y', x < 128 → y < 64 → x' < 128 → y' < 64 →
      GetGSAddress x y 128 .GS_PSM_16S = GetGSAddress x' y' 128 .GS_PSM_16S →
        x = x' ∧ y = y') ∧
    (∀ addr, (∃ x y, x < 128 ∧ y < 64 ∧ GetGSAddress x y 128 .GS_PSM_16S = addr) ↔
      ∃ k, k < 128 * 64 ∧ addr = k * Family.bpp .bits16) :=
  GetGSAddress_bijection .GS_PSM_16S .bits16 128 64 rfl (by decide) (by decide) (by decide)
    (by decide) (by decide) (by decide)

/-! ### The 4-bit family packs two pixels per byte -/

/-- Without overflow, two in-bounds pixels of a 4-bit buffer share a byte of the
reference address exactly when they are horizontal neighbours of one pixel pair. -/
theorem refAddress_4_eq_iff (width x y x' y' : Nat) (hx : x < width) (hx' : x' < width) :
    refAddress .bits4 x y width = refAddress .bits4 x' y' width ↔
      (y = y' ∧ x / 2 = x' / 2) := by
  have ht := table_getD_lt .bits4 (y % 128 / 16 * (128 / 32) + x % 128 / 32)
  have ht' := table_getD_lt .bits4 (y' % 128 / 16 * (128 / 32) + x' % 128 / 32)
  have hi := table_inj .bits4 (y % 128 / 16 * (128 / 32) + x % 128 / 32)
    (y' % 128 / 16 * (128 / 32) + x' % 128 / 32)
  have hp := page_inj ((width + 128 - 1) / 128) (x / 128) (y / 128) (x' / 128) (y' / 128)
    (by omega) (by omega)
  simp only [refAddress, refPixelIndex, Family.pageW, Family.pageH, Family.blockW,
    Family.blockH]
  constructor
  · intro h
    generalize Family.bits4.table.getD
      (y % 128 / 16 * (128 / 32) + x % 128 / 32) 0 = t at ht hi h
    generalize Family.bits4.table.getD
      (y' % 128 / 16 * (128 / 32) + x' % 128 / 32) 0 = t' at ht' hi h
    generalize y / 128 * ((width + 128 - 1) / 128) = m at hp h
    generalize y' / 128 * ((width + 128 - 1) / 128) = m' at hp h
    have e1 : t = t' := by omega
    have e2 := hi (by omega) (by omega) e1
    have e3 := hp (by omega)
    omega
  · rintro ⟨rfl, h⟩
    have e1 : x' % 128 / 32 = x % 128 / 32 := by omega
    have e2 : x' / 128 = x / 128 := by omega
    rw [e1, e2]
    generalize Family.bits4.table.getD _ 0 = t
    generalize x / 128 + y / 128 * ((width + 128 - 1) / 128) = m
    omega

/-- When the pages covering a 4-bit buffer fit in 32 bits of byte addresses, the
reference address of every in-bounds pixel is below `2^32`. -/
theorem refAddress_4_lt (width height x y : Nat)
    (hov : (width + 127) / 128 * ((height + 127) / 128) * 8192 ≤ 2 ^ 32)
    (hx : x < width) (hy : y < height) : refAddress .bits4 x y width < 2 ^ 32 := by
  have ht := table_getD_lt .bits4 (y % 128 / 16 * (128 / 32) + x % 128 / 32)
  have hp := page_lt ((width + 127) / 128) ((height + 127) / 128) (x / 128) (y / 128)
    (by omega) (by omega)
  simp only [refAddress, refPixelIndex, Family.pageW, Family.pageH, Family.blockW,
    Family.blockH]
  generalize Family.bits4.table.getD _ 0 = t at ht
  have e : (width + 128 - 1) / 128 = (width + 127) / 128 := rfl
  rw [e]
  generalize y / 128 * ((width + 127) / 128) = m at hp
  generalize (width + 127) / 128 * ((height + 127) / 128) = n at hp hov
  omega

theorem width_4_lt (width height y : Nat)
    (hov : (width + 127) / 128 * ((height + 127) / 128) * 8192 ≤ 2 ^ 32)
    (hy : y < height) : width + Family.pageW .bits4 - 1 < 2 ^ 32 := by
  have h1 : 1 ≤ (height + 127) / 128 := by omega
  have h2 : (width + 127) / 128 * 1 ≤ (width + 127) / 128 * ((height + 127) / 128) :=
    Nat.mul_le_mul_left _ h1
  simp only [Family.pageW]
  generalize (width + 127) / 128 * ((height + 127) / 128) = n at h2 hov
  omega

/-- C3 (as stated, refuted). In a 128-pixel-wide 4-bit buffer the distinct in-bounds
pixels `(0, 0)` and `(1, 0)` are mapped to the same byte offset, namely 0. -/
theorem GetGSAddress_4bit_shared_byte :
    (0 < 128 ∧ 1 < 128 ∧ ((0 : Nat), (0 : Nat)) ≠ (1, 0)) ∧
      GetGSAddress 0 0 128 .GS_PSM_4 = 0 ∧ GetGSAddress 1 0 128 .GS_PSM_4 = 0 := by
  decide

/-- C3 (amended). For the 4-bit format, when the pages covering the buffer fit in 32
bits of byte addresses, two in-bounds pixels are mapped by `GetGSAddress` to the same
byte offset exactly when they lie in the same row and the same horizontal pixel pair
(`y = y'` and `x / 2 = x' / 2`): a byte is shared by its two packed pixels only. -/
theorem GetGSAddress_4bit_eq_iff (psm : PS2_PSM) (width height x y x' y' : Nat)
    (hf : psm.family = some .bits4)
    (hov : (width + 127) / 128 * ((height + 127) / 128) * 8192 ≤ 2 ^ 32)
    (hx : x < width) (hy : y < height) (hx' : x' < width) (hy' : y' < height) :
    GetGSAddress x y width psm = GetGSAddress x' y' width psm ↔
      (y = y' ∧ x / 2 = x' / 2) := by
  rw [GetGSAddress_family_eq psm .bits4 x y width hf (width_4_lt width height y hov hy)
      (refAddress_4_lt width height x y hov hx hy),
    GetGSAddress_family_eq psm .bits4 x' y' width hf (width_4_lt width height y hov hy)
      (refAddress_4_lt width height x' y' hov hx' hy')]
  exact refAddress_4_eq_iff width x y x' y' hx hx'

theorem GetGSAddress_4bit_eq_iff_witness :
    GetGSAddress 37 21 64 .GS_PSM_4 = GetGSAddress 36 21 64 .GS_PSM_4 ↔
      (21 = 21 ∧ 37 / 2 = 36 / 2) :=
  GetGSAddress_4bit_eq_iff .GS_PSM_4 64 64 37 21 36 21 rfl (by decide) (by decide)
    (by decide) (by decide) (by decide)

/-- C2. For each format family and all `x`, `y`, `width` for which no 32-bit overflow
occurs (the rounding-up of the width and the resulting byte offset fit in 32 bits),
the shift-and-mask implementation `GetGSAddress` agrees with the reference formula
of the specification written with division and remainder. -/
theorem GetGSAddress_eq_refAddress (psm : PS2_PSM) (f : Family) (x y width : Nat)
    (hf : psm.family = some f) (hw : width + f.pageW - 1 < 2 ^ 32)
    (h : refAddress f x y width < 2 ^ 32) :
    GetGSAddress x y width psm = refAddress f x y width :=
  GetGSAddress_family_eq psm f x y width hf hw h

theorem GetGSAddress_eq_refAddress_witness :
    GetGSAddress 100 77 256 .GS_PSM_4HL = refAddress .bits4 100 77 256 :=
  GetGSAddress_eq_refAddress .GS_PSM_4HL .bits4 100 77 256 rfl (by decide) (by decide)

/-! ### ICOBLoader -/

theorem StreamAt_open (d : List Nat) : StreamAt d 0 { data := d, pos := 0, fail := false } :=
  ⟨rfl, by simp, fun _ => rfl⟩

theorem StreamAt_read (d : List Nat) (t : Nat) (s : IStream) (buf : List Nat) (c : Nat)
    (h : StreamAt d t s) : StreamAt d (t + c) (s.read buf c).1 := by
  obtain ⟨hd, hf, hp⟩ := h
  unfold IStream.read
  cases hfail : s.fail
  · have hpos := hp hfail
    have hle := hf.1 hfail
    subst hd
    subst hpos
    refine ⟨rfl, ?_, ?_⟩
    · simp only [Bool.false_eq_true, ↓reduceIte, List.length_take, List.length_drop,
        decide_eq_false_iff_not, not_lt]
      omega
    · simp only [Bool.false_eq_true, ↓reduceIte, List.length_take, List.length_drop,
        decide_eq_false_iff_not, not_lt]
      omega
  · simp only [↓reduceIte]
    refine ⟨hd, ?_, ?_⟩
    · rw [hfail]
      have : ¬ t ≤ d.length := fun h => by
        have := hf.2 h
        rw [hfail] at this
        exact Bool.noConfusion this
      constructor
      · intro h; exact Bool.noConfusion h
      · intro h; omega
    · intro h
      rw [hfail] at h
      exact Bool.noConfusion h

theorem vertexStep_spec (d : List Nat) (t shapes : Nat) (st : LoopState) (hs : 1 ≤ shapes)
    (h : StreamAt d t st.file) :
    ∃ st', vertexStep shapes st = some st' ∧ StreamAt d (t + (8 * shapes + 16)) st'.file ∧
      st'.vertices.length = st.vertices.length + 1 := by
  have h1 := StreamAt_read d t st.file st.shapeBuffer (8 * shapes) h
  have h2 := StreamAt_read d _ _ st.normalRaw 8 h1
  have h3 := StreamAt_read d _ _ st.textureRaw 8 h2
  have hne : shapes ≠ 0 := by omega
  have e : t + (8 * shapes + 16) = t + 8 * shapes + 8 + 8 := by omega
  rw [e]
  exact ⟨_, by simp only [vertexStep, hne, ↓reduceIte]; rfl, h3, by simp⟩

theorem vertexLoop_spec (d : List Nat) (shapes : Nat) (hs : 1 ≤ shapes) :
    ∀ (n t : Nat) (st : LoopState), StreamAt d t st.file →
      ∃ st', vertexLoop shapes n st = some st' ∧
        StreamAt d (t + n * (8 * shapes + 16)) st'.file ∧
        st'.vertices.length = st.vertices.length + n := by
  intro n
  induction n with
  | zero =>
    intro t st h
    exact ⟨st, rfl, by simpa using h, rfl⟩
  | succ n ih =>
    intro t st h
    obtain ⟨st1, e1, h1, l1⟩ := vertexStep_spec d t shapes st hs h
    obtain ⟨st2, e2, h2, l2⟩ := ih _ st1 h1
    refine ⟨st2, by simp only [vertexLoop, e1, e2], ?_, by omega⟩
    have e : t + (n + 1) * (8 * shapes + 16) = t + (8 * shapes + 16) + n * (8 * shapes + 16) := by
      ring
    rw [e]
    exact h2

theorem getD_header (bytes old : List Nat) (i : Nat) (hlen : 20 ≤ bytes.length) (hi : i < 20) :
    (bytes.take 20 ++ old).getD i 0 = bytes.getD i 0 := by
  have h1 : i < (bytes.take 20).length := by simp; omega
  rw [List.getD_eq_getElem?_getD, List.getD_eq_getElem?_getD,
    List.getElem?_append_left h1, List.getElem?_take_of_lt hi]

theorem u32le_header (bytes old : List Nat) (off : Nat) (hlen : 20 ≤ bytes.length)
    (hoff : off + 3 < 20) : u32le (bytes.take 20 ++ old) off = u32le bytes off := by
  simp only [u32le]
  rw [getD_header bytes old off hlen (by omega), getD_header bytes old (off + 1) hlen (by omega),
    getD_header bytes old (off + 2) hlen (by omega),
    getD_header bytes old (off + 3) hlen (by omega)]

theorem read_header (bytes old : List Nat) (hlen : 20 ≤ bytes.length) :
    IStream.read { data := bytes, pos := 0, fail := false } old 20 =
      ({ data := bytes, pos := 20, fail := false }, bytes.take 20 ++ old.drop 20) := by
  have h : min 20 bytes.length = 20 := Nat.min_eq_left hlen
  simp [IStream.read, h]

/-- The outcome of `Load` on a file with a complete header and at least one shape:
when it returns true and what the loader then holds. -/
theorem Load_outcome (self : ICOBLoader) (bytes normalRaw0 textureRaw0 : List Nat)
    (hlen : 20 ≤ bytes.length) (hS : 1 ≤ u32le bytes 4) :
    ∃ ok st, self.Load (some bytes) normalRaw0 textureRaw0 = some (ok, st) ∧
      (ok = true ↔ (u32le bytes 16 ≠ 0 ∧ u32le bytes 16 % 3 = 0 ∧
        20 + u32le bytes 16 * (8 * u32le bytes 4 + 16) ≤ bytes.length)) ∧
      (ok = true → st.GetVertices.length = u32le bytes 16 ∧
        st.GetIndices = List.range (u32le bytes 16) ∧
        st.GetIndices.length = st.GetVertices.length ∧ st.GetVertices.length % 3 = 0) := by
  have hn := u32le_header bytes (self.header_.drop 20) 16 hlen (by decide)
  have hs := u32le_header bytes (self.header_.drop 20) 4 hlen (by decide)
  simp only [ICOBLoader.Load, read_header bytes self.header_ hlen, ICOBLoader.n_vertices,
    ICOBLoader.animation_shapes, hn, hs]
  by_cases hv : u32le bytes 16 = 0 ∨ u32le bytes 16 % 3 ≠ 0
  · rw [if_pos hv]
    refine ⟨false, _, rfl, ?_, fun h => Bool.noConfusion h⟩
    constructor
    · intro h; exact Bool.noConfusion h
    · rintro ⟨h1, h2, -⟩
      rcases hv with h | h
      · exact absurd h h1
      · exact absurd h2 h
  · rw [if_neg hv]
    obtain ⟨st, e, hst, hl⟩ := vertexLoop_spec bytes (u32le bytes 4) hS (u32le bytes 16) 20
      { file := { data := bytes, pos := 20, fail := false },
        shapeBuffer := List.replicate (8 * u32le bytes 4) 0,
        normalRaw := normalRaw0, textureRaw := textureRaw0, vertices := [] }
      ⟨rfl, by simpa using hlen, fun _ => rfl⟩
    rw [e]
    have hv' : u32le bytes 16 ≠ 0 ∧ u32le bytes 16 % 3 = 0 := by
      constructor
      · intro h; exact hv (Or.inl h)
      · by_contra h; exact hv (Or.inr h)
    cases hfail : st.file.fail <;> simp only [hfail, Bool.false_eq_true, ↓reduceIte]
    · refine ⟨true, _, rfl, ?_, fun _ => ?_⟩
      · simp only [true_iff]
        exact ⟨hv'.1, hv'.2, hst.2.1.1 hfail⟩
      · simp only [List.length_nil, Nat.zero_add] at hl
        simp only [ICOBLoader.GetVertices, ICOBLoader.GetIndices, List.length_range, hl]
        exact ⟨trivial, trivial, trivial, hv'.2⟩
    · refine ⟨false, _, rfl, ?_, fun h => Bool.noConfusion h⟩
      constructor
      · intro h; exact Bool.noConfusion h
      · rintro ⟨-, -, h3⟩
        have := hst.2.1.2 h3
        rw [hfail] at this
        exact Bool.noConfusion this

/-- C4. For a model file whose header has shape count `S ≥ 1` and vertex count `n`,
`Load` returns true if and only if `n ≠ 0`, `n mod 3 = 0` and the file holds at least
`20 + n * (8 * S + 16)` bytes, whatever the magic field; and when it returns true the
mesh has exactly `n` vertices and the index list is `[0, 1, ..., n - 1]`. -/
theorem Load_true_iff (self : ICOBLoader) (bytes normalRaw0 textureRaw0 : List Nat)
    (hlen : 20 ≤ bytes.length) (hS : 1 ≤ u32le bytes 4) :
    ∃ ok st, self.Load (some bytes) normalRaw0 textureRaw0 = some (ok, st) ∧
      (ok = true ↔ (u32le bytes 16 ≠ 0 ∧ u32le bytes 16 % 3 = 0 ∧
        20 + u32le bytes 16 * (8 * u32le bytes 4 + 16) ≤ bytes.length)) ∧
      (ok = true → st.GetVertices.length = u32le bytes 16 ∧
        st.GetIndices = List.range (u32le bytes 16) ∧
        st.GetIndices.length = st.GetVertices.length ∧ st.GetVertices.length % 3 = 0) :=
  Load_outcome self bytes normalRaw0 textureRaw0 hlen hS

theorem Load_true_iff_witness :
    ∃ ok st, ICOBLoader.new.Load (some ([0, 0, 1, 0, 1, 0, 0, 0, 0, 0, 0, 0, 0, 0, 0, 0,
        3, 0, 0, 0] ++ List.replicate 72 1)) [] [] = some (ok, st) ∧
      (ok = true ↔ (u32le ([0, 0, 1, 0, 1, 0, 0, 0, 0, 0, 0, 0, 0, 0, 0, 0,
          3, 0, 0, 0] ++ List.replicate 72 1) 16 ≠ 0 ∧
        u32le ([0, 0, 1, 0, 1, 0, 0, 0, 0, 0, 0, 0, 0, 0, 0, 0,
          3, 0, 0, 0] ++ List.replicate 72 1) 16 % 3 = 0 ∧
        20 + u32le ([0, 0, 1, 0, 1, 0, 0, 0, 0, 0, 0, 0, 0, 0, 0, 0,
          3, 0, 0, 0] ++ List.replicate 72 1) 16 *
          (8 * u32le ([0, 0, 1, 0, 1, 0, 0, 0, 0, 0, 0, 0, 0, 0, 0, 0,
            3, 0, 0, 0] ++ List.replicate 72 1) 4 + 16) ≤
          ([0, 0, 1, 0, 1, 0, 0, 0, 0, 0, 0, 0, 0, 0, 0, 0,
            3, 0, 0, 0] ++ List.replicate 72 1).length)) ∧
      (ok = true → st.GetVertices.length = u32le ([0, 0, 1, 0, 1, 0, 0, 0, 0, 0, 0, 0, 0, 0, 0, 0,
          3, 0, 0, 0] ++ List.replicate 72 1) 16 ∧
        st.GetIndices = List.range (u32le ([0, 0, 1, 0, 1, 0, 0, 0, 0, 0, 0, 0, 0, 0, 0, 0,
          3, 0, 0, 0] ++ List.replicate 72 1) 16) ∧
        st.GetIndices.length = st.GetVertices.length ∧ st.GetVertices.length % 3 = 0) :=
  Load_true_iff ICOBLoader.new _ [] [] (by decide) (by decide)

/-- C5 (evaluation at the failing input). On `truncatedModel`, whose data ends inside
the second of three vertex records, `Load` returns false with `IsLoaded` false, yet
the loader is left holding three vertices and the indices `[0, 1, 2]`. -/
theorem Load_truncated_keeps_vertices :
    (ICOBLoader.new.Load (some truncatedModel) [] []).map
      (fun r => (r.1, r.2.GetVertexCount, r.2.GetTriangleCount, r.2.GetIndices, r.2.IsLoaded))
      = some (false, 3, 1, [0, 1, 2], false) := by
  decide

/-! ### VAGDecoder: header scan -/

theorem scanLoop_eq (buffer : List Nat) :
    ∀ (fuel i : Nat) (offsets : List Nat), scanCount buffer i ≤ fuel →
      scanLoop buffer fuel i offsets =
        offsets ++ (List.range' i (scanCount buffer i) 4).filter (isMagicAt buffer) := by
  intro fuel
  induction fuel with
  | zero =>
    intro i offsets h
    have h0 : scanCount buffer i = 0 := by omega
    simp [scanLoop, h0]
  | succ fuel ih =>
    intro i offsets h
    unfold scanLoop
    by_cases hi : i ≤ buffer.length - 48
    · have hc : scanCount buffer i = scanCount buffer (i + 4) + 1 := by
        unfold scanCount
        rw [if_pos hi]
        split <;> omega
      rw [if_pos hi, ih _ _ (by omega), hc, List.range'_succ]
      by_cases hm : isMagicAt buffer i = true
      · simp [hm]
      · simp [hm]
    · have h0 : scanCount buffer i = 0 := by
        unfold scanCount
        rw [if_neg hi]
      rw [if_neg hi, h0]
      simp

theorem ScanForHeaders_eq (buffer : List Nat) (h : 48 ≤ buffer.length) :
    ScanForHeaders buffer =
      (List.range' 0 ((buffer.length - 48) / 4 + 1) 4).filter (isMagicAt buffer) := by
  unfold ScanForHeaders
  rw [if_neg (by omega), scanLoop_eq buffer _ 0 [] (by unfold scanCount; simp; omega)]
  simp [scanCount]

theorem getD_eq_getElem_of_lt (l : List Nat) (k : Nat) (hk : k < l.length) :
    l.getD k 0 = l[k] := by
  simp [List.getD_eq_getElem?_getD, List.getElem?_eq_getElem hk]

theorem isMagicAt_iff (buffer : List Nat) (i : Nat) (h : i + 4 ≤ buffer.length) :
    isMagicAt buffer i = true ↔ (buffer.drop i).take 4 = [86, 65, 71, 112] := by
  have e : (buffer.drop i).take 4 =
      [buffer.getD i 0, buffer.getD (i + 1) 0, buffer.getD (i + 2) 0, buffer.getD (i + 3) 0] := by
    rw [getD_eq_getElem_of_lt buffer i (by omega), getD_eq_getElem_of_lt buffer (i + 1) (by omega),
      getD_eq_getElem_of_lt buffer (i + 2) (by omega),
      getD_eq_getElem_of_lt buffer (i + 3) (by omega)]
    apply List.ext_getElem
    · simp; omega
    · intro n h1 h2
      simp only [List.length_cons, List.length_nil] at h2
      rw [List.getElem_take, List.getElem_drop]
      interval_cases n <;> rfl
  rw [e]
  simp [isMagicAt]
  tauto

theorem ScanForHeaders_mem (buffer : List Nat) (i : Nat) :
    i ∈ ScanForHeaders buffer ↔
      (i % 4 = 0 ∧ i + 48 ≤ buffer.length ∧ (buffer.drop i).take 4 = [86, 65, 71, 112]) := by
  by_cases h : 48 ≤ buffer.length
  · rw [ScanForHeaders_eq buffer h, List.mem_filter, List.mem_range']
    constructor
    · rintro ⟨⟨k, hk, rfl⟩, hm⟩
      have hb : 0 + 4 * k + 48 ≤ buffer.length := by omega
      exact ⟨by omega, hb, (isMagicAt_iff buffer _ (by omega)).1 hm⟩
    · rintro ⟨h1, h2, h3⟩
      exact ⟨⟨i / 4, by omega, by omega⟩, (isMagicAt_iff buffer _ (by omega)).2 h3⟩
  · have e : ScanForHeaders buffer = [] := by
      unfold ScanForHeaders
      rw [if_pos (by omega)]
    rw [e]
    simp only [List.not_mem_nil, false_iff]
    omega

theorem ScanForHeaders_sorted (buffer : List Nat) :
    (ScanForHeaders buffer).Pairwise (· < ·) := by
  by_cases h : 48 ≤ buffer.length
  · rw [ScanForHeaders_eq buffer h]
    apply List.Pairwise.filter
    exact List.pairwise_lt_range' 0 _ 4 (by decide)
  · have e : ScanForHeaders buffer = [] := by
      unfold ScanForHeaders
      rw [if_pos (by omega)]
    rw [e]
    exact List.Pairwise.nil

/-- C8 (as stated, refuted). In the 52-byte `lateMagicBuffer` the magic occurs at the
aligned offset 8 with `8 + 4 ≤ 52`, and `ScanForHeaders` reports nothing. -/
theorem ScanForHeaders_misses_late_magic :
    (8 % 4 = 0 ∧ 8 + 4 ≤ lateMagicBuffer.length ∧
      (lateMagicBuffer.drop 8).take 4 = [86, 65, 71, 112]) ∧
    ScanForHeaders lateMagicBuffer = [] := by
  decide

/-- C8 (amended). For every buffer, `ScanForHeaders` returns, in strictly increasing
order, exactly the 4-byte-aligned offsets `i` with `i + 48 ≤ size` (room for a whole
48-byte header) at which the four bytes `'V','A','G','p'` occur. -/
theorem ScanForHeaders_spec (buffer : List Nat) :
    (ScanForHeaders buffer).Pairwise (· < ·) ∧
    ∀ i, i ∈ ScanForHeaders buffer ↔
      (i % 4 = 0 ∧ i + 48 ≤ buffer.length ∧ (buffer.drop i).take 4 = [86, 65, 71, 112]) :=
  ⟨ScanForHeaders_sorted buffer, ScanForHeaders_mem buffer⟩

/-! ### VAGDecoder: block decoding -/

theorem truncToInt_intCast (z : Int) : truncToInt (z : ℚ) = z := by
  unfold truncToInt
  split <;> simp

theorem clamp16_of_mem (z : Int) (h1 : -32768 ≤ z) (h2 : z ≤ 32767) : clamp16 z = z := by
  unfold clamp16
  simp only
  split <;> split <;> omega

theorem sampleValue_eq (pData : List Nat) (i k : Nat) :
    sampleValue pData i k = signedNibble pData i k * 4096 := by
  unfold sampleValue signedNibble
  simp only [and_15, Nat.shiftRight_eq_div_pow, Nat.shiftLeft_eq]
  have h1 : pData.getD (i + 2 + k / 2) 0 % 16 < 16 := Nat.mod_lt _ (by decide)
  have h2 : pData.getD (i + 2 + k / 2) 0 / 2 ^ 4 % 16 < 16 := Nat.mod_lt _ (by decide)
  have e : pData.getD (i + 2 + k / 2) 0 / 16 % 16 = pData.getD (i + 2 + k / 2) 0 / 2 ^ 4 % 16 :=
    rfl
  rw [e]
  split
  · generalize pData.getD (i + 2 + k / 2) 0 % 16 = n at h1
    interval_cases n <;> decide
  · generalize pData.getD (i + 2 + k / 2) 0 / 2 ^ 4 % 16 = n at h2
    interval_cases n <;> decide

theorem signedNibble_bounds (pData : List Nat) (i k : Nat) :
    -8 ≤ signedNibble pData i k ∧ signedNibble pData i k ≤ 7 := by
  unfold signedNibble
  simp only
  split <;> split <;> omega

theorem shiftRight_eq_shiftedNibble (pData : List Nat) (i k : Nat) :
    sampleValue pData i k >>> (pData.getD i 0 &&& 0xF) = shiftedNibble pData i k := by
  unfold shiftedNibble
  rw [sampleValue_eq, and_15, Int.shiftRight_eq_div_pow]
  have e : ((2 : ℚ) ^ (pData.getD i 0 % 16)) = ((2 ^ (pData.getD i 0 % 16) : Nat) : ℚ) := by
    push_cast
    rfl
  rw [e, Rat.floor_intCast_div_natCast]

theorem shiftedNibble_bounds (pData : List Nat) (i k : Nat) :
    -32768 ≤ shiftedNibble pData i k ∧ shiftedNibble pData i k ≤ 32767 := by
  rw [← shiftRight_eq_shiftedNibble, sampleValue_eq, Int.shiftRight_eq_div_pow]
  obtain ⟨h1, h2⟩ := signedNibble_bounds pData i k
  have hd : (0 : Int) < ((2 ^ (pData.getD i 0 &&& 0xF) : Nat) : Int) := by positivity
  have hd1 : (1 : Int) ≤ ((2 ^ (pData.getD i 0 &&& 0xF) : Nat) : Int) := hd
  generalize ((2 ^ (pData.getD i 0 &&& 0xF) : Nat) : Int) = d at hd hd1
  constructor
  · rw [Int.le_ediv_iff_mul_le hd]
    nlinarith
  · have : signedNibble pData i k * 4096 / d < 32768 := by
      rw [Int.ediv_lt_iff_lt_mul hd]
      nlinarith
    omega

theorem VagLut_zero : VagLut.getD 0 (0, 0) = (0, 0) := rfl

theorem fl64_shiftedNibble (pData : List Nat) (i k : Nat) :
    fl64 ((shiftedNibble pData i k : Int) : ℚ) = (shiftedNibble pData i k : Int) := by
  apply fl64_intCast
  have h := shiftedNibble_bounds pData i k
  rw [abs_lt]
  constructor <;> omega

theorem sampleStep_pcm_zero_predictor (pData : List Nat) (i : Nat) (st : DecState) (k : Nat)
    (hp : ((pData.getD i 0 >>> 4) &&& 0xF) % 5 = 0) :
    (sampleStep pData i ((pData.getD i 0 >>> 4) &&& 0xF) (pData.getD i 0 &&& 0xF) st k).pcm =
      st.pcm ++ [shiftedNibble pData i k] := by
  simp only [sampleStep, hp, VagLut_zero, mul_zero, fl64_zero, add_zero,
    shiftRight_eq_shiftedNibble, fl64_shiftedNibble, truncToInt_intCast]
  rw [clamp16_of_mem _ (shiftedNibble_bounds pData i k).1 (shiftedNibble_bounds pData i k).2]

theorem foldl_pcm_zero_predictor (pData : List Nat) (i : Nat)
    (hp : ((pData.getD i 0 >>> 4) &&& 0xF) % 5 = 0) :
    ∀ (l : List Nat) (st : DecState),
      (l.foldl (sampleStep pData i ((pData.getD i 0 >>> 4) &&& 0xF) (pData.getD i 0 &&& 0xF))
        st).pcm = st.pcm ++ l.map (shiftedNibble pData i) := by
  intro l
  induction l with
  | nil => intro st; simp
  | cons k l ih =>
    intro st
    rw [List.foldl_cons, ih, sampleStep_pcm_zero_predictor pData i st k hp]
    simp

theorem shiftedNibble_zero_block (pData : List Nat) (i k : Nat) (hk : k < 28)
    (hz : ∀ j, j < 16 → pData.getD (i + j) 0 = 0) : shiftedNibble pData i k = 0 := by
  have h0 : pData.getD i 0 = 0 := hz 0 (by decide)
  have hb : pData.getD (i + 2 + k / 2) 0 = 0 := by
    have := hz (2 + k / 2) (by omega)
    rwa [← Nat.add_assoc] at this
  unfold shiftedNibble signedNibble
  rw [h0, hb]
  simp

/-- C6. For every 16-byte block whose predictor nibble `p` satisfies `p mod 5 = 0`,
whatever the shift and the prior filter history, the block decodes to the 28 samples
`floor(s_k * 4096 / 2^shift)`, where `s_k` is the two's-complement value of the
`k`-th nibble; in particular an all-zero block decodes to 28 zero samples. -/
theorem decodeBlock_zero_predictor (pData : List Nat) (i : Nat) (st : DecState)
    (hp : ((pData.getD i 0 >>> 4) &&& 0xF) % 5 = 0) :
    (decodeBlock pData i st).pcm =
        st.pcm ++ (List.range 28).map (fun k =>
          ⌊((signedNibble pData i k * 4096 : Int) : ℚ) / 2 ^ (pData.getD i 0 % 16)⌋) ∧
    ((∀ j, j < 16 → pData.getD (i + j) 0 = 0) →
      (decodeBlock pData i st).pcm = st.pcm ++ List.replicate 28 0) := by
  have h : (decodeBlock pData i st).pcm =
      st.pcm ++ (List.range 28).map (shiftedNibble pData i) :=
    foldl_pcm_zero_predictor pData i hp (List.range 28) st
  refine ⟨h, fun hz => ?_⟩
  rw [h]
  have e : (List.range 28).map (shiftedNibble pData i) = List.replicate 28 0 := by
    rw [List.eq_replicate_iff]
    refine ⟨by rw [List.length_map, List.length_range], fun b hb => ?_⟩
    obtain ⟨k, hk, rfl⟩ := List.mem_map.1 hb
    exact shiftedNibble_zero_block pData i k (List.mem_range.1 hk) hz
  rw [e]

theorem decodeBlock_zero_predictor_witness :
    (decodeBlock (List.replicate 16 0) 0 { h1 := 12345, h2 := -777 / 64, pcm := [] }).pcm =
      [] ++ List.replicate 28 0 :=
  (decodeBlock_zero_predictor (List.replicate 16 0) 0 { h1 := 12345, h2 := -777 / 64, pcm := [] }
    (by decide)).2 (by decide)

/-! ### VAGDecoder: the filter recurrence -/

theorem filterHist_succ_fst (pData : List Nat) (b k : Nat) (hk : k < 28) :
    (filterHist pData (28 * b + k + 1)).1 =
      fl64 (fl64 (((sampleValue pData (16 * b) k >>> (pData.getD (16 * b) 0 &&& 0xF) : Int) : ℚ) +
        fl64 ((filterHist pData (28 * b + k)).1 *
          (VagLut.getD (((pData.getD (16 * b) 0 >>> 4) &&& 0xF) % 5) (0, 0)).1)) +
        fl64 ((filterHist pData (28 * b + k)).2 *
          (VagLut.getD (((pData.getD (16 * b) 0 >>> 4) &&& 0xF) % 5) (0, 0)).2)) := by
  have e1 : (28 * b + k) / 28 = b := by omega
  have e2 : (28 * b + k) % 28 = k := by omega
  rw [shiftRight_eq_shiftedNibble]
  simp only [filterHist, filterInput, filterCoef, e1, e2, and_15, Nat.shiftRight_eq_div_pow]

theorem sampleStep_stateAfter (pData : List Nat) (b k : Nat) (hk : k < 28) :
    sampleStep pData (16 * b) ((pData.getD (16 * b) 0 >>> 4) &&& 0xF)
        (pData.getD (16 * b) 0 &&& 0xF) (stateAfter pData (28 * b + k)) k =
      stateAfter pData (28 * b + k + 1) := by
  have h := filterHist_succ_fst pData b k hk
  simp only [sampleStep, stateAfter, DecState.mk.injEq]
  refine ⟨h.symm, rfl, ?_⟩
  rw [List.range_succ, List.map_append, List.map_singleton, filterOut, h]

theorem foldl_stateAfter (pData : List Nat) (b : Nat) :
    ∀ k, k ≤ 28 →
      (List.range k).foldl (sampleStep pData (16 * b) ((pData.getD (16 * b) 0 >>> 4) &&& 0xF)
        (pData.getD (16 * b) 0 &&& 0xF)) (stateAfter pData (28 * b)) =
      stateAfter pData (28 * b + k) := by
  intro k
  induction k with
  | zero => intro _; rfl
  | succ k ih =>
    intro hk
    rw [List.range_succ, List.foldl_append, ih (by omega), List.foldl_cons, List.foldl_nil,
      sampleStep_stateAfter pData b k (by omega)]
    rfl

theorem decodeBlock_stateAfter (pData : List Nat) (b : Nat) :
    decodeBlock pData (16 * b) (stateAfter pData (28 * b)) = stateAfter pData (28 * (b + 1)) :=
  foldl_stateAfter pData b 28 (Nat.le_refl 28)

theorem blockLoop_stateAfter (pData : List Nat) (size : Nat) :
    ∀ (fuel b : Nat), b ≤ size / 16 → size / 16 - b ≤ fuel →
      blockLoop pData size fuel (16 * b) (stateAfter pData (28 * b)) =
        stateAfter pData (28 * (size / 16)) := by
  intro fuel
  induction fuel with
  | zero =>
    intro b h1 h2
    have : b = size / 16 := by omega
    rw [this]
    rfl
  | succ fuel ih =>
    intro b h1 h2
    unfold blockLoop
    by_cases h : 16 * b + 16 ≤ size
    · rw [if_pos h, decodeBlock_stateAfter]
      exact ih (b + 1) (by omega) (by omega)
    · rw [if_neg h]
      have : b = size / 16 := by omega
      rw [this]

/-- The samples produced by the block loop are the clamped, truncated outputs of the
recurrence with unclamped history, one per nibble of every complete block. -/
theorem decodeSamples_eq (pData : List Nat) (size : Nat) :
    decodeSamples pData size =
      (List.range (28 * (size / 16))).map fun n => clamp16 (truncToInt (filterOut pData n)) := by
  unfold decodeSamples
  have h := blockLoop_stateAfter pData size size 0 (Nat.zero_le _) (by omega)
  have e : stateAfter pData (28 * 0) = { h1 := 0, h2 := 0, pcm := [] } := rfl
  rw [Nat.mul_zero] at h
  rw [e] at h
  rw [h]
  rfl

theorem decodeSamples_length (pData : List Nat) (size : Nat) :
    (decodeSamples pData size).length = 28 * (size / 16) := by
  rw [decodeSamples_eq, List.length_map, List.length_range]

theorem shiftedNibble_saturating :
    shiftedNibble saturatingBlock 0 0 = -32768 ∧ shiftedNibble saturatingBlock 0 1 = -32768 ∧
      shiftedNibble saturatingBlock 0 2 = 0 := by
  refine ⟨?_, ?_, ?_⟩ <;> rw [← shiftRight_eq_shiftedNibble] <;> decide

theorem filterCoef_saturating (n : Nat) (hn : n < 28) :
    filterCoef saturatingBlock n = (60 / 64, 0) := by
  have h : n / 28 = 0 := by omega
  unfold filterCoef
  rw [h]
  rfl

theorem filterHist_saturating :
    filterHist saturatingBlock 1 = (-32768, 0) ∧
    filterHist saturatingBlock 2 = (-63488, -32768) ∧
    filterHist saturatingBlock 3 = (-59520, -63488) := by
  obtain ⟨e0, e1, e2⟩ := shiftedNibble_saturating
  have f1 : fl64 (-32768) = -32768 := by
    have := fl64_intCast (-32768) (by decide)
    simpa using this
  have f2 : fl64 (-30720) = -30720 := by
    have := fl64_intCast (-30720) (by decide)
    simpa using this
  have f3 : fl64 (-63488) = -63488 := by
    have := fl64_intCast (-63488) (by decide)
    simpa using this
  have f4 : fl64 (-59520) = -59520 := by
    have := fl64_intCast (-59520) (by decide)
    simpa using this
  have h1 : filterHist saturatingBlock 1 = (-32768, 0) := by
    simp only [filterHist, filterInput, filterCoef_saturating 0 (by decide)]
    rw [show 16 * (0 / 28) = 0 from rfl, show 0 % 28 = 0 from rfl, e0]
    norm_num [fl64_zero, f1]
  have h2 : filterHist saturatingBlock 2 = (-63488, -32768) := by
    rw [filterHist, h1]
    simp only [filterInput, filterCoef_saturating 1 (by decide)]
    rw [show 16 * (1 / 28) = 0 from rfl, show 1 % 28 = 1 from rfl, e1]
    norm_num [fl64_zero, f2, f3]
  have h3 : filterHist saturatingBlock 3 = (-59520, -63488) := by
    rw [filterHist, h2]
    simp only [filterInput, filterCoef_saturating 2 (by decide)]
    rw [show 16 * (2 / 28) = 0 from rfl, show 2 % 28 = 2 from rfl, e2]
    norm_num [fl64_zero, f4]
  exact ⟨h1, h2, h3⟩

/-- C7 (as stated, refuted). On `saturatingBlock` the code emits `-32768` for each of
the first three samples, whereas the claimed formula, fed with the two previously
emitted samples `-32768`, `-32768` as history, gives `-30720` for the third: the
history kept by the code is the unclamped filter output `-63488`. -/
theorem decode_history_not_clamped :
    (decodeSamples saturatingBlock 16).take 3 = [-32768, -32768, -32768] ∧
    clamp16 (truncToInt (filterInput saturatingBlock 2 +
        (filterCoef saturatingBlock 2).1 * ((-32768 : Int) : ℚ) +
        (filterCoef saturatingBlock 2).2 * ((-32768 : Int) : ℚ))) = -30720 := by
  obtain ⟨h1, h2, h3⟩ := filterHist_saturating
  constructor
  · rw [decodeSamples_eq]
    have e : (List.take 3 ((List.range (28 * (16 / 16))).map fun n =>
        clamp16 (truncToInt (filterOut saturatingBlock n)))) =
        [clamp16 (truncToInt (filterOut saturatingBlock 0)),
         clamp16 (truncToInt (filterOut saturatingBlock 1)),
         clamp16 (truncToInt (filterOut saturatingBlock 2))] := rfl
    rw [e]
    simp only [filterOut, h1, h2, h3]
    rw [show (-32768 : ℚ) = ((-32768 : Int) : ℚ) by norm_num,
      show (-63488 : ℚ) = ((-63488 : Int) : ℚ) by norm_num,
      show (-59520 : ℚ) = ((-59520 : Int) : ℚ) by norm_num]
    simp only [truncToInt_intCast]
    decide
  · rw [filterCoef_saturating 2 (by decide)]
    simp only [filterInput]
    rw [show 16 * (2 / 28) = 0 from rfl, show 2 % 28 = 2 from rfl, shiftedNibble_saturating.2.2]
    rw [show ((0 : Int) : ℚ) + 60 / 64 * ((-32768 : Int) : ℚ) + 0 * ((-32768 : Int) : ℚ) =
      ((-30720 : Int) : ℚ) by norm_num]
    rw [truncToInt_intCast]
    decide

/-- C7 (amended). For every input, the emitted samples are, one per nibble of every
complete 16-byte block, `clamp16(trunc(f_n))`, where the filter outputs `f_n` obey
`f_n = e_n + f_(n-1) * c0 + f_(n-2) * c1` evaluated in `double` from left to right
(each product and each sum rounded to binary64), with `e_n` the sign-extended nibble
shifted right by its block's shift, `(c0, c1) = VagLut[predictor mod 5]` of its block,
and the history `f_(n-1)`, `f_(n-2)` the two previous UNCLAMPED, untruncated filter
outputs (zero at the start of the stream, carried unchanged across block boundaries);
the clamped value is only what is emitted. -/
theorem decodeSamples_recurrence (pData : List Nat) (size : Nat) :
    decodeSamples pData size =
      (List.range (28 * (size / 16))).map
        (fun n => clamp16 (truncToInt (filterOut pData n))) ∧
    filterOut pData 0 =
      fl64 (fl64 (filterInput pData 0 + fl64 (0 * (filterCoef pData 0).1)) +
        fl64 (0 * (filterCoef pData 0).2)) ∧
    filterOut pData 0 = filterInput pData 0 ∧
    filterOut pData 1 =
      fl64 (fl64 (filterInput pData 1 + fl64 (filterOut pData 0 * (filterCoef pData 1).1)) +
        fl64 (0 * (filterCoef pData 1).2)) ∧
    ∀ n, filterOut pData (n + 2) =
      fl64 (fl64 (filterInput pData (n + 2) +
          fl64 (filterOut pData (n + 1) * (filterCoef pData (n + 2)).1)) +
        fl64 (filterOut pData n * (filterCoef pData (n + 2)).2) ) := by
  refine ⟨decodeSamples_eq pData size, ?_, ?_, ?_, fun n => ?_⟩
  · simp only [filterOut, filterHist]
  · simp only [filterOut, filterHist, zero_mul, fl64_zero, add_zero, filterInput,
      fl64_shiftedNibble]
  · simp only [filterOut, filterHist]
  · simp only [filterOut, filterHist]

/-! ### VAGDecoder: two concatenated streams -/

theorem Swap32_mod_16 (v : Nat) : Swap32 v % 16 = (v >>> 24) % 16 := by
  have t1 : ∀ j, j < 4 → Nat.testBit 0xff j = true := by decide
  have t2 : ∀ j, j < 4 → Nat.testBit 0xff00 j = false := by decide
  have t3 : ∀ j, j < 4 → Nat.testBit 0xff000000 j = false := by decide
  apply Nat.eq_of_testBit_eq
  intro j
  rw [show 16 = 2 ^ 4 from rfl, Nat.testBit_mod_two_pow, Nat.testBit_mod_two_pow]
  by_cases hj : j < 4
  · simp only [hj, decide_True, Bool.true_and, Swap32, Nat.testBit_or, Nat.testBit_and,
      t1 j hj, t2 j hj, t3 j hj, Bool.and_true, Bool.and_false, Bool.or_false]
  · simp [hj]

theorem getD_lt_256 (s : List Nat) (hb : ∀ b ∈ s, b < 256) (k : Nat) : s.getD k 0 < 256 := by
  by_cases hk : k < s.length
  · rw [getD_eq_getElem_of_lt s k hk]
    exact hb _ (List.getElem_mem hk)
  · rw [List.getD_eq_default _ _ (by omega)]
    decide

theorem DecodeInternal_true (pData : List Nat) (size : Nat) (outWav : List Nat)
    (sampleRate : Int) (h : 16 ≤ size) :
    (DecodeInternal pData size outWav sampleRate).1 = true := by
  have hl := decodeSamples_length pData size
  have hne : (decodeSamples pData size).isEmpty = false := by
    cases hc : decodeSamples pData size with
    | nil =>
      rw [hc] at hl
      simp at hl
      omega
    | cons a l => rfl
  unfold DecodeInternal
  rw [if_neg (by omega)]
  simp only [hne, Bool.false_eq_true, ↓reduceIte]

theorem Decode_wellFormed (s : List Nat) (blocks : Nat) (outWav : List Nat)
    (h : WellFormedStream s blocks) : (Decode s outWav).1 = true := by
  obtain ⟨hb, hm, h1, hl, hd⟩ := h
  have b12 := getD_lt_256 s hb 12
  have b13 := getD_lt_256 s hb 13
  have b14 := getD_lt_256 s hb 14
  have b15 := getD_lt_256 s hb 15
  have hsw := Swap32_mod_16 (u32le s 12)
  have h24 : u32le s 12 >>> 24 = s.getD 15 0 := by
    rw [Nat.shiftRight_eq_div_pow]
    simp only [u32le, Nat.reduceAdd]
    omega
  rw [h24] at hsw
  simp only [be32, Nat.reduceAdd] at hd
  have hpay : s.length - 48 < 2 ^ 32 := by omega
  unfold Decode
  rw [if_neg (by omega), if_neg (by simp [hm])]
  apply DecodeInternal_true
  split
  · rw [u32, Nat.mod_eq_of_lt hpay]
    omega
  · rename_i hc
    omega

theorem sorted_pair_eq (l : List Nat) (a b : Nat) (hab : a < b) (hs : l.Pairwise (· < ·))
    (hm : ∀ i, i ∈ l ↔ (i = a ∨ i = b)) : l = [a, b] := by
  have hs' : List.Sorted (· < ·) l := hs
  have hp : List.Sorted (· < ·) [a, b] := by simp [List.Sorted, hab]
  apply List.eq_of_perm_of_sorted _ hs' hp
  apply (List.perm_ext_iff_of_nodup hs'.nodup hp.nodup).2
  intro i
  rw [hm i]
  simp

/-- C9. For every buffer that is the concatenation of two well-formed streams (48-byte
header starting with `VAGp`, declared data size equal to the payload length, payload
of one or more complete 16-byte blocks) with no other 4-byte-aligned occurrence of
`VAGp`, `ScanForHeaders` returns exactly the two offsets `[0, length of the first
stream]`, and `Decode` succeeds on each of the two slices bounded by the next offset
or the buffer end. -/
theorem two_streams_scan_and_decode (s1 s2 : List Nat) (n1 n2 : Nat) (outWav : List Nat)
    (h1 : WellFormedStream s1 n1) (h2 : WellFormedStream s2 n2)
    (hno : ∀ i, i % 4 = 0 → i + 4 ≤ (s1 ++ s2).length →
      ((s1 ++ s2).drop i).take 4 = [86, 65, 71, 112] → i = 0 ∨ i = s1.length) :
    ScanForHeaders (s1 ++ s2) = [0, s1.length] ∧
    (Decode (streamSlice (s1 ++ s2) (ScanForHeaders (s1 ++ s2)) 0) outWav).1 = true ∧
    (Decode (streamSlice (s1 ++ s2) (ScanForHeaders (s1 ++ s2)) 1) outWav).1 = true := by
  have hl1 := h1.2.2.2.1
  have hl2 := h2.2.2.2.1
  have hn1 := h1.2.2.1
  have hn2 := h2.2.2.1
  have hlen : (s1 ++ s2).length = s1.length + s2.length := List.length_append _ _
  have hscan : ScanForHeaders (s1 ++ s2) = [0, s1.length] := by
    apply sorted_pair_eq _ _ _ (by omega) (ScanForHeaders_sorted _)
    intro i
    rw [ScanForHeaders_mem]
    constructor
    · rintro ⟨ha, hb, hc⟩
      exact hno i ha (by omega) hc
    · rintro (rfl | rfl)
      · refine ⟨rfl, by omega, ?_⟩
        rw [List.drop_zero, List.take_append_of_le_length (by omega)]
        exact h1.2.1
      · refine ⟨by omega, by omega, ?_⟩
        rw [List.drop_left]
        exact h2.2.1
  have e0 : streamSlice (s1 ++ s2) [0, s1.length] 0 = s1 := by
    simp [streamSlice]
  have e1 : streamSlice (s1 ++ s2) [0, s1.length] 1 = s2 := by
    simp only [streamSlice, List.length_cons, List.length_nil, Nat.reduceAdd,
      Nat.lt_irrefl, ↓reduceIte, List.getD_cons_succ, List.getD_cons_zero]
    rw [List.take_length, List.drop_left]
  rw [hscan, e0, e1]
  exact ⟨rfl, Decode_wellFormed s1 n1 outWav h1, Decode_wellFormed s2 n2 outWav h2⟩

theorem two_streams_scan_and_decode_witness :
    ScanForHeaders (streamA ++ streamB) = [0, streamA.length] ∧
    (Decode (streamSlice (streamA ++ streamB) (ScanForHeaders (streamA ++ streamB)) 0) []).1
      = true ∧
    (Decode (streamSlice (streamA ++ streamB) (ScanForHeaders (streamA ++ streamB)) 1) []).1
      = true :=
  two_streams_scan_and_decode streamA streamB 1 2 []
    ⟨by decide, by decide, by decide, by decide, by decide⟩
    ⟨by decide, by decide, by decide, by decide, by decide⟩
    (by
      intro i h1 h2 h3
      have hlen : (streamA ++ streamB).length = 144 := by decide
      rw [hlen] at h2
      have hi : i < 141 := by omega
      interval_cases i <;>
        first
        | exact Or.inl rfl
        | exact Or.inr rfl
        | exact absurd h1 (by decide)
        | exact absurd h3 (by decide))

/-! ### TextureLoader: format detection -/

/-- C10. `DetectPSM` reproduces the exact-size table, whatever the output variables
held before: 16384, 8192, 4096 give 8-bit 128x128, 64x128, 64x64 at offset 0; 2048
gives 4-bit 64x64 at offset 0; the header variants 16408, 8216, 32792 give 8-bit
128x128, 64x128, 256x128 at offset 24 with `width * height = size - 24`; 12288 and
12312 give 24-bit 64x64 at offsets 0 and 24. -/
theorem DetectPSM_exact_table (w0 h0 : Int) :
    DetectPSM 16384 w0 h0 = { psm := .GS_PSM_8, w := 128, h := 128, offset := 0 } ∧
    DetectPSM 8192 w0 h0 = { psm := .GS_PSM_8, w := 64, h := 128, offset := 0 } ∧
    DetectPSM 4096 w0 h0 = { psm := .GS_PSM_8, w := 64, h := 64, offset := 0 } ∧
    DetectPSM 2048 w0 h0 = { psm := .GS_PSM_4, w := 64, h := 64, offset := 0 } ∧
    DetectPSM 16408 w0 h0 = { psm := .GS_PSM_8, w := 128, h := 128, offset := 24 } ∧
    DetectPSM 8216 w0 h0 = { psm := .GS_PSM_8, w := 64, h := 128, offset := 24 } ∧
    DetectPSM 32792 w0 h0 = { psm := .GS_PSM_8, w := 256, h := 128, offset := 24 } ∧
    (DetectPSM 16408 w0 h0).w * (DetectPSM 16408 w0 h0).h = 16408 - 24 ∧
    (DetectPSM 8216 w0 h0).w * (DetectPSM 8216 w0 h0).h = 8216 - 24 ∧
    (DetectPSM 32792 w0 h0).w * (DetectPSM 32792 w0 h0).h = 32792 - 24 ∧
    DetectPSM 12288 w0 h0 = { psm := .GS_PSM_24, w := 64, h := 64, offset := 0 } ∧
    DetectPSM 12312 w0 h0 = { psm := .GS_PSM_24, w := 64, h := 64, offset := 24 } := by
  refine ⟨rfl, rfl, rfl, rfl, rfl, rfl, rfl, rfl, rfl, rfl, rfl, rfl⟩

theorem DetectPSM_default (size : Nat) (w0 h0 : Int)
    (h1 : size ≠ 16384 ∧ size ≠ 8192 ∧ size ≠ 4096 ∧ size ≠ 2048)
    (h2 : size ≠ 16408 ∧ size ≠ 8216 ∧ size ≠ 32792)
    (h3 : ¬ (131072 < size ∧ size < 145000)) (h4 : size ≠ 12288 ∧ size ≠ 12312)
    (h5 : Nat.sqrt size * Nat.sqrt size ≠ size) (h6 : size < 2 ^ 31) :
    DetectPSM size w0 h0 = { psm := .GS_PSM_32, w := w0, h := h0, offset := 0 } := by
  have h5' : ¬ ((((Nat.sqrt size : Int) * (Nat.sqrt size : Int) + 2 ^ 31) % 2 ^ 32 - 2 ^ 31) %
      2 ^ 64 = (size : Int)) := by
    have hle : Nat.sqrt size * Nat.sqrt size ≤ size := Nat.sqrt_le size
    have e : (Nat.sqrt size : Int) * (Nat.sqrt size : Int) =
        ((Nat.sqrt size * Nat.sqrt size : Nat) : Int) := by push_cast; rfl
    rw [e]
    generalize Nat.sqrt size * Nat.sqrt size = q at hle h5
    omega
  have h4' : ¬ (size = 12288 ∨ size = 12288 + 24) := by omega
  have h3' : ¬ (size > 131072 ∧ size < 145000) := h3
  simp only [DetectPSM, if_neg h1.1, if_neg h1.2.1, if_neg h1.2.2.1, if_neg h1.2.2.2,
    if_neg h2.1, if_neg h2.2.1, if_neg h2.2.2, if_neg h3', if_neg h4', if_neg h5']

theorem sqrt_131072 : Nat.sqrt 131072 = 362 :=
  (Nat.eq_sqrt.2 ⟨by norm_num, by norm_num⟩).symm

theorem sqrt_145000 : Nat.sqrt 145000 = 380 :=
  (Nat.eq_sqrt.2 ⟨by norm_num, by norm_num⟩).symm

/-- C11 (as stated, refuted). At both ends of the range, 131072 and 145000 bytes,
`DetectPSM` does not take the 16-bit rule: it falls to the 32-bit default and leaves
the width and height variables as they were (here 0). -/
theorem DetectPSM_range_endpoints :
    DetectPSM 131072 0 0 = { psm := .GS_PSM_32, w := 0, h := 0, offset := 0 } ∧
    DetectPSM 145000 0 0 = { psm := .GS_PSM_32, w := 0, h := 0, offset := 0 } := by
  constructor
  · exact DetectPSM_default 131072 0 0 (by decide) (by decide) (by decide) (by decide)
      (by rw [sqrt_131072]; decide) (by decide)
  · exact DetectPSM_default 145000 0 0 (by decide) (by decide) (by decide) (by decide)
      (by rw [sqrt_145000]; decide) (by decide)

/-- C11 (amended). For every file size `s` with `131072 < s < 145000` (both bounds
excluded), `DetectPSM` returns width 256, height 256, the 16-bit format and
`offset = s - 131072`, whatever the output variables held before. -/
theorem DetectPSM_range (s : Nat) (w0 h0 : Int) (h1 : 131072 < s) (h2 : s < 145000) :
    DetectPSM s w0 h0 =
      { psm := .GS_PSM_16, w := 256, h := 256, offset := (s : Int) - 131072 } := by
  have h3 : s > 131072 ∧ s < 145000 := ⟨h1, h2⟩
  have e : ((s - 131072 : Nat) : Int) = (s : Int) - 131072 := by omega
  simp only [DetectPSM, if_neg (show s ≠ 16384 by omega), if_neg (show s ≠ 8192 by omega),
    if_neg (show s ≠ 4096 by omega), if_neg (show s ≠ 2048 by omega),
    if_neg (show s ≠ 16408 by omega), if_neg (show s ≠ 8216 by omega),
    if_neg (show s ≠ 32792 by omega), if_pos h3, e]

theorem DetectPSM_range_witness :
    DetectPSM 135192 7 (-3) =
      { psm := .GS_PSM_16, w := 256, h := 256, offset := (135192 : Int) - 131072 } :=
  DetectPSM_range 135192 7 (-3) (by decide) (by decide)

/-- C12 (evaluation at the failing input). For a file of 131072 bytes, which matches
no table entry and is not a perfect square, `DetectPSM` returns the 32-bit default
and leaves `w` and `h` as the caller's variables held them: two calls with the same
size and different prior contents return different descriptors. -/
theorem DetectPSM_default_keeps_prior (w0 h0 : Int) :
    DetectPSM 131072 w0 h0 = { psm := .GS_PSM_32, w := w0, h := h0, offset := 0 } ∧
    DetectPSM 131072 1 1 ≠ DetectPSM 131072 2 2 := by
  have h : ∀ a b : Int,
      DetectPSM 131072 a b = { psm := .GS_PSM_32, w := a, h := b, offset := 0 } := fun a b =>
    DetectPSM_default 131072 a b (by decide) (by decide) (by decide) (by decide)
      (by rw [sqrt_131072]; decide) (by decide)
  refine ⟨h w0 h0, ?_⟩
  rw [h 1 1, h 2 2]
  decide

/-! ### VAGDecoder: the header path -/

/-- C14 (as stated, refuted). On a buffer of 64 zero bytes, whose first four bytes are
not `VAGp`, `Decode` returns false and writes nothing. -/
theorem Decode_zero_buffer_fails :
    64 ≤ (List.replicate 64 0).length ∧ (List.replicate 64 0).take 4 ≠ [86, 65, 71, 112] ∧
      Decode (List.replicate 64 0) [] = (false, []) := by
  decide

/-- C14 (amended). A bad magic is fatal for the audio decoder: for every buffer, of
whatever length, whose first four bytes are not `VAGp`, `Decode` returns false and
leaves the output buffer as it was. -/
theorem Decode_bad_magic (data outWav : List Nat) (h : data.take 4 ≠ [86, 65, 71, 112]) :
    Decode data outWav = (false, outWav) := by
  unfold Decode
  by_cases hl : data.length < 48
  · rw [if_pos hl]
  · rw [if_neg hl, if_pos h]

theorem Decode_bad_magic_witness :
    Decode ([82, 73, 70, 70] ++ List.replicate 60 0) [1, 2, 3] = (false, [1, 2, 3]) :=
  Decode_bad_magic ([82, 73, 70, 70] ++ List.replicate 60 0) [1, 2, 3] (by decide)

/-! ### VAGDecoder: the output container -/

theorem DecodeInternal_small (pData : List Nat) (size : Nat) (outWav : List Nat)
    (sampleRate : Int) (h : size < 16) :
    DecodeInternal pData size outWav sampleRate = (false, outWav) := by
  have hl := decodeSamples_length pData size
  have h0 : size / 16 = 0 := by omega
  rw [h0] at hl
  have hnil : decodeSamples pData size = [] := List.length_eq_zero.1 (by omega)
  unfold DecodeInternal
  split
  · rfl
  · rw [hnil]
    rfl

theorem DecodeInternal_large (pData : List Nat) (size : Nat) (outWav : List Nat)
    (sampleRate : Int) (h : 16 ≤ size) :
    DecodeInternal pData size outWav sampleRate =
      (true,
        [82, 73, 70, 70] ++ le32 (u32 (36 + u32 (28 * (size / 16) * 2))) ++
        [87, 65, 86, 69, 102, 109, 116, 32] ++
        le32 16 ++ le16 1 ++ le16 1 ++ le32 (ofInt32 sampleRate) ++
        le32 (ofInt32 (sampleRate * 2)) ++ le16 2 ++ le16 16 ++
        [100, 97, 116, 97] ++ le32 (u32 (28 * (size / 16) * 2)) ++
        (decodeSamples pData size).flatMap sampleBytes) := by
  have hl := decodeSamples_length pData size
  have hne : (decodeSamples pData size).isEmpty = false := by
    cases hc : decodeSamples pData size with
    | nil =>
      rw [hc] at hl
      simp at hl
      omega
    | cons a l => rfl
  unfold DecodeInternal
  rw [if_neg (by omega)]
  simp only [hne, Bool.false_eq_true, ↓reduceIte, hl]

theorem le32_value (t a b c d : Nat) (h : le32 t = [a, b, c, d]) :
    a + 256 * b + 65536 * c + 16777216 * d = t % 4294967296 := by
  simp only [le32, List.cons.injEq, and_true] at h
  omega

theorem wav_layout (t fr br d : Nat) (body : List Nat) :
    ∃ t0 t1 t2 t3 f0 f1 f2 f3 b0 b1 b2 b3 d0 d1 d2 d3,
      le32 t = [t0, t1, t2, t3] ∧ le32 fr = [f0, f1, f2, f3] ∧ le32 br = [b0, b1, b2, b3] ∧
      le32 d = [d0, d1, d2, d3] ∧
      [82, 73, 70, 70] ++ le32 t ++ [87, 65, 86, 69, 102, 109, 116, 32] ++
        le32 16 ++ le16 1 ++ le16 1 ++ le32 fr ++ le32 br ++ le16 2 ++ le16 16 ++
        [100, 97, 116, 97] ++ le32 d ++ body =
      82 :: 73 :: 70 :: 70 :: t0 :: t1 :: t2 :: t3 ::
        87 :: 65 :: 86 :: 69 :: 102 :: 109 :: 116 :: 32 ::
        16 :: 0 :: 0 :: 0 :: 1 :: 0 :: 1 :: 0 :: f0 :: f1 :: f2 :: f3 ::
        b0 :: b1 :: b2 :: b3 :: 2 :: 0 :: 16 :: 0 ::
        100 :: 97 :: 116 :: 97 :: d0 :: d1 :: d2 :: d3 :: body :=
  ⟨_, _, _, _, _, _, _, _, _, _, _, _, _, _, _, _, rfl, rfl, rfl, rfl, rfl⟩

theorem clamp16_bounds (z : Int) : -32768 ≤ clamp16 z ∧ clamp16 z ≤ 32767 := by
  unfold clamp16
  simp only
  split <;> split <;> omega

theorem decodeSamples_getD_bounds (pData : List Nat) (size k : Nat) :
    -32768 ≤ (decodeSamples pData size).getD k 0 ∧ (decodeSamples pData size).getD k 0 ≤ 32767 := by
  by_cases hk : k < (decodeSamples pData size).length
  · rw [List.getD_eq_getElem _ _ hk]
    have hall : ∀ v ∈ decodeSamples pData size, -32768 ≤ v ∧ v ≤ 32767 := by
      intro v hv
      rw [decodeSamples_eq] at hv
      obtain ⟨n, -, hn⟩ := List.mem_map.1 hv
      rw [← hn]
      exact clamp16_bounds _
    exact hall _ (List.getElem_mem hk)
  · rw [List.getD_eq_default _ _ (by omega)]
    decide

theorem toInt16_sample (v : Int) (h1 : -32768 ≤ v) (h2 : v ≤ 32767) :
    toInt16 (v % 65536).toNat = v := by
  unfold toInt16
  have h3 : 0 ≤ v % 65536 := Int.emod_nonneg _ (by decide)
  have h4 : ((v % 65536).toNat : Int) = v % 65536 := Int.toNat_of_nonneg h3
  have h5 : (v % 65536).toNat % 65536 = (v % 65536).toNat := by omega
  rw [h5]
  split <;> omega

theorem u16le_sampleBytes (pcm : List Int) :
    ∀ k, k < pcm.length →
      u16le (pcm.flatMap sampleBytes) (2 * k) = ((pcm.getD k 0) % 65536).toNat := by
  induction pcm with
  | nil => intro k hk; simp at hk
  | cons v l ih =>
    intro k hk
    have h3 : 0 ≤ v % 65536 := Int.emod_nonneg _ (by decide)
    have h4 : ((v % 65536).toNat : Int) = v % 65536 := Int.toNat_of_nonneg h3
    cases k with
    | zero =>
      simp only [List.flatMap_cons, sampleBytes, le16, u16le, List.cons_append, List.nil_append,
        Nat.mul_zero, List.getD_cons_zero, Nat.zero_add, List.getD_cons_succ]
      omega
    | succ k =>
      have hk' : k < l.length := by simpa using hk
      have e : 2 * (k + 1) = 2 * k + 1 + 1 := by ring
      have := ih k hk'
      simp only [u16le] at this
      simp only [List.flatMap_cons, sampleBytes, le16, u16le, List.cons_append, List.nil_append,
        e, List.getD_cons_succ]
      exact this

theorem getD_append_add (pre body : List Nat) (j : Nat) :
    (pre ++ body).getD (pre.length + j) 0 = body.getD j 0 := by
  simp [List.getD_eq_getElem?_getD, List.getElem?_append_right]

theorem length_flatMap_sampleBytes (pcm : List Int) :
    (pcm.flatMap sampleBytes).length = 2 * pcm.length := by
  induction pcm with
  | nil => rfl
  | cons v l ih =>
    simp only [List.flatMap_cons, List.length_append, ih, sampleBytes, le16, List.length_cons,
      List.length_nil]
    omega

theorem u32_idem (n : Nat) : u32 n % 4294967296 = u32 n := by
  unfold u32
  omega

theorem ofInt32_lt (v : Int) : ofInt32 v % 4294967296 = ofInt32 v := by
  unfold ofInt32
  have h3 : 0 ≤ v % 4294967296 := Int.emod_nonneg _ (by decide)
  have h4 : ((v % 4294967296).toNat : Int) = v % 4294967296 := Int.toNat_of_nonneg h3
  omega

/-- The byte image written by `DecodeInternal` on an input with at least one complete
block, field by field; length fields and rates are the 32-bit wrapped values. -/
theorem DecodeInternal_fields (pData : List Nat) (size : Nat) (outWav : List Nat) (r : Int)
    (h : 16 ≤ size) :
    ∃ w, DecodeInternal pData size outWav r = (true, w) ∧
      w.length = 44 + 2 * (28 * (size / 16)) ∧
      w.take 4 = [82, 73, 70, 70] ∧
      u32le w 4 = u32 (36 + u32 (28 * (size / 16) * 2)) ∧
      (w.drop 8).take 8 = [87, 65, 86, 69, 102, 109, 116, 32] ∧
      u32le w 16 = 16 ∧ u16le w 20 = 1 ∧ u16le w 22 = 1 ∧
      u32le w 24 = ofInt32 r ∧ u32le w 28 = ofInt32 (r * 2) ∧
      u16le w 32 = 2 ∧ u16le w 34 = 16 ∧
      (w.drop 36).take 4 = [100, 97, 116, 97] ∧
      u32le w 40 = u32 (28 * (size / 16) * 2) ∧
      ∀ k, k < 28 * (size / 16) →
        i16le w (44 + 2 * k) = (decodeSamples pData size).getD k 0 := by
  obtain ⟨t0, t1, t2, t3, f0, f1, f2, f3, b0, b1, b2, b3, d0, d1, d2, d3, ht, hf, hb, hd, hw⟩ :=
    wav_layout (u32 (36 + u32 (28 * (size / 16) * 2))) (ofInt32 r) (ofInt32 (r * 2))
      (u32 (28 * (size / 16) * 2)) ((decodeSamples pData size).flatMap sampleBytes)
  have e := DecodeInternal_large pData size outWav r h
  rw [hw] at e
  refine ⟨_, e, ?_, rfl, ?_, rfl, rfl, rfl, rfl, ?_, ?_, rfl, rfl, rfl, ?_, ?_⟩
  · simp only [List.length_cons, length_flatMap_sampleBytes, decodeSamples_length]
    omega
  · have := le32_value _ _ _ _ _ ht
    rw [u32_idem] at this
    exact this
  · have := le32_value _ _ _ _ _ hf
    rw [ofInt32_lt] at this
    exact this
  · have := le32_value _ _ _ _ _ hb
    rw [ofInt32_lt] at this
    exact this
  · have := le32_value _ _ _ _ _ hd
    rw [u32_idem] at this
    exact this
  · intro k hk
    have hk' : k < (decodeSamples pData size).length := by
      rw [decodeSamples_length]
      exact hk
    have hb := decodeSamples_getD_bounds pData size k
    have e1 := getD_append_add
      [82, 73, 70, 70, t0, t1, t2, t3, 87, 65, 86, 69, 102, 109, 116, 32, 16, 0, 0, 0, 1, 0, 1, 0,
        f0, f1, f2, f3, b0, b1, b2, b3, 2, 0, 16, 0, 100, 97, 116, 97, d0, d1, d2, d3]
      ((decodeSamples pData size).flatMap sampleBytes) (2 * k)
    have e2 := getD_append_add
      [82, 73, 70, 70, t0, t1, t2, t3, 87, 65, 86, 69, 102, 109, 116, 32, 16, 0, 0, 0, 1, 0, 1, 0,
        f0, f1, f2, f3, b0, b1, b2, b3, 2, 0, 16, 0, 100, 97, 116, 97, d0, d1, d2, d3]
      ((decodeSamples pData size).flatMap sampleBytes) (2 * k + 1)
    have e3 := u16le_sampleBytes (decodeSamples pData size) k hk'
    simp only [u16le] at e3
    simp only [i16le, u16le]
    change toInt16 (List.getD _ (44 + 2 * k) 0 + 256 * List.getD _ (44 + 2 * k + 1) 0) = _
    rw [show 44 + 2 * k + 1 = 44 + (2 * k + 1) from rfl]
    erw [e1, e2]
    rw [e3]
    exact toInt16_sample _ hb.1 hb.2

/-- C15 (as stated, refuted). The length and rate fields are 32-bit: on an input of
1227133520 zero bytes (76695845 blocks, `36 + 2N = 4294967356`) bytes 4..7 hold 60, and
with sample rate `-1` on one block bytes 24..27 hold 4294967295. -/
theorem DecodeRaw_fields_wrap :
    (∃ w, DecodeRaw (List.replicate 1227133520 0) [] 44100 = (true, w) ∧ u32le w 4 = 60 ∧
      36 + 2 * (28 * ((List.replicate 1227133520 0).length / 16)) = 4294967356) ∧
    (∃ w, DecodeRaw (List.replicate 16 0) [] (-1) = (true, w) ∧ u32le w 24 = 4294967295) := by
  constructor
  · obtain ⟨w, hw, -, -, h4, -⟩ :=
      DecodeInternal_fields (List.replicate 1227133520 0) 1227133520 [] 44100 (by decide)
    refine ⟨w, ?_, ?_, ?_⟩
    · simp only [DecodeRaw, List.length_replicate]
      exact hw
    · rw [h4]
      decide
    · simp only [List.length_replicate]
  · obtain ⟨w, hw, -, -, -, -, -, -, -, h24, -⟩ :=
      DecodeInternal_fields (List.replicate 16 0) 16 [] (-1) (by decide)
    refine ⟨w, ?_, ?_⟩
    · simp only [DecodeRaw, List.length_replicate]
      exact hw
    · rw [h24]
      decide

/-- C15 (amended). For every input of `n` bytes and every sample rate `0 ≤ r < 2^31`,
with `N = 28 * floor(n / 16)` and `36 + 2N < 2^32` (the output fits the 32-bit length
fields): `DecodeRaw` fails, leaving the output untouched, when `n < 16`; when
`n ≥ 16` it succeeds and the output is exactly `44 + 2N` bytes: `RIFF`, `36 + 2N`
(the output length minus 8), `WAVEfmt `, 16, 1, 1, `r`, `2r`, 2, 16, `data`, `2N` (the
output length minus 44), all little-endian, followed by the `N` samples as
little-endian signed 16-bit values in decode order. -/
theorem DecodeRaw_wav (raw outWav : List Nat) (r : Int) (hr0 : 0 ≤ r) (hr1 : r < 2147483648)
    (hN : 36 + 2 * (28 * (raw.length / 16)) < 4294967296) :
    (raw.length < 16 → DecodeRaw raw outWav r = (false, outWav)) ∧
    (16 ≤ raw.length → ∃ w, DecodeRaw raw outWav r = (true, w) ∧
      w.length = 44 + 2 * (28 * (raw.length / 16)) ∧
      w.take 4 = [82, 73, 70, 70] ∧
      u32le w 4 = 36 + 2 * (28 * (raw.length / 16)) ∧ u32le w 4 = w.length - 8 ∧
      (w.drop 8).take 8 = [87, 65, 86, 69, 102, 109, 116, 32] ∧
      u32le w 16 = 16 ∧ u16le w 20 = 1 ∧ u16le w 22 = 1 ∧
      (u32le w 24 : Int) = r ∧ (u32le w 28 : Int) = 2 * r ∧
      u16le w 32 = 2 ∧ u16le w 34 = 16 ∧
      (w.drop 36).take 4 = [100, 97, 116, 97] ∧
      u32le w 40 = 2 * (28 * (raw.length / 16)) ∧ u32le w 40 = w.length - 44 ∧
      ∀ k, k < 28 * (raw.length / 16) →
        i16le w (44 + 2 * k) = (decodeSamples raw raw.length).getD k 0) := by
  constructor
  · intro h
    exact DecodeInternal_small raw raw.length outWav r h
  · intro h
    obtain ⟨w, hw, hl, h0, h4, h8, h16, h20, h22, h24, h28, h32, h34, h36, h40, hs⟩ :=
      DecodeInternal_fields raw raw.length outWav r h
    have e4 : u32 (36 + u32 (28 * (raw.length / 16) * 2)) = 36 + 2 * (28 * (raw.length / 16)) := by
      unfold u32
      omega
    have e40 : u32 (28 * (raw.length / 16) * 2) = 2 * (28 * (raw.length / 16)) := by
      unfold u32
      omega
    have e24 : (ofInt32 r : Int) = r := by
      unfold ofInt32
      have h3 : 0 ≤ r % 4294967296 := Int.emod_nonneg _ (by decide)
      rw [Int.toNat_of_nonneg h3]
      omega
    have e28 : (ofInt32 (r * 2) : Int) = 2 * r := by
      unfold ofInt32
      have h3 : 0 ≤ r * 2 % 4294967296 := Int.emod_nonneg _ (by decide)
      rw [Int.toNat_of_nonneg h3]
      omega
    rw [e4] at h4
    rw [e40] at h40
    refine ⟨w, hw, hl, h0, h4, ?_, h8, h16, h20, h22, by rw [h24, e24], by rw [h28, e28],
      h32, h34, h36, h40, ?_, hs⟩
    · rw [h4, hl]
      omega
    · rw [h40, hl]
      omega

theorem DecodeRaw_wav_witness :
    ∃ w, DecodeRaw saturatingBlock [] 44100 = (true, w) ∧ w.length = 100 ∧
      u32le w 4 = 92 ∧ (u32le w 24 : Int) = 44100 ∧ (u32le w 28 : Int) = 88200 ∧
      u32le w 40 = 56 :=
  match (DecodeRaw_wav saturatingBlock [] 44100 (by decide) (by decide) (by decide)).2
    (by decide) with
  | ⟨w, hw, hl, _, h4, _, _, _, _, _, h24, h28, _, _, _, h40, _, _⟩ =>
    ⟨w, hw, hl, h4, h24, h28, h40⟩

/-! ### VAGDecoder: the flag byte -/

theorem filterHist_congr (a b : List Nat)
    (hdiff : ∀ k, k % 16 ≠ 1 → a.getD k 0 = b.getD k 0) :
    ∀ n, filterHist a n = filterHist b n := by
  have h0 : ∀ m, a.getD (16 * m) 0 = b.getD (16 * m) 0 := fun m => hdiff _ (by omega)
  have h2 : ∀ m k, k < 28 → a.getD (16 * m + 2 + k / 2) 0 = b.getD (16 * m + 2 + k / 2) 0 :=
    fun m k hk => hdiff _ (by omega)
  have hc : ∀ n, filterCoef a n = filterCoef b n := by
    intro n
    simp only [filterCoef, h0]
  have hi : ∀ n, filterInput a n = filterInput b n := by
    intro n
    simp only [filterInput, shiftedNibble, signedNibble, h0,
      h2 (n / 28) (n % 28) (Nat.mod_lt _ (by decide))]
  intro n
  induction n with
  | zero => rfl
  | succ n ih => simp only [filterHist, ih, hc, hi]

theorem decodeSamples_congr (a b : List Nat) (size : Nat)
    (hdiff : ∀ k, k % 16 ≠ 1 → a.getD k 0 = b.getD k 0) :
    decodeSamples a size = decodeSamples b size := by
  rw [decodeSamples_eq, decodeSamples_eq]
  apply List.map_congr_left
  intro n _
  simp only [filterOut, filterHist_congr a b hdiff]

/-- C16. The decoded audio does not depend on any block's flag byte: two inputs of
equal length that differ only at byte positions congruent to 1 modulo 16 give the
same success flag and byte-identical output from `DecodeRaw`; and whatever the flag
values (7 included), every complete block contributes its 28 samples. -/
theorem DecodeRaw_flag_independent (a b outWav : List Nat) (r : Int)
    (hlen : a.length = b.length) (hdiff : ∀ k, k % 16 ≠ 1 → a.getD k 0 = b.getD k 0) :
    DecodeRaw a outWav r = DecodeRaw b outWav r ∧
    (decodeSamples a a.length).length = 28 * (a.length / 16) := by
  refine ⟨?_, decodeSamples_length a a.length⟩
  unfold DecodeRaw DecodeInternal
  rw [hlen, decodeSamples_congr a b b.length hdiff]

theorem DecodeRaw_flag_independent_witness :
    DecodeRaw flaggedBlocks [] 44100 = DecodeRaw unflaggedBlocks [] 44100 ∧
    (decodeSamples flaggedBlocks flaggedBlocks.length).length =
      28 * (flaggedBlocks.length / 16) :=
  DecodeRaw_flag_independent flaggedBlocks unflaggedBlocks [] 44100 (by decide) (by
    intro k hk
    by_cases h : k < 32
    · interval_cases k <;> first | rfl | exact absurd rfl hk
    · rw [List.getD_eq_default _ _ (by simpa [flaggedBlocks] using h),
        List.getD_eq_default _ _ (by simpa [unflaggedBlocks] using h)])

/-- C13 (evaluation at the failing input). The header of `vag96k` stores the sample
rate 96000 big-endian, yet `Decode` hands the payload to the headerless decoder at
30464 Hz (`0x7700`): `Swap32` drops the second byte of the stored value, so the result
differs from the headerless decoder run at the declared rate. -/
theorem Decode_vag96k_rate :
    be32 vag96k 16 = 96000 ∧ Swap32 (u32le vag96k 16) = 30464 ∧
    Decode vag96k [] = DecodeRaw (vag96k.drop 48) [] 30464 ∧
    Decode vag96k [] ≠ DecodeRaw (vag96k.drop 48) [] 96000 := by
  have hd : Decode vag96k [] = DecodeRaw (vag96k.drop 48) [] 30464 := by
    have e1 : (if Swap32 (u32le vag96k 12) > vag96k.length - 48 ∨ Swap32 (u32le vag96k 12) = 0
        then u32 (vag96k.length - 48) else Swap32 (u32le vag96k 12)) =
        (vag96k.drop 48).length := by decide
    have e2 : toInt32 (if Swap32 (u32le vag96k 16) = 0 then 44100
        else Swap32 (u32le vag96k 16)) = 30464 := by decide
    unfold Decode DecodeRaw
    rw [if_neg (by decide), if_neg (by decide)]
    simp only [e1, e2]
  refine ⟨by decide, by decide, hd, ?_⟩
  rw [hd]
  intro h
  obtain ⟨w, hw, -, -, -, -, -, -, -, h24, -⟩ :=
    DecodeInternal_fields (vag96k.drop 48) (vag96k.drop 48).length [] 30464 (by decide)
  obtain ⟨w', hw', -, -, -, -, -, -, -, h24', -⟩ :=
    DecodeInternal_fields (vag96k.drop 48) (vag96k.drop 48).length [] 96000 (by decide)
  unfold DecodeRaw at h
  rw [hw, hw'] at h
  have hww : w = w' := (Prod.mk.inj h).2
  rw [hww, h24'] at h24
  exact absurd h24 (by decide)

/-! ### ICOBLoader: fixed point and colours -/

/-- C17. For every signed 16-bit value `v`, `FixedToFloat v` is the rational `v / 4096`
exactly: the operands `v` and `1/4096` and the product are all binary32 values, so the
`float` multiplication does not round; the result lies in `[-8, 8)`, and
`FixedToFloat 4096 = 1`, `FixedToFloat (-4096) = -1`. -/
theorem FixedToFloat_exact (v : Int) (h1 : -32768 ≤ v) (h2 : v ≤ 32767) :
    FixedToFloat v = (v : ℚ) / 4096 ∧
    IsFloat32 (v : ℚ) ∧ IsFloat32 F16_SCALE ∧ IsFloat32 (FixedToFloat v) ∧
    -8 ≤ FixedToFloat v ∧ FixedToFloat v < 8 ∧
    FixedToFloat 4096 = 1 ∧ FixedToFloat (-4096) = -1 := by
  have hv : |v| < 2 ^ 24 := by
    rw [abs_lt]
    constructor <;> omega
  have hp : (2 : ℚ) ^ (-12 : Int) = 1 / 4096 := by
    rw [zpow_neg]
    norm_num
  have e : FixedToFloat v = (v : ℚ) / 4096 := by
    unfold FixedToFloat F16_SCALE
    ring
  have hq1 : (-32768 : ℚ) ≤ (v : ℚ) := by exact_mod_cast h1
  have hq2 : (v : ℚ) ≤ 32767 := by exact_mod_cast h2
  refine ⟨e, ⟨v, 0, hv, by decide, by decide, by simp⟩,
    ⟨1, -12, by decide, by decide, by decide, ?_⟩,
    ⟨v, -12, hv, by decide, by decide, ?_⟩, ?_, ?_, ?_, ?_⟩
  · rw [hp]
    unfold F16_SCALE
    norm_num
  · rw [hp, e]
    ring
  · rw [e]
    linarith
  · rw [e]
    linarith
  · unfold FixedToFloat F16_SCALE
    norm_num
  · unfold FixedToFloat F16_SCALE
    norm_num

theorem FixedToFloat_exact_witness :
    FixedToFloat (-32768) = ((-32768 : Int) : ℚ) / 4096 ∧
    IsFloat32 (((-32768 : Int)) : ℚ) ∧ IsFloat32 F16_SCALE ∧ IsFloat32 (FixedToFloat (-32768)) ∧
    -8 ≤ FixedToFloat (-32768) ∧ FixedToFloat (-32768) < 8 ∧
    FixedToFloat 4096 = 1 ∧ FixedToFloat (-4096) = -1 :=
  FixedToFloat_exact (-32768) (by decide) (by decide)

theorem and_255 (x : Nat) : x &&& 0xFF = x % 256 := Nat.and_pow_two_sub_one_eq_mod x 8

/-- A colour channel `n / 255.0f` of a byte `n`: the stored `float` lies in `[0, 1]`
and is within `2^-25` of the exact quotient. -/
theorem channel_bounds (n : Nat) (h : n ≤ 255) :
    (0 : ℚ) ≤ fl32 ((n : ℚ) / 255) ∧ fl32 ((n : ℚ) / 255) ≤ 1 ∧
    |fl32 ((n : ℚ) / 255) - (n : ℚ) / 255| ≤ 1 / 2 ^ 25 := by
  have h' : (n : ℚ) ≤ 255 := by exact_mod_cast h
  have h0 : (0 : ℚ) ≤ (n : ℚ) / 255 := by positivity
  have h1 : (n : ℚ) / 255 ≤ 1 := by
    rw [div_le_one (by norm_num)]
    exact h'
  obtain ⟨a, b, c⟩ := roundFloat_unit 24 (-126) (by decide) (by decide) _ h0 h1
  refine ⟨a, b, ?_⟩
  have e : (2 : ℚ) ^ (-(24 : Int)) / 2 = 1 / 2 ^ 25 := by
    rw [zpow_neg]
    norm_num
  rw [e] at c
  exact c

theorem alpha_mono (a a' : Nat) (h : a ≤ a') :
    (if a ≥ 0x80 then (1 : ℚ) else (a : ℚ) / 128) ≤
      (if a' ≥ 0x80 then (1 : ℚ) else (a' : ℚ) / 128) := by
  have hq : (a : ℚ) ≤ (a' : ℚ) := by exact_mod_cast h
  by_cases h1 : a ≥ 0x80
  · have h2 : a' ≥ 0x80 := le_trans h1 h
    rw [if_pos h1, if_pos h2]
  · rw [if_neg h1]
    have h3 : (a : ℚ) < 128 := by
      have : a < 128 := by omega
      exact_mod_cast this
    by_cases h2 : a' ≥ 0x80
    · rw [if_pos h2, div_le_one (by norm_num)]
      exact h3.le
    · rw [if_neg h2]
      exact div_le_div_of_nonneg_right hq (by norm_num)

/-- The decoded colour written with the shifts and masks of the source. -/
theorem vertexColor_eq (c : Nat) :
    vertexColor c =
      (fl32 (((c &&& 0xFF : Nat) : ℚ) / 255), fl32 ((((c >>> 8) &&& 0xFF : Nat) : ℚ) / 255),
        fl32 ((((c >>> 16) &&& 0xFF : Nat) : ℚ) / 255),
        if (c >>> 24) &&& 0xFF ≥ 0x80 then (1 : ℚ)
        else (((c >>> 24) &&& 0xFF : Nat) : ℚ) / 128) := by
  simp only [vertexColor, and_255, Nat.shiftRight_eq_div_pow, Nat.reducePow]

/-- The colour stored by the loop body of `Load` is the decoded colour of the packed
colour of the texture record. -/
theorem makeVertex_color (shapeBuffer normalRaw textureRaw : List Nat) :
    (makeVertex shapeBuffer normalRaw textureRaw).color = vertexColor (u32le textureRaw 4) := by
  rw [vertexColor_eq]
  simp only [makeVertex]
  by_cases h : (u32le textureRaw 4 >>> 24) &&& 0xFF ≥ 0x80
  · simp only [if_pos h]
  · simp only [if_neg h]
    rw [fl32_div128 _ (by omega)]

/-- C19 (as stated, refuted). For the packed colour `28` (red byte 28) the red
component stored in the vertex is the `float` `14737633 / 2^27`, the binary32 value
nearest to `28 / 255`, and not the quotient `28 / 255` itself. -/
theorem vertex_colour_rounded :
    u32le [0, 0, 0, 0, 28, 0, 0, 0] 4 = 28 ∧
    (makeVertex [] [] [0, 0, 0, 0, 28, 0, 0, 0]).color.1 = 14737633 / 134217728 ∧
    (14737633 / 134217728 : ℚ) ≠ 28 / 255 := by
  refine ⟨by decide, ?_, by norm_num⟩
  rw [makeVertex_color, vertexColor_eq]
  have e : u32le [0, 0, 0, 0, 28, 0, 0, 0] 4 &&& 0xFF = 28 := by decide
  simp only [e]
  have e2 : ((28 : Nat) : ℚ) / 255 = 28 / 255 := by norm_num
  rw [e2, fl32_28]

/-- C19 (amended). For every packed vertex colour `c`, the colour stored in the vertex
has `R`, `G`, `B` the `float` quotients of `c & 0xFF`, `(c >> 8) & 0xFF`,
`(c >> 16) & 0xFF` by 255 (the binary32 values nearest to the exact quotients, within
`2^-25` of them) and, with `a = (c >> 24) & 0xFF`, alpha `1` when `a ≥ 0x80` and exactly
`a / 128` otherwise; each of the four components lies in `[0, 1]`, and alpha is
non-decreasing in `a`. -/
theorem vertex_colour (shapeBuffer normalRaw textureRaw : List Nat) (c : Nat) :
    (makeVertex shapeBuffer normalRaw textureRaw).color = vertexColor (u32le textureRaw 4) ∧
    vertexColor c =
      (fl32 (((c &&& 0xFF : Nat) : ℚ) / 255), fl32 ((((c >>> 8) &&& 0xFF : Nat) : ℚ) / 255),
        fl32 ((((c >>> 16) &&& 0xFF : Nat) : ℚ) / 255),
        if (c >>> 24) &&& 0xFF ≥ 0x80 then (1 : ℚ)
        else (((c >>> 24) &&& 0xFF : Nat) : ℚ) / 128) ∧
    |(vertexColor c).1 - ((c &&& 0xFF : Nat) : ℚ) / 255| ≤ 1 / 2 ^ 25 ∧
    |(vertexColor c).2.1 - (((c >>> 8) &&& 0xFF : Nat) : ℚ) / 255| ≤ 1 / 2 ^ 25 ∧
    |(vertexColor c).2.2.1 - (((c >>> 16) &&& 0xFF : Nat) : ℚ) / 255| ≤ 1 / 2 ^ 25 ∧
    (0 ≤ (vertexColor c).1 ∧ (vertexColor c).1 ≤ 1) ∧
    (0 ≤ (vertexColor c).2.1 ∧ (vertexColor c).2.1 ≤ 1) ∧
    (0 ≤ (vertexColor c).2.2.1 ∧ (vertexColor c).2.2.1 ≤ 1) ∧
    (0 ≤ (vertexColor c).2.2.2 ∧ (vertexColor c).2.2.2 ≤ 1) ∧
    ∀ c' : Nat, (c >>> 24) &&& 0xFF ≤ (c' >>> 24) &&& 0xFF →
      (vertexColor c).2.2.2 ≤ (vertexColor c').2.2.2 := by
  have hb : ∀ x : Nat, x &&& 0xFF ≤ 255 := by
    intro x
    rw [and_255]
    omega
  have hr := channel_bounds _ (hb c)
  have hg := channel_bounds _ (hb (c >>> 8))
  have hbl := channel_bounds _ (hb (c >>> 16))
  refine ⟨makeVertex_color _ _ _, vertexColor_eq c, ?_⟩
  simp only [vertexColor_eq]
  refine ⟨hr.2.2, hg.2.2, hbl.2.2, ⟨hr.1, hr.2.1⟩, ⟨hg.1, hg.2.1⟩, ⟨hbl.1, hbl.2.1⟩, ?_, ?_⟩
  · have h0 := alpha_mono 0 ((c >>> 24) &&& 0xFF) (Nat.zero_le _)
    have h1 := alpha_mono ((c >>> 24) &&& 0xFF) 255 (hb _)
    norm_num at h0 h1
    exact ⟨h0, h1⟩
  · intro c' h
    exact alpha_mono _ _ h

/-! ### ICOBLoader: the vertex records -/

theorem read_full (d buf : List Nat) (t c : Nat) (h : t + c ≤ d.length) :
    IStream.read { data := d, pos := t, fail := false } buf c =
      ({ data := d, pos := t + c, fail := false }, (d.drop t).take c ++ buf.drop c) := by
  have hl : ((d.drop t).take c).length = c := by
    rw [List.length_take, List.length_drop]
    omega
  simp only [IStream.read, Bool.false_eq_true, ↓reduceIte, hl, Nat.lt_irrefl, decide_False]

theorem getD_read (d buf : List Nat) (t c j : Nat) (h : t + c ≤ d.length) (hj : j < c) :
    ((d.drop t).take c ++ buf.drop c).getD j 0 = d.getD (t + j) 0 := by
  have hl : j < ((d.drop t).take c).length := by
    rw [List.length_take, List.length_drop]
    omega
  rw [List.getD_eq_getElem?_getD, List.getD_eq_getElem?_getD, List.getElem?_append_left hl,
    List.getElem?_take_of_lt hj, List.getElem?_drop]

theorem i16le_read (d buf : List Nat) (t c off : Nat) (h : t + c ≤ d.length)
    (ho : off + 2 ≤ c) :
    i16le ((d.drop t).take c ++ buf.drop c) off = i16le d (t + off) := by
  simp only [i16le, u16le]
  rw [getD_read d buf t c off h (by omega), getD_read d buf t c (off + 1) h (by omega)]
  rfl

theorem u32le_read (d buf : List Nat) (t c off : Nat) (h : t + c ≤ d.length)
    (ho : off + 4 ≤ c) :
    u32le ((d.drop t).take c ++ buf.drop c) off = u32le d (t + off) := by
  simp only [u32le]
  rw [getD_read d buf t c off h (by omega), getD_read d buf t c (off + 1) h (by omega),
    getD_read d buf t c (off + 2) h (by omega), getD_read d buf t c (off + 3) h (by omega)]
  rfl

/-- The vertex built by the loop body: every coordinate is its int16 divided by 4096
(the `float` product with `1/4096` is exact), and the colour is the decoded colour. -/
theorem makeVertex_eq (shapeBuffer normalRaw textureRaw : List Nat) :
    makeVertex shapeBuffer normalRaw textureRaw =
      { position := ((i16le shapeBuffer 0 : ℚ) / 4096, (i16le shapeBuffer 2 : ℚ) / 4096,
          (i16le shapeBuffer 4 : ℚ) / 4096),
        normal := ((i16le normalRaw 0 : ℚ) / 4096, (i16le normalRaw 2 : ℚ) / 4096,
          (i16le normalRaw 4 : ℚ) / 4096),
        texcoord := ((i16le textureRaw 0 : ℚ) / 4096, (i16le textureRaw 2 : ℚ) / 4096),
        color := vertexColor (u32le textureRaw 4) } := by
  have hF : ∀ v : Int, FixedToFloat v = (v : ℚ) / 4096 := fun v => by
    unfold FixedToFloat F16_SCALE
    ring
  have hc := makeVertex_color shapeBuffer normalRaw textureRaw
  simp only [makeVertex] at hc
  simp only [makeVertex, hF, hc]

theorem vertexStep_value (d : List Nat) (shapes t : Nat) (st : LoopState) (hs : 1 ≤ shapes)
    (hf : st.file = { data := d, pos := t, fail := false })
    (h : t + (8 * shapes + 16) ≤ d.length) :
    ∃ st', vertexStep shapes st = some st' ∧
      st'.file = { data := d, pos := t + (8 * shapes + 16), fail := false } ∧
      st'.vertices = st.vertices ++ [recordVertex d shapes t] := by
  have hne : shapes ≠ 0 := by omega
  have r1 := read_full d st.shapeBuffer t (8 * shapes) (by omega)
  have r2 := read_full d st.normalRaw (t + 8 * shapes) 8 (by omega)
  have r3 := read_full d st.textureRaw (t + 8 * shapes + 8) 8 (by omega)
  have hv : makeVertex ((d.drop t).take (8 * shapes) ++ st.shapeBuffer.drop (8 * shapes))
      ((d.drop (t + 8 * shapes)).take 8 ++ st.normalRaw.drop 8)
      ((d.drop (t + 8 * shapes + 8)).take 8 ++ st.textureRaw.drop 8) =
      recordVertex d shapes t := by
    rw [makeVertex_eq]
    simp only [recordVertex]
    rw [i16le_read d _ t (8 * shapes) 0 (by omega) (by omega),
      i16le_read d _ t (8 * shapes) 2 (by omega) (by omega),
      i16le_read d _ t (8 * shapes) 4 (by omega) (by omega),
      i16le_read d _ (t + 8 * shapes) 8 0 (by omega) (by omega),
      i16le_read d _ (t + 8 * shapes) 8 2 (by omega) (by omega),
      i16le_read d _ (t + 8 * shapes) 8 4 (by omega) (by omega),
      i16le_read d _ (t + 8 * shapes + 8) 8 0 (by omega) (by omega),
      i16le_read d _ (t + 8 * shapes + 8) 8 2 (by omega) (by omega),
      u32le_read d _ (t + 8 * shapes + 8) 8 4 (by omega) (by omega)]
    rfl
  refine ⟨_, by simp only [vertexStep, hf, r1, r2, r3, hne, ↓reduceIte]; rfl, ?_, ?_⟩
  · simp only [show t + (8 * shapes + 16) = t + 8 * shapes + 8 + 8 by omega]
  · simp only [hv]

theorem vertexLoop_value (d : List Nat) (shapes : Nat) (hs : 1 ≤ shapes) :
    ∀ (n t : Nat) (st : LoopState),
      st.file = { data := d, pos := t, fail := false } →
      t + n * (8 * shapes + 16) ≤ d.length →
      ∃ st', vertexLoop shapes n st = some st' ∧
        st'.file = { data := d, pos := t + n * (8 * shapes + 16), fail := false } ∧
        st'.vertices = st.vertices ++
          (List.range n).map (fun i => recordVertex d shapes (t + i * (8 * shapes + 16))) := by
  intro n
  induction n with
  | zero =>
    intro t st hf _
    exact ⟨st, rfl, by simpa using hf, by simp⟩
  | succ n ih =>
    intro t st hf h
    have e : (n + 1) * (8 * shapes + 16) = (8 * shapes + 16) + n * (8 * shapes + 16) := by ring
    obtain ⟨st1, e1, f1, v1⟩ := vertexStep_value d shapes t st hs hf (by omega)
    obtain ⟨st2, e2, f2, v2⟩ := ih (t + (8 * shapes + 16)) st1 f1 (by omega)
    refine ⟨st2, by simp only [vertexLoop, e1, e2], ?_, ?_⟩
    · rw [f2, e, Nat.add_assoc]
    · rw [v2, v1, List.range_succ_eq_map, List.map_cons, List.map_map, List.append_assoc]
      have e3 : ∀ a, t + (8 * shapes + 16) + a * (8 * shapes + 16) =
          t + (a + 1) * (8 * shapes + 16) := fun a => by ring
      simp [e3]

/-- What a successful `Load` leaves in the loader: the vertices of the `n` records, in
file order, and the identity index list. -/
theorem Load_success (self : ICOBLoader) (bytes normalRaw0 textureRaw0 : List Nat)
    (st : ICOBLoader) (hlen : 20 ≤ bytes.length) (hS : 1 ≤ u32le bytes 4)
    (hok : self.Load (some bytes) normalRaw0 textureRaw0 = some (true, st)) :
    st.GetVertices = (List.range (u32le bytes 16)).map (fun i =>
        recordVertex bytes (u32le bytes 4) (20 + i * (8 * u32le bytes 4 + 16))) ∧
    st.GetIndices = List.range (u32le bytes 16) := by
  obtain ⟨ok, st0, e0, hiff, -⟩ := Load_outcome self bytes normalRaw0 textureRaw0 hlen hS
  rw [e0] at hok
  have hok' : ok = true := (Prod.mk.inj (Option.some.inj hok)).1
  obtain ⟨hv1, hv2, hsz⟩ := hiff.1 hok'
  have hn := u32le_header bytes (self.header_.drop 20) 16 hlen (by decide)
  have hs := u32le_header bytes (self.header_.drop 20) 4 hlen (by decide)
  have hv : ¬ (u32le bytes 16 = 0 ∨ u32le bytes 16 % 3 ≠ 0) := by
    rintro (h | h)
    · exact hv1 h
    · exact h hv2
  obtain ⟨st', e, hf, hvs⟩ := vertexLoop_value bytes (u32le bytes 4) hS (u32le bytes 16) 20
    { file := { data := bytes, pos := 20, fail := false },
      shapeBuffer := List.replicate (8 * u32le bytes 4) 0,
      normalRaw := normalRaw0, textureRaw := textureRaw0, vertices := [] } rfl hsz
  have hfail : st'.file.fail = false := by rw [hf]
  have e1 := e0
  simp only [ICOBLoader.Load, read_header bytes self.header_ hlen, ICOBLoader.n_vertices,
    ICOBLoader.animation_shapes, hn, hs, if_neg hv, e, hfail, Bool.false_eq_true,
    ↓reduceIte] at e1
  have hst : st0 = st := (Prod.mk.inj (Option.some.inj hok)).2
  have hst0 := (Prod.mk.inj (Option.some.inj e1)).2
  rw [← hst, ← hst0]
  simp only [ICOBLoader.GetVertices, ICOBLoader.GetIndices, hvs, List.nil_append]
  exact ⟨trivial, trivial⟩

theorem i16le_congr (b b' : List Nat) (x : Nat)
    (h0 : b'.getD x 0 = b.getD x 0) (h1 : b'.getD (x + 1) 0 = b.getD (x + 1) 0) :
    i16le b' x = i16le b x := by
  simp only [i16le, u16le, h0, h1]

theorem recordVertex_congr (b b' : List Nat) (shapes off : Nat)
    (h : ∀ j, usedRecordOffset shapes j → b'.getD (off + j) 0 = b.getD (off + j) 0) :
    recordVertex b' shapes off = recordVertex b shapes off := by
  have g : ∀ idx j, idx = off + j → usedRecordOffset shapes j →
      b'.getD idx 0 = b.getD idx 0 := by
    intro idx j e hj
    rw [e]
    exact h j hj
  have p0 := i16le_congr b b' off
    (g _ 0 rfl (by unfold usedRecordOffset; omega)) (g _ 1 rfl (by unfold usedRecordOffset; omega))
  have p2 := i16le_congr b b' (off + 2)
    (g _ 2 rfl (by unfold usedRecordOffset; omega)) (g _ 3 rfl (by unfold usedRecordOffset; omega))
  have p4 := i16le_congr b b' (off + 4)
    (g _ 4 rfl (by unfold usedRecordOffset; omega)) (g _ 5 rfl (by unfold usedRecordOffset; omega))
  have n0 := i16le_congr b b' (off + 8 * shapes)
    (g _ (8 * shapes) rfl (by unfold usedRecordOffset; omega))
    (g _ (8 * shapes + 1) (by omega) (by unfold usedRecordOffset; omega))
  have n2 := i16le_congr b b' (off + 8 * shapes + 2)
    (g _ (8 * shapes + 2) (by omega) (by unfold usedRecordOffset; omega))
    (g _ (8 * shapes + 3) (by omega) (by unfold usedRecordOffset; omega))
  have n4 := i16le_congr b b' (off + 8 * shapes + 4)
    (g _ (8 * shapes + 4) (by omega) (by unfold usedRecordOffset; omega))
    (g _ (8 * shapes + 5) (by omega) (by unfold usedRecordOffset; omega))
  have t0 := i16le_congr b b' (off + 8 * shapes + 8)
    (g _ (8 * shapes + 8) (by omega) (by unfold usedRecordOffset; omega))
    (g _ (8 * shapes + 9) (by omega) (by unfold usedRecordOffset; omega))
  have t2 := i16le_congr b b' (off + 8 * shapes + 10)
    (g _ (8 * shapes + 10) (by omega) (by unfold usedRecordOffset; omega))
    (g _ (8 * shapes + 11) (by omega) (by unfold usedRecordOffset; omega))
  have c0 : u32le b' (off + 8 * shapes + 12) = u32le b (off + 8 * shapes + 12) := by
    simp only [u32le]
    rw [g _ (8 * shapes + 12) (by omega) (by unfold usedRecordOffset; omega),
      g _ (8 * shapes + 13) (by omega) (by unfold usedRecordOffset; omega),
      g _ (8 * shapes + 14) (by omega) (by unfold usedRecordOffset; omega),
      g _ (8 * shapes + 15) (by omega) (by unfold usedRecordOffset; omega)]
  simp only [recordVertex, p0, p2, p4, n0, n2, n4, t0, t2, c0]

/-- C18. On a successful `Load` with shape count `S ≥ 1`, vertex `i` is decoded from the
record at byte offset `20 + i * (8 * S + 16)`: position from the int16 values at record
offsets 0, 2, 4 (shape 0), normal from those at `8S`, `8S + 2`, `8S + 4`, UV from those
at `8S + 8`, `8S + 10`, each scaled by 1/4096 (the stored coordinate is exactly the
int16 value divided by 4096), and colour decoded from the uint32 at `8S + 12`.  The mesh
is unchanged by any modification of the other bytes (shapes `1..S-1`, the `w`
components, the magic, texture-type and reserved fields, the bytes after the last
record), and by the loader's prior state. -/
theorem Load_vertex_records (self : ICOBLoader) (bytes normalRaw0 textureRaw0 : List Nat)
    (st : ICOBLoader) (hlen : 20 ≤ bytes.length) (hS : 1 ≤ u32le bytes 4)
    (hok : self.Load (some bytes) normalRaw0 textureRaw0 = some (true, st)) :
    (st.GetVertices = (List.range (u32le bytes 16)).map (fun i =>
        recordVertex bytes (u32le bytes 4) (20 + i * (8 * u32le bytes 4 + 16))) ∧
      st.GetIndices = List.range (u32le bytes 16)) ∧
    (∀ i, i < u32le bytes 16 →
      st.GetVertices[i]? = some
        { position :=
            ((i16le bytes (20 + i * (8 * u32le bytes 4 + 16)) : ℚ) / 4096,
             (i16le bytes (20 + i * (8 * u32le bytes 4 + 16) + 2) : ℚ) / 4096,
             (i16le bytes (20 + i * (8 * u32le bytes 4 + 16) + 4) : ℚ) / 4096),
          normal :=
            ((i16le bytes (20 + i * (8 * u32le bytes 4 + 16) + 8 * u32le bytes 4) : ℚ) / 4096,
             (i16le bytes (20 + i * (8 * u32le bytes 4 + 16) + 8 * u32le bytes 4 + 2) : ℚ) / 4096,
             (i16le bytes (20 + i * (8 * u32le bytes 4 + 16) + 8 * u32le bytes 4 + 4) : ℚ) / 4096),
          texcoord :=
            ((i16le bytes (20 + i * (8 * u32le bytes 4 + 16) + 8 * u32le bytes 4 + 8) : ℚ) / 4096,
             (i16le bytes (20 + i * (8 * u32le bytes 4 + 16) + 8 * u32le bytes 4 + 10) : ℚ) / 4096),
          color :=
            vertexColor (u32le bytes (20 + i * (8 * u32le bytes 4 + 16) + 8 * u32le bytes 4 + 12)) }) ∧
    ∀ (self' : ICOBLoader) (bytes' normalRaw1 textureRaw1 : List Nat),
      bytes'.length = bytes.length →
      u32le bytes' 4 = u32le bytes 4 → u32le bytes' 16 = u32le bytes 16 →
      (∀ i j, i < u32le bytes 16 → usedRecordOffset (u32le bytes 4) j →
        bytes'.getD (20 + i * (8 * u32le bytes 4 + 16) + j) 0 =
          bytes.getD (20 + i * (8 * u32le bytes 4 + 16) + j) 0) →
      ∃ st', self'.Load (some bytes') normalRaw1 textureRaw1 = some (true, st') ∧
        st'.GetVertices = st.GetVertices ∧ st'.GetIndices = st.GetIndices := by
  have h1 := Load_success self bytes normalRaw0 textureRaw0 st hlen hS hok
  refine ⟨h1, ?_, ?_⟩
  · intro i hi
    rw [h1.1, List.getElem?_map, List.getElem?_range hi]
    rfl
  intro self' bytes' nr1 tr1 hl' hs' hn' hagree
  obtain ⟨ok, st0, e0, hiff, -⟩ := Load_outcome self bytes normalRaw0 textureRaw0 hlen hS
  rw [e0] at hok
  have hcond := hiff.1 (Prod.mk.inj (Option.some.inj hok)).1
  obtain ⟨ok', st', e', hiff', -⟩ :=
    Load_outcome self' bytes' nr1 tr1 (by omega) (by omega)
  have hok' : ok' = true := by
    apply hiff'.2
    rw [hs', hn', hl']
    exact hcond
  subst hok'
  have h2 := Load_success self' bytes' nr1 tr1 st' (by omega) (by omega) e'
  refine ⟨st', e', ?_, ?_⟩
  · rw [h2.1, h1.1, hs', hn']
    apply List.map_congr_left
    intro i hi
    exact recordVertex_congr bytes bytes' _ _ (fun j hj => hagree i j (List.mem_range.1 hi) hj)
  · rw [h2.2, h1.2, hn']

theorem Load_vertex_records_witness :
    ∃ st, ICOBLoader.new.Load (some smallModel) [] [] = some (true, st) ∧
      st.GetVertices = (List.range (u32le smallModel 16)).map (fun i =>
        recordVertex smallModel (u32le smallModel 4) (20 + i * (8 * u32le smallModel 4 + 16))) ∧
      st.GetIndices = List.range (u32le smallModel 16) :=
  match Load_outcome ICOBLoader.new smallModel [] [] (by decide) (by decide) with
  | ⟨true, st, e, _, _⟩ =>
    ⟨st, e, (Load_vertex_records ICOBLoader.new smallModel [] [] st (by decide) (by decide) e).1⟩
  | ⟨false, _, _, hiff, _⟩ =>
    absurd (hiff.2 ⟨by decide, by decide, by decide⟩) (by decide)

/-! ### TextureLoader: the raster loop -/

theorem put4_length (px : List Nat) (dst r g b a : Nat) :
    (put4 px dst r g b a).length = px.length := by
  simp [put4]

theorem put4_getD_other (px : List Nat) (dst r g b a j : Nat) (h : j < dst ∨ dst + 4 ≤ j) :
    (put4 px dst r g b a).getD j 0 = px.getD j 0 := by
  simp only [put4, List.getD_eq_getElem?_getD]
  rw [List.getElem?_set_ne (by omega), List.getElem?_set_ne (by omega),
    List.getElem?_set_ne (by omega), List.getElem?_set_ne (by omega)]

theorem put4_getD (px : List Nat) (dst r g b a : Nat) (h : dst + 3 < px.length) :
    (put4 px dst r g b a).getD dst 0 = r ∧ (put4 px dst r g b a).getD (dst + 1) 0 = g ∧
    (put4 px dst r g b a).getD (dst + 2) 0 = b ∧ (put4 px dst r g b a).getD (dst + 3) 0 = a := by
  simp only [put4, List.getD_eq_getElem?_getD]
  refine ⟨?_, ?_, ?_, ?_⟩
  · rw [List.getElem?_set_ne (by omega), List.getElem?_set_ne (by omega),
      List.getElem?_set_ne (by omega), List.getElem?_set_self (by omega)]
    rfl
  · rw [List.getElem?_set_ne (by omega), List.getElem?_set_ne (by omega),
      List.getElem?_set_self (by simp; omega)]
    rfl
  · rw [List.getElem?_set_ne (by omega), List.getElem?_set_self (by simp; omega)]
    rfl
  · rw [List.getElem?_set_self (by simp; omega)]
    rfl

theorem pixelLoop_flat (width height : Nat) (body : Nat → Nat → List Nat → List Nat)
    (pixels : List Nat) :
    pixelLoop width height body pixels =
      ((List.range height).flatMap (fun y => (List.range width).map (fun x => (x, y)))).foldl
        (fun px c => body c.1 c.2 px) pixels := by
  unfold pixelLoop
  generalize List.range height = ys
  induction ys generalizing pixels with
  | nil => rfl
  | cons y ys ih =>
    rw [List.foldl_cons, ih, List.flatMap_cons, List.foldl_append, List.foldl_map]

theorem foldl_put4_length {α : Type} (pos : α → Nat) (f : α → Nat × Nat × Nat × Nat) :
    ∀ (l : List α) (px : List Nat),
      (l.foldl (fun px c => put4 px (pos c) (f c).1 (f c).2.1 (f c).2.2.1 (f c).2.2.2) px).length
        = px.length := by
  intro l
  induction l with
  | nil => intro px; rfl
  | cons c l ih =>
    intro px
    rw [List.foldl_cons, ih, put4_length]

theorem foldl_put4_other {α : Type} (pos : α → Nat) (f : α → Nat × Nat × Nat × Nat) :
    ∀ (l : List α) (px : List Nat) (j : Nat),
      (∀ c ∈ l, j < pos c ∨ pos c + 4 ≤ j) →
      (l.foldl (fun px c => put4 px (pos c) (f c).1 (f c).2.1 (f c).2.2.1 (f c).2.2.2) px).getD j 0
        = px.getD j 0 := by
  intro l
  induction l with
  | nil => intro px j _; rfl
  | cons c l ih =>
    intro px j h
    rw [List.foldl_cons, ih _ _ (fun c' hc' => h c' (List.mem_cons_of_mem _ hc')),
      put4_getD_other _ _ _ _ _ _ _ (h c (List.mem_cons_self _ _))]

theorem foldl_put4_getD {α : Type} (pos : α → Nat) (f : α → Nat × Nat × Nat × Nat) :
    ∀ (l : List α) (px : List Nat) (c : α), c ∈ l → pos c + 3 < px.length →
      (∀ c' ∈ l, pos c' = pos c → f c' = f c) →
      (∀ c' ∈ l, pos c' = pos c ∨ pos c' + 4 ≤ pos c ∨ pos c + 4 ≤ pos c') →
      ∀ k, k < 4 →
      (l.foldl (fun px c => put4 px (pos c) (f c).1 (f c).2.1 (f c).2.2.1 (f c).2.2.2) px).getD
          (pos c + k) 0 =
        [(f c).1, (f c).2.1, (f c).2.2.1, (f c).2.2.2].getD k 0 := by
  intro l
  induction l with
  | nil => intro px c hc; simp at hc
  | cons c0 l ih =>
    intro px c hc hlen hsame hdis k hk
    rw [List.foldl_cons]
    by_cases hin : ∃ c' ∈ l, pos c' = pos c
    · obtain ⟨c', hc', hp⟩ := hin
      have h1 := ih (put4 px (pos c0) (f c0).1 (f c0).2.1 (f c0).2.2.1 (f c0).2.2.2) c' hc'
        (by rw [put4_length, hp]; exact hlen)
        (fun d hd hpd => by
          rw [hsame d (List.mem_cons_of_mem _ hd) (by rw [hpd, hp]),
            hsame c' (List.mem_cons_of_mem _ hc') hp])
        (fun d hd => by
          rw [hp]
          exact hdis d (List.mem_cons_of_mem _ hd)) k hk
      rw [hp, hsame c' (List.mem_cons_of_mem _ hc') hp] at h1
      exact h1
    · have hframe := foldl_put4_other pos f l
        (put4 px (pos c0) (f c0).1 (f c0).2.1 (f c0).2.2.1 (f c0).2.2.2) (pos c + k)
        (fun c' hc' => by
          rcases hdis c' (List.mem_cons_of_mem _ hc') with h | h | h
          · exact absurd ⟨c', hc', h⟩ hin
          · right; omega
          · left; omega)
      rw [hframe]
      have hc0 : pos c0 = pos c := by
        rcases List.mem_cons.1 hc with h | h
        · rw [h]
        · exact absurd ⟨c, h, rfl⟩ hin
      have hf0 : f c0 = f c := hsame c0 (List.mem_cons_self _ _) hc0
      rw [hc0, hf0]
      obtain ⟨g0, g1, g2, g3⟩ := put4_getD px (pos c) (f c).1 (f c).2.1 (f c).2.2.1 (f c).2.2.2 hlen
      interval_cases k
      · exact g0
      · exact g1
      · exact g2
      · exact g3

theorem mem_cells (width height x y : Nat) :
    (x, y) ∈ (List.range height).flatMap (fun y => (List.range width).map (fun x => (x, y))) ↔
      x < width ∧ y < height := by
  simp only [List.mem_flatMap, List.mem_map, List.mem_range, Prod.mk.injEq]
  constructor
  · rintro ⟨b, hb, a, ha, rfl, rfl⟩
    exact ⟨ha, hb⟩
  · rintro ⟨hx, hy⟩
    exact ⟨y, hy, x, hx, rfl, rfl⟩

/-- The raster loop with a body that stores four bytes at `(y * width + x) * 4` keeps the
length of the pixel vector and leaves, at every pixel, the bytes its iteration stored. -/
theorem pixelLoop_put4 (width height : Nat) (f : Nat → Nat → Nat × Nat × Nat × Nat)
    (px : List Nat) (hlen : px.length = width * height * 4) :
    (pixelLoop width height (fun x y px =>
        put4 px ((y * width + x) * 4) (f x y).1 (f x y).2.1 (f x y).2.2.1 (f x y).2.2.2)
        px).length = width * height * 4 ∧
    ∀ x y k, x < width → y < height → k < 4 →
      (pixelLoop width height (fun x y px =>
        put4 px ((y * width + x) * 4) (f x y).1 (f x y).2.1 (f x y).2.2.1 (f x y).2.2.2)
        px).getD ((y * width + x) * 4 + k) 0 =
      [(f x y).1, (f x y).2.1, (f x y).2.2.1, (f x y).2.2.2].getD k 0 := by
  rw [pixelLoop_flat]
  constructor
  · rw [← hlen]
    exact foldl_put4_length (fun c : Nat × Nat => (c.2 * width + c.1) * 4)
      (fun c => f c.1 c.2) _ px
  · intro x y k hx hy hk
    have hcell : ∀ c : Nat × Nat,
        c ∈ (List.range height).flatMap (fun y => (List.range width).map (fun x => (x, y))) →
        c.1 < width ∧ c.2 < height := fun c hc => (mem_cells width height c.1 c.2).1 hc
    have hb := page_lt width height x y hx hy
    exact foldl_put4_getD (fun c : Nat × Nat => (c.2 * width + c.1) * 4)
      (fun c => f c.1 c.2) _ px (x, y) ((mem_cells width height x y).2 ⟨hx, hy⟩)
      (by
        show (y * width + x) * 4 + 3 < px.length
        rw [hlen]
        have : y * width + x < width * height := by omega
        omega)
      (fun c hc hp => by
        have hp' : (c.2 * width + c.1) * 4 = (y * width + x) * 4 := hp
        have := page_inj width c.1 c.2 x y (hcell c hc).1 hx (by omega)
        show f c.1 c.2 = f x y
        rw [this.1, this.2])
      (fun c _ => by
        show (c.2 * width + c.1) * 4 = (y * width + x) * 4 ∨
          (c.2 * width + c.1) * 4 + 4 ≤ (y * width + x) * 4 ∨
          (y * width + x) * 4 + 4 ≤ (c.2 * width + c.1) * 4
        omega) k hk

theorem resizeBytes_length (v : List Nat) (n : Nat) : (resizeBytes v n).length = n := by
  simp only [resizeBytes, List.length_append, List.length_take, List.length_replicate]
  omega

/-! ### TextureLoader: Read16 -/

theorem expand5 (n : Nat) (h : n < 32) :
    ((n <<< 3) % 256) ||| (((n <<< 3) % 256) >>> 5) = (n <<< 3) ||| (n >>> 2) ∧
    ((n <<< 3) ||| (n >>> 2) = 0 ↔ n = 0) := by
  interval_cases n <;> decide

theorem texel16_spec (raw : Nat) (h : raw < 65536) :
    texel16 raw =
      (((raw &&& 31) <<< 3) ||| ((raw &&& 31) >>> 2),
       ((((raw >>> 5) &&& 31) <<< 3) ||| (((raw >>> 5) &&& 31) >>> 2)),
       ((((raw >>> 10) &&& 31) <<< 3) ||| (((raw >>> 10) &&& 31) >>> 2)),
       if raw.testBit 15 = true ∨ ((raw &&& 31) <<< 3) ||| ((raw &&& 31) >>> 2) ≠ 0 ∨
            (((raw >>> 5) &&& 31) <<< 3) ||| (((raw >>> 5) &&& 31) >>> 2) ≠ 0 ∨
            (((raw >>> 10) &&& 31) <<< 3) ||| (((raw >>> 10) &&& 31) >>> 2) ≠ 0
       then 255 else 0) ∧
    ((texel16 raw).2.2.2 = 0 ↔ raw = 0) := by
  have hr : raw &&& 31 < 32 := by rw [and_31]; omega
  have hg : (raw >>> 5) &&& 31 < 32 := by rw [and_31]; omega
  have hb : (raw >>> 10) &&& 31 < 32 := by rw [and_31]; omega
  have hg' : ((raw >>> 5) &&& 31) % 256 = (raw >>> 5) &&& 31 := Nat.mod_eq_of_lt (by omega)
  have hb' : ((raw >>> 10) &&& 31) % 256 = (raw >>> 10) &&& 31 := Nat.mod_eq_of_lt (by omega)
  have er := expand5 _ hr
  have eg := expand5 _ hg
  have eb := expand5 _ hb
  have ht : raw.testBit 15 = true ↔ raw >>> 15 ≠ 0 := by
    rw [Nat.testBit_to_div_mod, Nat.shiftRight_eq_div_pow]
    simp only [decide_eq_true_eq]
    omega
  have e : texel16 raw =
      (((raw &&& 31) <<< 3) ||| ((raw &&& 31) >>> 2),
       ((((raw >>> 5) &&& 31) <<< 3) ||| (((raw >>> 5) &&& 31) >>> 2)),
       ((((raw >>> 10) &&& 31) <<< 3) ||| (((raw >>> 10) &&& 31) >>> 2)),
       if raw.testBit 15 = true ∨ ((raw &&& 31) <<< 3) ||| ((raw &&& 31) >>> 2) ≠ 0 ∨
            (((raw >>> 5) &&& 31) <<< 3) ||| (((raw >>> 5) &&& 31) >>> 2) ≠ 0 ∨
            (((raw >>> 10) &&& 31) <<< 3) ||| (((raw >>> 10) &&& 31) >>> 2) ≠ 0
       then 255 else 0) := by
    simp only [texel16, hg', hb', er.1, eg.1, eb.1, ht]
    congr 3
    by_cases h15 : raw >>> 15 ≠ 0
    · simp [h15]
    · simp [h15]
  refine ⟨e, ?_⟩
  rw [e]
  simp only [ht]
  have hr0 := er.2
  have hg0 := eg.2
  have hb0 := eb.2
  rw [and_31] at hr0 hg0 hb0
  simp only [Nat.shiftRight_eq_div_pow] at hr0 hg0 hb0
  rw [and_31, and_31, and_31]
  simp only [Nat.shiftRight_eq_div_pow]
  constructor
  · intro h0
    split at h0
    · exact absurd h0 (by decide)
    · rename_i hn
      simp only [not_or, not_not] at hn
      obtain ⟨h1, h2, h3, h4⟩ := hn
      have a1 := hr0.1 h2
      have a2 := hg0.1 h3
      have a3 := hb0.1 h4
      omega
  · intro h0
    subst h0
    decide

theorem u16le_lt (src : List Nat) (hsrc : ∀ b ∈ src, b < 256) (addr : Nat) :
    u16le src addr < 65536 := by
  have h0 := getD_lt_256 src hsrc addr
  have h1 := getD_lt_256 src hsrc (addr + 1)
  unfold u16le
  omega

theorem getElem?_some_getD (l : List Nat) (i : Nat) (h : i < l.length) :
    l[i]? = some (l.getD i 0) := by
  rw [List.getD_eq_getElem?_getD, List.getElem?_eq_getElem h]
  rfl

theorem foldlM_some {α β : Type} (f : β → α → β) (g : β → α → Option β) (l : List α)
    (h : ∀ a ∈ l, ∀ b, g b a = some (f b a)) :
    ∀ b, l.foldlM g b = some (l.foldl f b) := by
  induction l with
  | nil => intro b; rfl
  | cons a l ih =>
    intro b
    rw [List.foldlM_cons, h a (List.mem_cons_self a l) b, List.foldl_cons]
    exact ih (fun a' ha' => h a' (List.mem_cons_of_mem a ha')) (f b a)

/-- When the body succeeds at every pixel, the checked loop is the plain loop. -/
theorem pixelLoopM_some (w h : Nat) (bodyM : Nat → Nat → List Nat → Option (List Nat))
    (body : Nat → Nat → List Nat → List Nat) (px : List Nat)
    (hb : ∀ x y, x < w → y < h → ∀ p, bodyM x y p = some (body x y p)) :
    pixelLoopM w h bodyM px = some (pixelLoop w h body px) := by
  unfold pixelLoopM pixelLoop
  apply foldlM_some
  intro y hy p
  apply foldlM_some
  intro x hx p'
  exact hb x y (List.mem_range.1 hx) (List.mem_range.1 hy) p'

theorem toNat_dims (w h : Nat) (hd : w * h * 4 < 2 ^ 31) :
    ¬ ((w : Int) * (h : Int) * 4 < 0 ∨ 2 ^ 31 ≤ (w : Int) * (h : Int) * 4) ∧
    ((w : Int) * (h : Int) * 4).toNat = w * h * 4 := by
  have e : ((w : Int) * (h : Int) * 4) = ((w * h * 4 : Nat) : Int) := by push_cast; ring
  constructor
  · rw [e]
    omega
  · rw [e, Int.toNat_ofNat]

/-- The pixel vector `Read16` leaves for positive dimensions `w`, `h`: it has
`w * h * 4` bytes and holds at every pixel the conversion of its texel. -/
theorem Read16_pixels (src : List Nat) (w h : Nat) (psm : PS2_PSM) (fmt : TexFormat)
    (valid : Bool) (pixels : List Nat) (hd : w * h * 4 < 2 ^ 31)
    (hin : ∀ x y, x < w → y < h → GetGSAddress x y w .GS_PSM_16 + 1 < src.length) :
    ∃ out', Read16 src
        { width := w, height := h, originalPsm := psm, format := fmt, valid := valid,
          pixels := pixels } = some (true, out') ∧
      out'.pixels.length = w * h * 4 ∧
      ∀ x y k, x < w → y < h → k < 4 →
        out'.pixels.getD ((y * w + x) * 4 + k) 0 =
          [(texel16 (u16le src (GetGSAddress x y w .GS_PSM_16))).1,
           (texel16 (u16le src (GetGSAddress x y w .GS_PSM_16))).2.1,
           (texel16 (u16le src (GetGSAddress x y w .GS_PSM_16))).2.2.1,
           (texel16 (u16le src (GetGSAddress x y w .GS_PSM_16))).2.2.2].getD k 0 := by
  obtain ⟨hnn, hsz⟩ := toNat_dims w h hd
  have key := pixelLoop_put4 w h (fun x y => texel16 (u16le src (GetGSAddress x y w .GS_PSM_16)))
    (resizeBytes pixels (w * h * 4)) (resizeBytes_length _ _)
  simp only at key
  have hloop := pixelLoopM_some w h (fun x y px => do
        let addr := GetGSAddress x y w .GS_PSM_16
        let lo ← src[addr]?
        let hi ← src[addr + 1]?
        let raw := lo + 256 * hi
        let t := texel16 raw
        let dstIdx := (y * w + x) * 4
        pure (put4 px dstIdx t.1 t.2.1 t.2.2.1 t.2.2.2))
      (fun x y px =>
        put4 px ((y * w + x) * 4) (texel16 (u16le src (GetGSAddress x y w .GS_PSM_16))).1
          (texel16 (u16le src (GetGSAddress x y w .GS_PSM_16))).2.1
          (texel16 (u16le src (GetGSAddress x y w .GS_PSM_16))).2.2.1
          (texel16 (u16le src (GetGSAddress x y w .GS_PSM_16))).2.2.2)
      (resizeBytes pixels (w * h * 4))
      (fun x y hx hy p => by
        have h1 := hin x y hx hy
        simp only [getElem?_some_getD src _ (show GetGSAddress x y w .GS_PSM_16 < src.length by omega),
          getElem?_some_getD src _ h1, Option.bind_eq_bind, Option.some_bind, Option.pure_def,
          u16le])
  refine ⟨{ width := w, height := h, originalPsm := psm, format := fmt, valid := valid,
            pixels := pixelLoop w h (fun x y px =>
              put4 px ((y * w + x) * 4) (texel16 (u16le src (GetGSAddress x y w .GS_PSM_16))).1
                (texel16 (u16le src (GetGSAddress x y w .GS_PSM_16))).2.1
                (texel16 (u16le src (GetGSAddress x y w .GS_PSM_16))).2.2.1
                (texel16 (u16le src (GetGSAddress x y w .GS_PSM_16))).2.2.2)
              (resizeBytes pixels (w * h * 4)) }, ?_, key.1, key.2⟩
  simp only [Read16, if_neg hnn, hsz, Int.toNat_ofNat]
  rw [hloop]

/-- C20. For dimensions whose product `width * height * 4` fits an `int` and a source
that holds every texel the loops read, and for every in-bounds pixel `(x, y)`, with
`raw` the 16-bit texel read little-endian at `GetGSAddress(x, y, width, 16-bit)`,
`Read16` returns true and writes at output index
`(y * width + x) * 4` the bytes `R = (r5 << 3) | (r5 >> 2)`, `G = (g5 << 3) | (g5 >> 2)`,
`B = (b5 << 3) | (b5 >> 2)` with `r5 = raw & 31`, `g5 = (raw >> 5) & 31`,
`b5 = (raw >> 10) & 31`, and `A = 255` if bit 15 is set or any of R, G, B is non-zero,
`A = 0` otherwise; hence `A = 0` exactly when `raw = 0`; and the output buffer has
`width * height * 4` bytes. -/
theorem Read16_pixel (src : List Nat) (out : TexData) (x y raw : Nat)
    (hsrc : ∀ b ∈ src, b < 256) (hdim : out.width * out.height * 4 < 2 ^ 31)
    (hin : ∀ x', x' < out.width.toNat → ∀ y', y' < out.height.toNat →
      ∀ i ∈ sourceReads .GS_PSM_16 out.width.toNat x' y', i < src.length)
    (hx : (x : Int) < out.width) (hy : (y : Int) < out.height)
    (hraw : raw = u16le src (GetGSAddress x y out.width.toNat .GS_PSM_16)) :
    ∃ out', Read16 src out = some (true, out') ∧
      (out'.pixels.length : Int) = out.width * out.height * 4 ∧
      out'.pixels.getD ((y * out.width.toNat + x) * 4) 0 =
        ((raw &&& 31) <<< 3) ||| ((raw &&& 31) >>> 2) ∧
      out'.pixels.getD ((y * out.width.toNat + x) * 4 + 1) 0 =
        (((raw >>> 5) &&& 31) <<< 3) ||| (((raw >>> 5) &&& 31) >>> 2) ∧
      out'.pixels.getD ((y * out.width.toNat + x) * 4 + 2) 0 =
        (((raw >>> 10) &&& 31) <<< 3) ||| (((raw >>> 10) &&& 31) >>> 2) ∧
      out'.pixels.getD ((y * out.width.toNat + x) * 4 + 3) 0 =
        (if raw.testBit 15 = true ∨ ((raw &&& 31) <<< 3) ||| ((raw &&& 31) >>> 2) ≠ 0 ∨
            (((raw >>> 5) &&& 31) <<< 3) ||| (((raw >>> 5) &&& 31) >>> 2) ≠ 0 ∨
            (((raw >>> 10) &&& 31) <<< 3) ||| (((raw >>> 10) &&& 31) >>> 2) ≠ 0
         then 255 else 0) ∧
      (out'.pixels.getD ((y * out.width.toNat + x) * 4 + 3) 0 = 0 ↔ raw = 0) := by
  obtain ⟨width, height, psm, fmt, valid, pixels⟩ := out
  simp only at hx hy hraw hdim hin ⊢
  obtain ⟨w, rfl⟩ := Int.eq_ofNat_of_zero_le (show 0 ≤ width by omega)
  obtain ⟨h, rfl⟩ := Int.eq_ofNat_of_zero_le (show 0 ≤ height by omega)
  simp only [Int.toNat_ofNat] at hraw hin ⊢
  have hx' : x < w := by exact_mod_cast hx
  have hy' : y < h := by exact_mod_cast hy
  have hd : w * h * 4 < 2 ^ 31 := by exact_mod_cast hdim
  obtain ⟨out', e, hl, hp⟩ := Read16_pixels src w h psm fmt valid pixels hd
    (fun x' y' hx1 hy1 => hin x' hx1 y' hy1 _ (by simp [sourceReads]))
  have hlt : raw < 65536 := by rw [hraw]; exact u16le_lt src hsrc _
  obtain ⟨ht, ha⟩ := texel16_spec raw hlt
  have p0 := hp x y 0 hx' hy' (by decide)
  have p1 := hp x y 1 hx' hy' (by decide)
  have p2 := hp x y 2 hx' hy' (by decide)
  have p3 := hp x y 3 hx' hy' (by decide)
  rw [← hraw] at p0 p1 p2 p3
  simp only [List.getD_cons_zero, List.getD_cons_succ, Nat.add_zero] at p0 p1 p2 p3
  refine ⟨out', e, by rw [hl]; push_cast; ring, ?_, ?_, ?_, ?_, ?_⟩
  · rw [p0, ht]
  · rw [p1, ht]
  · rw [p2, ht]
  · rw [p3, ht]
  · rw [p3]
    exact ha

set_option maxRecDepth 100000 in
theorem Read16_pixel_witness :
    ∃ out', Read16 texels16 tex16x8 = some (true, out') ∧
      (out'.pixels.length : Int) = 16 * 8 * 4 ∧
      out'.pixels.getD ((5 * 16 + 3) * 4) 0 = ((21331 &&& 31) <<< 3) ||| ((21331 &&& 31) >>> 2) ∧
      (out'.pixels.getD ((5 * 16 + 3) * 4 + 3) 0 = 0 ↔ 21331 = 0) :=
  match Read16_pixel texels16 tex16x8 3 5 21331
    (by
      intro b hb
      obtain ⟨i, hi, rfl⟩ := List.mem_map.1 hb
      have := List.mem_range.1 hi
      omega)
    (by decide) (by decide) (by decide) (by decide) (by decide) with
  | ⟨out', e, hl, h0, _, _, _, ha⟩ => ⟨out', e, hl, h0, ha⟩

/-! ### TextureLoader: Read32, Read8 and Read4 -/

theorem GetGSAddress_32_aligned (x y width : Nat) :
    GetGSAddress x y width .GS_PSM_32 % 4 = 0 ∧ GetGSAddress x y width .GS_PSM_32 < 2 ^ 32 := by
  simp only [GetGSAddress, u32]
  omega

theorem GetGSAddress_32_add (x y width k : Nat) (hk : k < 4) :
    u32 (GetGSAddress x y width .GS_PSM_32 + k) = GetGSAddress x y width .GS_PSM_32 + k := by
  have h := GetGSAddress_32_aligned x y width
  simp only [u32]
  omega

theorem GetGSAddress_32_u32 (x y width : Nat) :
    u32 (GetGSAddress x y width .GS_PSM_32) = GetGSAddress x y width .GS_PSM_32 :=
  GetGSAddress_32_add x y width 0 (by decide)

/-- The pixel vector `Read32` leaves for 32-bit data of positive dimensions `w`, `h`
whose byte count fits an `int`, from a source that holds the four bytes of every
pixel. -/
theorem Read32_pixels (src : List Nat) (w h : Nat) (fmt : TexFormat) (valid : Bool)
    (pixels : List Nat) (hd : w * h * 4 < 2 ^ 31)
    (hin : ∀ x y, x < w → y < h → GetGSAddress x y w .GS_PSM_32 + 3 < src.length) :
    ∃ out', Read32 src
        { width := w, height := h, originalPsm := .GS_PSM_32, format := fmt, valid := valid,
          pixels := pixels } = some (true, out') ∧
      out'.pixels.length = w * h * 4 ∧
      ∀ x y k, x < w → y < h → k < 4 →
        out'.pixels.getD ((y * w + x) * 4 + k) 0 =
          [src.getD (GetGSAddress x y w .GS_PSM_32) 0,
           src.getD (GetGSAddress x y w .GS_PSM_32 + 1) 0,
           src.getD (GetGSAddress x y w .GS_PSM_32 + 2) 0,
           alpha32 (src.getD (GetGSAddress x y w .GS_PSM_32 + 3) 0)].getD k 0 := by
  obtain ⟨hnn, hsz⟩ := toNat_dims w h hd
  have key := pixelLoop_put4 w h (fun x y =>
      (src.getD (GetGSAddress x y w .GS_PSM_32) 0,
       src.getD (GetGSAddress x y w .GS_PSM_32 + 1) 0,
       src.getD (GetGSAddress x y w .GS_PSM_32 + 2) 0,
       alpha32 (src.getD (GetGSAddress x y w .GS_PSM_32 + 3) 0)))
    (resizeBytes pixels (w * h * 4)) (resizeBytes_length _ _)
  simp only at key
  have hloop := pixelLoopM_some w h (fun x y px => do
        let addr :=
          if PS2_PSM.GS_PSM_32 = PS2_PSM.GS_PSM_24 then (y * w + x) * 3
          else GetGSAddress x y w .GS_PSM_32
        let dstIdx := (y * w + x) * 4
        let r ← src[u32 (addr + 0)]?
        let g ← src[u32 (addr + 1)]?
        let b ← src[u32 (addr + 2)]?
        let a ← if (if PS2_PSM.GS_PSM_32 = PS2_PSM.GS_PSM_24 then 3 else 4) = 4 then
            (src[u32 (addr + 3)]?).map alpha32 else some 255
        pure (put4 px dstIdx r g b a))
      (fun x y px =>
        put4 px ((y * w + x) * 4) (src.getD (GetGSAddress x y w .GS_PSM_32) 0)
          (src.getD (GetGSAddress x y w .GS_PSM_32 + 1) 0)
          (src.getD (GetGSAddress x y w .GS_PSM_32 + 2) 0)
          (alpha32 (src.getD (GetGSAddress x y w .GS_PSM_32 + 3) 0)))
      (resizeBytes pixels (w * h * 4))
      (fun x y hx hy p => by
        have h1 := hin x y hx hy
        simp only [reduceCtorEq, ↓reduceIte, GetGSAddress_32_add _ _ _ 1 (by decide),
          GetGSAddress_32_add _ _ _ 2 (by decide), GetGSAddress_32_add _ _ _ 3 (by decide),
          Nat.add_zero, GetGSAddress_32_u32,
          getElem?_some_getD src _ (show GetGSAddress x y w .GS_PSM_32 < src.length by omega),
          getElem?_some_getD src _ (show GetGSAddress x y w .GS_PSM_32 + 1 < src.length by omega),
          getElem?_some_getD src _ (show GetGSAddress x y w .GS_PSM_32 + 2 < src.length by omega),
          getElem?_some_getD src _ h1, Option.bind_eq_bind, Option.some_bind, Option.pure_def,
          Option.map_some'])
  refine ⟨{ width := w, height := h, originalPsm := .GS_PSM_32, format := fmt, valid := valid,
            pixels := pixelLoop w h (fun x y px =>
              put4 px ((y * w + x) * 4) (src.getD (GetGSAddress x y w .GS_PSM_32) 0)
                (src.getD (GetGSAddress x y w .GS_PSM_32 + 1) 0)
                (src.getD (GetGSAddress x y w .GS_PSM_32 + 2) 0)
                (alpha32 (src.getD (GetGSAddress x y w .GS_PSM_32 + 3) 0)))
              (resizeBytes pixels (w * h * 4)) }, ?_, key.1, key.2⟩
  simp only [Read32, if_neg hnn, hsz, Int.toNat_ofNat]
  rw [hloop]

theorem alpha32_eq (a : Nat) : alpha32 a = min (2 * a) 255 := by
  unfold alpha32
  omega

/-- C21. For the 32-bit format, dimensions whose product `width * height * 4` fits an
`int` and a source that holds the four bytes of every pixel the loops read, and for
every in-bounds pixel `(x, y)`, `Read32` returns true and writes at
output index `(y * width + x) * 4` the bytes R, G, B copied unchanged from source bytes
`addr`, `addr + 1`, `addr + 2` with `addr = GetGSAddress(x, y, width, 32-bit)`, and
alpha `min(2 * source[addr + 3], 255)`; a source alpha of 128 or more yields 255, and
the alpha written is non-decreasing in the source alpha (compared over two sources). -/
theorem Read32_pixel (src : List Nat) (out : TexData) (x y : Nat)
    (hpsm : out.originalPsm = .GS_PSM_32) (hdim : out.width * out.height * 4 < 2 ^ 31)
    (hin : ∀ x', x' < out.width.toNat → ∀ y', y' < out.height.toNat →
      ∀ i ∈ sourceReads .GS_PSM_32 out.width.toNat x' y', i < src.length)
    (hx : (x : Int) < out.width) (hy : (y : Int) < out.height) :
    ∃ out', Read32 src out = some (true, out') ∧
      (out'.pixels.length : Int) = out.width * out.height * 4 ∧
      out'.pixels.getD ((y * out.width.toNat + x) * 4) 0 =
        src.getD (GetGSAddress x y out.width.toNat .GS_PSM_32) 0 ∧
      out'.pixels.getD ((y * out.width.toNat + x) * 4 + 1) 0 =
        src.getD (GetGSAddress x y out.width.toNat .GS_PSM_32 + 1) 0 ∧
      out'.pixels.getD ((y * out.width.toNat + x) * 4 + 2) 0 =
        src.getD (GetGSAddress x y out.width.toNat .GS_PSM_32 + 2) 0 ∧
      out'.pixels.getD ((y * out.width.toNat + x) * 4 + 3) 0 =
        min (2 * src.getD (GetGSAddress x y out.width.toNat .GS_PSM_32 + 3) 0) 255 ∧
      (128 ≤ src.getD (GetGSAddress x y out.width.toNat .GS_PSM_32 + 3) 0 →
        out'.pixels.getD ((y * out.width.toNat + x) * 4 + 3) 0 = 255) ∧
      (∀ src' out'', Read32 src' out = some (true, out'') →
        (∀ x', x' < out.width.toNat → ∀ y', y' < out.height.toNat →
          ∀ i ∈ sourceReads .GS_PSM_32 out.width.toNat x' y', i < src'.length) →
        src.getD (GetGSAddress x y out.width.toNat .GS_PSM_32 + 3) 0 ≤
          src'.getD (GetGSAddress x y out.width.toNat .GS_PSM_32 + 3) 0 →
        out'.pixels.getD ((y * out.width.toNat + x) * 4 + 3) 0 ≤
          out''.pixels.getD ((y * out.width.toNat + x) * 4 + 3) 0) := by
  obtain ⟨width, height, psm, fmt, valid, pixels⟩ := out
  simp only at hx hy hpsm hdim hin ⊢
  subst hpsm
  obtain ⟨w, rfl⟩ := Int.eq_ofNat_of_zero_le (show 0 ≤ width by omega)
  obtain ⟨h, rfl⟩ := Int.eq_ofNat_of_zero_le (show 0 ≤ height by omega)
  simp only [Int.toNat_ofNat] at hin ⊢
  have hx' : x < w := by exact_mod_cast hx
  have hy' : y < h := by exact_mod_cast hy
  have hd : w * h * 4 < 2 ^ 31 := by exact_mod_cast hdim
  have hbound : ∀ s : List Nat,
      (∀ x', x' < w → ∀ y', y' < h → ∀ i ∈ sourceReads .GS_PSM_32 w x' y', i < s.length) →
      ∀ x' y', x' < w → y' < h → GetGSAddress x' y' w .GS_PSM_32 + 3 < s.length := by
    intro s hs x' y' hx1 hy1
    have := hs x' hx1 y' hy1 (u32 (GetGSAddress x' y' w .GS_PSM_32 + 3)) (by simp [sourceReads])
    rwa [GetGSAddress_32_add _ _ _ 3 (by decide)] at this
  obtain ⟨out', e, hl, hp⟩ := Read32_pixels src w h fmt valid pixels hd (hbound src hin)
  have p0 := hp x y 0 hx' hy' (by decide)
  have p1 := hp x y 1 hx' hy' (by decide)
  have p2 := hp x y 2 hx' hy' (by decide)
  have p3 := hp x y 3 hx' hy' (by decide)
  simp only [List.getD_cons_zero, List.getD_cons_succ, Nat.add_zero, alpha32_eq] at p0 p1 p2 p3
  refine ⟨out', e, by rw [hl]; push_cast; ring, p0, p1, p2, p3, ?_, ?_⟩
  · intro h128
    rw [p3]
    omega
  · intro src' out'' e' hin' hle
    obtain ⟨o2, e2, _, hp2⟩ := Read32_pixels src' w h fmt valid pixels hd (hbound src' hin')
    rw [e2] at e'
    have ho : o2 = out'' := by
      have := Option.some.inj e'
      exact (Prod.mk.inj this).2
    subst ho
    have q3 := hp2 x y 3 hx' hy' (by decide)
    simp only [List.getD_cons_zero, List.getD_cons_succ, alpha32_eq] at q3
    rw [p3, q3]
    omega

set_option maxRecDepth 100000 in
theorem Read32_pixel_witness :
    ∃ out', Read32 ramp256 tex32x8 = some (true, out') ∧
      (out'.pixels.length : Int) = 8 * 8 * 4 ∧
      out'.pixels.getD ((5 * 8 + 3) * 4) 0 =
        ramp256.getD (GetGSAddress 3 5 8 .GS_PSM_32) 0 ∧
      out'.pixels.getD ((5 * 8 + 3) * 4 + 3) 0 =
        min (2 * ramp256.getD (GetGSAddress 3 5 8 .GS_PSM_32 + 3) 0) 255 :=
  match Read32_pixel ramp256 tex32x8 3 5 rfl (by decide) (by decide) (by decide)
    (by decide) with
  | ⟨out', e, hl, h0, _, _, h3, _, _⟩ => ⟨out', e, hl, h0, h3⟩

theorem nibble17_eq (b x : Nat) (hb : b < 256) :
    nibble17 b x = 17 * (if x % 2 = 0 then b &&& 0xF else b >>> 4) ∧
    (if x % 2 = 0 then b &&& 0xF else b >>> 4) ≤ 15 := by
  unfold nibble17
  simp only [and_15, Nat.shiftRight_eq_div_pow]
  split <;> omega

/-- The pixel vector `Read4` leaves for positive dimensions `w`, `h` whose byte count
fits an `int`, from a source that holds the byte of every pixel. -/
theorem Read4_pixels (src : List Nat) (w h : Nat) (psm : PS2_PSM) (fmt : TexFormat)
    (valid : Bool) (pixels : List Nat) (hd : w * h * 4 < 2 ^ 31)
    (hin : ∀ x y, x < w → y < h → (y * w + x) / 2 < src.length) :
    ∃ out', Read4 src
        { width := w, height := h, originalPsm := psm, format := fmt, valid := valid,
          pixels := pixels } = some (true, out') ∧
      out'.pixels.length = w * h * 4 ∧
      ∀ x y k, x < w → y < h → k < 4 →
        out'.pixels.getD ((y * w + x) * 4 + k) 0 =
          [255, 255, 255, nibble17 (src.getD ((y * w + x) / 2) 0) x].getD k 0 := by
  obtain ⟨hnn, hsz⟩ := toNat_dims w h hd
  have key := pixelLoop_put4 w h (fun x y =>
      (255, 255, 255, nibble17 (src.getD ((y * w + x) / 2) 0) x))
    (resizeBytes pixels (w * h * 4)) (resizeBytes_length _ _)
  simp only at key
  have hloop := pixelLoopM_some w h (fun x y px => do
        let _addrByte := GetGSAddress (x / 2) y (w / 2) .GS_PSM_4
        let linAddr := (y * w + x) / 2
        let b ← src[linAddr]?
        let v := nibble17 b x
        let dst := (y * w + x) * 4
        pure (put4 px dst 255 255 255 v))
      (fun x y px =>
        put4 px ((y * w + x) * 4) 255 255 255 (nibble17 (src.getD ((y * w + x) / 2) 0) x))
      (resizeBytes pixels (w * h * 4))
      (fun x y hx hy p => by
        simp only [getElem?_some_getD src _ (hin x y hx hy), Option.bind_eq_bind,
          Option.some_bind, Option.pure_def])
  refine ⟨{ width := w, height := h, originalPsm := psm, format := fmt, valid := valid,
            pixels := pixelLoop w h (fun x y px =>
              put4 px ((y * w + x) * 4) 255 255 255 (nibble17 (src.getD ((y * w + x) / 2) 0) x))
              (resizeBytes pixels (w * h * 4)) }, ?_, key.1, key.2⟩
  simp only [Read4, if_neg hnn, hsz, Int.toNat_ofNat]
  rw [hloop]

/-- C22. For the 4-bit format, dimensions whose product `width * height * 4` fits an
`int` and a source that holds the byte of every pixel the loops read, and for every
in-bounds pixel `(x, y)`, `Read4` returns true and writes
R = G = B = 255 and alpha `17 * v`, where `v` is the low nibble of the source byte
`b` at index `(y * width + x) / 2` when `x` is even and its high nibble when `x` is
odd, so `v <= 15` and alpha is a multiple of 17 in `0..255`; the addressing is purely
linear: the four bytes written depend on the source only through that byte (any other
source with the same byte there gives the same pixel), with no use of `GetGSAddress` or
of the block tables. -/
theorem Read4_pixel (src : List Nat) (out : TexData) (x y b v : Nat)
    (hsrc : ∀ c ∈ src, c < 256) (hdim : out.width * out.height * 4 < 2 ^ 31)
    (hin : ∀ x', x' < out.width.toNat → ∀ y', y' < out.height.toNat →
      ∀ i ∈ sourceReads .GS_PSM_4 out.width.toNat x' y', i < src.length)
    (hx : (x : Int) < out.width) (hy : (y : Int) < out.height)
    (hb : b = src.getD ((y * out.width.toNat + x) / 2) 0)
    (hv : v = if x % 2 = 0 then b &&& 0xF else b >>> 4) :
    ∃ out', Read4 src out = some (true, out') ∧
      (out'.pixels.length : Int) = out.width * out.height * 4 ∧
      out'.pixels.getD ((y * out.width.toNat + x) * 4) 0 = 255 ∧
      out'.pixels.getD ((y * out.width.toNat + x) * 4 + 1) 0 = 255 ∧
      out'.pixels.getD ((y * out.width.toNat + x) * 4 + 2) 0 = 255 ∧
      out'.pixels.getD ((y * out.width.toNat + x) * 4 + 3) 0 = 17 * v ∧
      v ≤ 15 ∧
      (∀ src' out'', Read4 src' out = some (true, out'') →
        (∀ x', x' < out.width.toNat → ∀ y', y' < out.height.toNat →
          ∀ i ∈ sourceReads .GS_PSM_4 out.width.toNat x' y', i < src'.length) →
        src'.getD ((y * out.width.toNat + x) / 2) 0 = b →
        ∀ k, k < 4 →
          out''.pixels.getD ((y * out.width.toNat + x) * 4 + k) 0 =
            out'.pixels.getD ((y * out.width.toNat + x) * 4 + k) 0) := by
  obtain ⟨width, height, psm, fmt, valid, pixels⟩ := out
  simp only at hx hy hb hdim hin ⊢
  obtain ⟨w, rfl⟩ := Int.eq_ofNat_of_zero_le (show 0 ≤ width by omega)
  obtain ⟨h, rfl⟩ := Int.eq_ofNat_of_zero_le (show 0 ≤ height by omega)
  simp only [Int.toNat_ofNat] at hb hin ⊢
  have hx' : x < w := by exact_mod_cast hx
  have hy' : y < h := by exact_mod_cast hy
  have hd : w * h * 4 < 2 ^ 31 := by exact_mod_cast hdim
  have hbound : ∀ s : List Nat,
      (∀ x', x' < w → ∀ y', y' < h → ∀ i ∈ sourceReads .GS_PSM_4 w x' y', i < s.length) →
      ∀ x' y', x' < w → y' < h → (y' * w + x') / 2 < s.length :=
    fun s hs x' y' hx1 hy1 => hs x' hx1 y' hy1 _ (by simp [sourceReads])
  obtain ⟨out', e, hl, hp⟩ := Read4_pixels src w h psm fmt valid pixels hd (hbound src hin)
  have hb256 : b < 256 := by rw [hb]; exact getD_lt_256 src hsrc _
  obtain ⟨hn, hv15⟩ := nibble17_eq b x hb256
  rw [← hv] at hn hv15
  have p0 := hp x y 0 hx' hy' (by decide)
  have p1 := hp x y 1 hx' hy' (by decide)
  have p2 := hp x y 2 hx' hy' (by decide)
  have p3 := hp x y 3 hx' hy' (by decide)
  rw [← hb] at p3
  simp only [List.getD_cons_zero, List.getD_cons_succ, Nat.add_zero] at p0 p1 p2 p3
  refine ⟨out', e, by rw [hl]; push_cast; ring, p0, p1, p2, by rw [p3, hn], hv15, ?_⟩
  intro src' out'' e' hin' hb' k hk
  obtain ⟨o2, e2, _, hp2⟩ := Read4_pixels src' w h psm fmt valid pixels hd (hbound src' hin')
  rw [e2] at e'
  have ho : o2 = out'' := (Prod.mk.inj (Option.some.inj e')).2
  subst ho
  rw [hp2 x y k hx' hy' hk, hp x y k hx' hy' hk, hb', ← hb]

set_option maxRecDepth 100000 in
theorem Read4_pixel_witness :
    ∃ out', Read4 ramp256 tex4x8 = some (true, out') ∧
      (out'.pixels.length : Int) = 8 * 4 * 4 ∧
      out'.pixels.getD ((2 * 8 + 2) * 4) 0 = 255 ∧
      out'.pixels.getD ((2 * 8 + 2) * 4 + 3) 0 = 17 * 9 :=
  match Read4_pixel ramp256 tex4x8 2 2 9 9
    (by
      intro c hc
      have := List.mem_range.1 hc
      omega)
    (by decide) (by decide) (by decide) (by decide) (by decide) (by decide) with
  | ⟨out', e, hl, h0, _, _, h3, _, _⟩ => ⟨out', e, hl, h0, h3⟩

/-- The pixel vector `Read8` leaves for positive dimensions `w`, `h` whose byte count
fits an `int`: white with the alpha `alpha8` of the source byte at the swizzled
address. -/
theorem Read8_pixels (src : List Nat) (w h : Nat) (psm : PS2_PSM) (fmt : TexFormat)
    (valid : Bool) (pixels : List Nat) (hd : w * h * 4 < 2 ^ 31) :
    ∃ out', Read8 src
        { width := w, height := h, originalPsm := psm, format := fmt, valid := valid,
          pixels := pixels } = some (true, out') ∧
      out'.pixels.length = w * h * 4 ∧
      ∀ x y k, x < w → y < h → k < 4 →
        out'.pixels.getD ((y * w + x) * 4 + k) 0 =
          [255, 255, 255, alpha8 (src.getD (GetGSAddress x y w .GS_PSM_8) 0)].getD k 0 := by
  obtain ⟨hnn, hsz⟩ := toNat_dims w h hd
  have key := pixelLoop_put4 w h (fun x y =>
      (255, 255, 255, alpha8 (src.getD (GetGSAddress x y w .GS_PSM_8) 0)))
    (resizeBytes pixels (w * h * 4)) (resizeBytes_length _ _)
  simp only at key
  refine ⟨{ width := w, height := h, originalPsm := psm, format := fmt, valid := valid,
            pixels := pixelLoop w h (fun x y px =>
              put4 px ((y * w + x) * 4) 255 255 255
                (alpha8 (src.getD (GetGSAddress x y w .GS_PSM_8) 0)))
              (resizeBytes pixels (w * h * 4)) }, ?_, key.1, key.2⟩
  simp only [Read8, if_neg hnn, hsz, Int.toNat_ofNat, Bool.false_eq_true, ↓reduceIte]

/-- Away from the value 128 the alpha of `Read8` is `min (2 * v) 255`, which is
non-decreasing. -/
theorem alpha8_eq (v : Nat) (h : v ≠ 128) : alpha8 v = min (2 * v) 255 := by
  unfold alpha8
  split <;> omega

/-- C26. The alpha byte `Read8` writes is not monotone in the source value and does
not map 128 to 255: the branch `(val > 128) ? 255 : val * 2` sends 128 to 256, which
the `uint8_t` store truncates to 0.  On a one-pixel texture the source byte 127 gives
the pixel `255, 255, 255, 254`, the byte 128 gives `255, 255, 255, 0` and the byte 129
gives `255, 255, 255, 255`. -/
theorem Read8_alpha_wraps_at_128 :
    Read8 [127] tex8x1 = some (true, { tex8x1 with pixels := [255, 255, 255, 254] }) ∧
    Read8 [128] tex8x1 = some (true, { tex8x1 with pixels := [255, 255, 255, 0] }) ∧
    Read8 [129] tex8x1 = some (true, { tex8x1 with pixels := [255, 255, 255, 255] }) ∧
    alpha8 127 = 254 ∧ alpha8 128 = 0 ∧ ¬ (alpha8 127 ≤ alpha8 128) := by
  decide


/-! ### TextureLoader: source reads of LoadFromPath -/

theorem block8_getD_lt (k : Nat) : block8.getD k 0 < 32 := table_getD_lt .bits8 k

theorem block16_getD_lt (k : Nat) : block16.getD k 0 < 32 := table_getD_lt .bits16 k

/-- The descriptor and the offset `LoadFromPath` uses for a headerless 64 x 128 8-bit
file. -/
theorem checkedOffset_8192 (w h : Int) :
    DetectPSM 8192 w h = { psm := .GS_PSM_8, w := 64, h := 128, offset := 0 } ∧
    checkedOffset 8192 (DetectPSM 8192 w h) = 0 := by
  have e : DetectPSM 8192 w h = { psm := .GS_PSM_8, w := 64, h := 128, offset := 0 } := by
    simp [DetectPSM]
  refine ⟨e, ?_⟩
  rw [e]
  simp only [checkedOffset, boundsDivisor, reduceCtorEq, ↓reduceIte]
  norm_num

theorem checkedOffset_8216 (w h : Int) :
    DetectPSM 8216 w h = { psm := .GS_PSM_8, w := 64, h := 128, offset := 24 } ∧
    checkedOffset 8216 (DetectPSM 8216 w h) = 24 := by
  have e : DetectPSM 8216 w h = { psm := .GS_PSM_8, w := 64, h := 128, offset := 24 } := by
    simp [DetectPSM]
  refine ⟨e, ?_⟩
  rw [e]
  simp only [checkedOffset, boundsDivisor, reduceCtorEq, ↓reduceIte]
  norm_num

/-- On any file of 8192 bytes `LoadFromPath` runs `Read8` on the whole buffer as a
64 x 128 image: the alpha of pixel `(x, y)` is taken from buffer index
`GetGSAddress(x, y, 64, 8-bit)`. -/
theorem LoadFromPath_8192 (data : List Nat) (w0 h0 : Int) (out : TexData)
    (hlen : data.length = 8192) :
    ∃ out', LoadFromPath (some data) w0 h0 out = some (true, out') ∧
      ∀ x y, x < 64 → y < 128 →
        out'.pixels.getD ((y * 64 + x) * 4 + 3) 0 =
          alpha8 (data.getD (GetGSAddress x y 64 .GS_PSM_8) 0) := by
  obtain ⟨e, o⟩ := checkedOffset_8192 w0 h0
  have key : ∀ w h : Nat, (w : Int) = 64 → (h : Int) = 128 →
      ∃ out', LoadFromPath (some data) w0 h0 out = some (true, out') ∧
        ∀ x y, x < w → y < h →
          out'.pixels.getD ((y * w + x) * 4 + 3) 0 =
            alpha8 (data.getD (GetGSAddress x y w .GS_PSM_8) 0) := by
    intro w h hw hh
    have hd : w * h * 4 < 2 ^ 31 := by
      have hw' : w = 64 := by exact_mod_cast hw
      have hh' : h = 128 := by exact_mod_cast hh
      subst hw' hh'
      decide
    obtain ⟨out', h1, -, h3⟩ := Read8_pixels data w h .GS_PSM_8 .Indexed8 true out.pixels hd
    refine ⟨out', ?_, fun x y hx hy => h3 x y 3 hx hy (by decide)⟩
    rw [hw, hh] at h1
    rw [e] at o
    simp only [LoadFromPath, hlen, e, o, Int.toNat_zero, List.drop_zero]
    exact h1
  exact key 64 128 rfl rfl

/-- The byte `LoadFromPath` reads for pixel `(0, 64)` of a file of 8192 bytes is buffer
index 8192, past the last byte of the file. -/
theorem LoadFromPath_8192_pixel (data : List Nat) (w0 h0 : Int) (out : TexData)
    (hlen : data.length = 8192) :
    ∃ out', LoadFromPath (some data) w0 h0 out = some (true, out') ∧
      out'.pixels.getD ((64 * 64 + 0) * 4 + 3) 0 = alpha8 (data.getD 8192 0) := by
  obtain ⟨out', h1, h2⟩ := LoadFromPath_8192 data w0 h0 out hlen
  refine ⟨out', h1, ?_⟩
  have h := h2 0 64 (by decide) (by decide)
  have ha : GetGSAddress 0 64 64 .GS_PSM_8 = 8192 := by decide
  rw [ha] at h
  exact h

/-- C25. The source reads are not all inside the file: a file of 8192 bytes is
detected as 8-bit 64 x 128 with offset 0, and for the in-bounds pixel `(0, 64)` `Read8`
dereferences source index 8192, one past the last byte; with the 24-byte header variant
(8216 bytes, offset 24) the same pixel reads file position `24 + 8192 = 8216`, again the
file size.  Every row `y >= 64` lies in the second GS page, which such a file does not
hold.  Accordingly the alpha `LoadFromPath` stores for pixel `(0, 64)` of any file of
8192 bytes is computed from buffer index 8192. -/
theorem LoadFromPath_reads_past_end :
    (DetectPSM 8192 0 0).psm = .GS_PSM_8 ∧ (DetectPSM 8192 0 0).w = 64 ∧
    (DetectPSM 8192 0 0).h = 128 ∧ checkedOffset 8192 (DetectPSM 8192 0 0) = 0 ∧
    sourceReads .GS_PSM_8 64 0 64 = [8192] ∧
    (DetectPSM 8216 0 0).psm = .GS_PSM_8 ∧ (DetectPSM 8216 0 0).w = 64 ∧
    (DetectPSM 8216 0 0).h = 128 ∧ checkedOffset 8216 (DetectPSM 8216 0 0) = 24 ∧
    (∀ x y, x < 64 → 64 ≤ y → y < 128 → ∀ i ∈ sourceReads .GS_PSM_8 64 x y, 8192 ≤ i) ∧
    (∀ data : List Nat, data.length = 8192 →
      ∃ out', LoadFromPath (some data) 0 0 tex8x1 = some (true, out') ∧
        out'.pixels.getD ((64 * 64 + 0) * 4 + 3) 0 = alpha8 (data.getD 8192 0)) := by
  obtain ⟨e1, o1⟩ := checkedOffset_8192 0 0
  obtain ⟨e2, o2⟩ := checkedOffset_8216 0 0
  refine ⟨by rw [e1], by rw [e1], by rw [e1], o1, by decide, by rw [e2], by rw [e2],
    by rw [e2], o2, ?_, fun data hlen => LoadFromPath_8192_pixel data 0 0 tex8x1 hlen⟩
  intro x y hx hy1 hy2 i hi
  simp only [sourceReads, List.mem_singleton] at hi
  subst hi
  simp only [GetGSAddress, u32, Nat.shiftRight_eq_div_pow, and_127, and_63, and_15]
  have hb := block8_getD_lt (y % 64 / 2 ^ 4 * 8 + x % 128 / 2 ^ 4)
  generalize block8.getD _ 0 = t at hb
  have hp : (64 + 127) % 2 ^ 32 / 2 ^ 7 = 1 := by norm_num
  rw [hp]
  omega

theorem block8_quadrant (bx by_ : Nat) (hx : bx < 4) (hy : by_ < 4) :
    block8.getD (by_ * 8 + bx) 0 < 16 := by
  interval_cases bx <;> interval_cases by_ <;> decide

theorem GetGSAddress_8_lt_128 (x y : Nat) (hx : x < 128) (hy : y < 128) :
    GetGSAddress x y 128 .GS_PSM_8 < 16384 := by
  have h := GetGSAddress_whole_pages .GS_PSM_8 .bits8 1 2 x y rfl (by decide) (by decide)
    (by simpa [Family.pageW] using hx) (by simpa [Family.pageH] using hy)
  have hl := refPixelIndex_lt .bits8 1 2 x y (by simpa [Family.pageW] using hx)
    (by simpa [Family.pageH] using hy)
  simp only [Family.pageW, Family.pageH, Family.bpp, Nat.mul_one] at h hl
  rw [h]
  omega

theorem GetGSAddress_8_lt_256 (x y : Nat) (hx : x < 256) (hy : y < 128) :
    GetGSAddress x y 256 .GS_PSM_8 < 32768 := by
  have h := GetGSAddress_whole_pages .GS_PSM_8 .bits8 2 2 x y rfl (by decide) (by decide)
    (by simpa [Family.pageW] using hx) (by simpa [Family.pageH] using hy)
  have hl := refPixelIndex_lt .bits8 2 2 x y (by simpa [Family.pageW] using hx)
    (by simpa [Family.pageH] using hy)
  simp only [Family.pageW, Family.pageH, Family.bpp, Nat.mul_one, Nat.reduceMul] at h hl
  rw [h]
  omega

theorem GetGSAddress_8_lt_64 (x y : Nat) (hx : x < 64) (hy : y < 64) :
    GetGSAddress x y 64 .GS_PSM_8 < 4096 := by
  simp only [GetGSAddress, u32, Nat.shiftRight_eq_div_pow, and_127, and_63, and_15]
  have hb := block8_quadrant (x % 128 / 2 ^ 4) (y % 64 / 2 ^ 4) (by omega) (by omega)
  generalize block8.getD _ 0 = t at hb
  have hp : (64 + 127) % 2 ^ 32 / 2 ^ 7 = 1 := by norm_num
  rw [hp]
  omega

theorem GetGSAddress_16_lt_256 (x y : Nat) (hx : x < 256) (hy : y < 256) :
    GetGSAddress x y 256 .GS_PSM_16 + 1 < 131072 := by
  have h := GetGSAddress_whole_pages .GS_PSM_16 .bits16 4 4 x y rfl (by decide) (by decide)
    (by simpa [Family.pageW] using hx) (by simpa [Family.pageH] using hy)
  have hl := refPixelIndex_lt .bits16 4 4 x y (by simpa [Family.pageW] using hx)
    (by simpa [Family.pageH] using hy)
  simp only [Family.pageW, Family.pageH, Family.bpp, Nat.reduceMul] at h hl
  rw [h]
  omega

/-- For every other file size that `DetectPSM` matches by its tables (16384, 4096, 2048,
16408, 32792, the 16-bit range, 12288 and 12312) and every in-bounds pixel, each source
index the chosen reader dereferences lies inside the file once the offset is added. -/
theorem sourceReads_in_bounds (size : Nat) (w0 h0 : Int) (x y : Nat)
    (hsize : size = 16384 ∨ size = 4096 ∨ size = 2048 ∨ size = 16408 ∨ size = 32792 ∨
      (131072 < size ∧ size < 145000) ∨ size = 12288 ∨ size = 12312)
    (hx : (x : Int) < (DetectPSM size w0 h0).w) (hy : (y : Int) < (DetectPSM size w0 h0).h) :
    ∀ i ∈ sourceReads (DetectPSM size w0 h0).psm (DetectPSM size w0 h0).w.toNat x y,
      (checkedOffset size (DetectPSM size w0 h0)).toNat + i < size := by
  rcases hsize with h | h | h | h | h | h | h | h
  · subst h
    have e : DetectPSM 16384 w0 h0 = { psm := .GS_PSM_8, w := 128, h := 128, offset := 0 } := by
      simp [DetectPSM]
    rw [e] at hx hy ⊢
    have o : checkedOffset 16384 { psm := .GS_PSM_8, w := 128, h := 128, offset := 0 } = 0 := by
      simp only [checkedOffset, boundsDivisor, reduceCtorEq, ↓reduceIte]
      norm_num
    rw [o]
    simp only at hx hy
    intro i hi
    simp only [sourceReads, List.mem_singleton] at hi
    subst hi
    have := GetGSAddress_8_lt_128 x y (by omega) (by omega)
    simpa using this
  · subst h
    have e : DetectPSM 4096 w0 h0 = { psm := .GS_PSM_8, w := 64, h := 64, offset := 0 } := by
      simp [DetectPSM]
    rw [e] at hx hy ⊢
    have o : checkedOffset 4096 { psm := .GS_PSM_8, w := 64, h := 64, offset := 0 } = 0 := by
      simp only [checkedOffset, boundsDivisor, reduceCtorEq, ↓reduceIte]
      norm_num
    rw [o]
    simp only at hx hy
    intro i hi
    simp only [sourceReads, List.mem_singleton] at hi
    subst hi
    have := GetGSAddress_8_lt_64 x y (by omega) (by omega)
    simpa using this
  · subst h
    have e : DetectPSM 2048 w0 h0 = { psm := .GS_PSM_4, w := 64, h := 64, offset := 0 } := by
      simp [DetectPSM]
    rw [e] at hx hy ⊢
    have o : checkedOffset 2048 { psm := .GS_PSM_4, w := 64, h := 64, offset := 0 } = 0 := by
      simp only [checkedOffset, boundsDivisor, reduceCtorEq, ↓reduceIte]
      norm_num
    rw [o]
    simp only at hx hy
    intro i hi
    simp only [sourceReads, List.mem_singleton] at hi
    subst hi
    simp only [Int.toNat_ofNat, Int.toNat_zero]
    have : (64 : Int).toNat = 64 := rfl
    rw [this]
    omega
  · subst h
    have e : DetectPSM 16408 w0 h0 = { psm := .GS_PSM_8, w := 128, h := 128, offset := 24 } := by
      simp [DetectPSM]
    rw [e] at hx hy ⊢
    have o : checkedOffset 16408 { psm := .GS_PSM_8, w := 128, h := 128, offset := 24 } = 24 := by
      simp only [checkedOffset, boundsDivisor, reduceCtorEq, ↓reduceIte]
      norm_num
    rw [o]
    simp only at hx hy
    intro i hi
    simp only [sourceReads, List.mem_singleton] at hi
    subst hi
    have := GetGSAddress_8_lt_128 x y (by omega) (by omega)
    have h128 : (128 : Int).toNat = 128 := rfl
    have h24 : (24 : Int).toNat = 24 := rfl
    rw [h128, h24]
    omega
  · subst h
    have e : DetectPSM 32792 w0 h0 = { psm := .GS_PSM_8, w := 256, h := 128, offset := 24 } := by
      simp [DetectPSM]
    rw [e] at hx hy ⊢
    have o : checkedOffset 32792 { psm := .GS_PSM_8, w := 256, h := 128, offset := 24 } = 24 := by
      simp only [checkedOffset, boundsDivisor, reduceCtorEq, ↓reduceIte]
      norm_num
    rw [o]
    simp only at hx hy
    intro i hi
    simp only [sourceReads, List.mem_singleton] at hi
    subst hi
    have := GetGSAddress_8_lt_256 x y (by omega) (by omega)
    have h256 : (256 : Int).toNat = 256 := rfl
    have h24 : (24 : Int).toNat = 24 := rfl
    rw [h256, h24]
    omega
  · have e : DetectPSM size w0 h0 =
        { psm := .GS_PSM_16, w := 256, h := 256, offset := ((size - 131072 : Nat) : Int) } := by
      unfold DetectPSM
      simp only [show ¬ size = 16384 by omega, show ¬ size = 8192 by omega,
        show ¬ size = 4096 by omega, show ¬ size = 2048 by omega, show ¬ size = 16408 by omega,
        show ¬ size = 8216 by omega, show ¬ size = 32792 by omega, ↓reduceIte,
        show size > 131072 from h.1, show size < 145000 from h.2, and_self]
    rw [e] at hx hy ⊢
    have o : checkedOffset size
        { psm := .GS_PSM_16, w := 256, h := 256, offset := ((size - 131072 : Nat) : Int) } =
        ((size - 131072 : Nat) : Int) := by
      simp only [checkedOffset, boundsDivisor, reduceCtorEq, ↓reduceIte]
      rw [if_neg]
      have h1 : ((size - 131072 : Nat) : ℚ) = (size : ℚ) - 131072 := by
        rw [Nat.cast_sub (by omega)]
        norm_num
      push_cast
      rw [h1]
      norm_num
    rw [o]
    simp only at hx hy
    intro i hi
    have := GetGSAddress_16_lt_256 x y (by omega) (by omega)
    have h256 : (256 : Int).toNat = 256 := rfl
    simp only [sourceReads, List.mem_cons, List.mem_singleton, List.not_mem_nil, or_false,
      h256] at hi
    rw [Int.toNat_ofNat]
    rcases hi with hi | hi <;> omega
  · subst h
    have e : DetectPSM 12288 w0 h0 = { psm := .GS_PSM_24, w := 64, h := 64, offset := 0 } := by
      simp [DetectPSM]
    rw [e] at hx hy ⊢
    have o : checkedOffset 12288 { psm := .GS_PSM_24, w := 64, h := 64, offset := 0 } = 0 := by
      simp only [checkedOffset, boundsDivisor, reduceCtorEq, ↓reduceIte]
      norm_num
    rw [o]
    simp only at hx hy
    intro i hi
    have h64 : (64 : Int).toNat = 64 := rfl
    simp only [sourceReads, List.mem_cons, List.mem_singleton, List.not_mem_nil, or_false,
      h64, u32] at hi
    simp only [Int.toNat_zero]
    rcases hi with hi | hi | hi <;> (rw [Nat.mod_eq_of_lt (by omega)] at hi; omega)
  · subst h
    have e : DetectPSM 12312 w0 h0 = { psm := .GS_PSM_24, w := 64, h := 64, offset := 24 } := by
      simp [DetectPSM]
    rw [e] at hx hy ⊢
    have o : checkedOffset 12312 { psm := .GS_PSM_24, w := 64, h := 64, offset := 24 } = 24 := by
      simp only [checkedOffset, boundsDivisor, reduceCtorEq, ↓reduceIte]
      norm_num
    rw [o]
    simp only at hx hy
    intro i hi
    have h64 : (64 : Int).toNat = 64 := rfl
    have h24 : (24 : Int).toNat = 24 := rfl
    simp only [sourceReads, List.mem_cons, List.mem_singleton, List.not_mem_nil, or_false,
      h64, u32] at hi
    rw [h24]
    rcases hi with hi | hi | hi <;> (rw [Nat.mod_eq_of_lt (by omega)] at hi; omega)


/-! ### ICOBLoader: the shape buffer -/

/-- With no animation shape the first iteration of the vertex loop reads
`shapeBuffer[0]` from an empty vector. -/
theorem vertexLoop_zero_shapes (n : Nat) (st : LoopState) : vertexLoop 0 (n + 1) st = none := by
  simp [vertexLoop, vertexStep]

/-- Every file with a complete header that passes the validation of `Load` and declares
zero shapes makes `Load` read `shapeBuffer[0]` out of bounds. -/
theorem Load_zero_shapes (self : ICOBLoader) (bytes normalRaw0 textureRaw0 : List Nat)
    (hlen : 20 ≤ bytes.length) (hS : u32le bytes 4 = 0)
    (hn0 : u32le bytes 16 ≠ 0) (hn3 : u32le bytes 16 % 3 = 0) :
    self.Load (some bytes) normalRaw0 textureRaw0 = none := by
  have hn := u32le_header bytes (self.header_.drop 20) 16 hlen (by decide)
  have hs := u32le_header bytes (self.header_.drop 20) 4 hlen (by decide)
  simp only [ICOBLoader.Load, read_header bytes self.header_ hlen, ICOBLoader.n_vertices,
    ICOBLoader.animation_shapes, hn, hs, hS]
  rw [if_neg (by
    rintro (h | h)
    · exact hn0 h
    · exact h hn3)]
  obtain ⟨m, hm⟩ := Nat.exists_eq_succ_of_ne_zero hn0
  rw [hm, vertexLoop_zero_shapes]

/-- C28. The validation of `Load` does not keep a shape count of zero away from the
read of `shapeBuffer[0]`: the header of `zeroShapeModel` has the magic `0x00010000`,
vertex count 3 (non-zero, divisible by 3) and shape count 0, it passes the validation,
and the first iteration of the vertex loop reads element 0 of the empty shape buffer
(the run has no defined result). -/
theorem Load_zero_shapes_out_of_bounds :
    u32le zeroShapeModel 0 = 0x00010000 ∧ u32le zeroShapeModel 16 = 3 ∧
    u32le zeroShapeModel 4 = 0 ∧
    (List.replicate (8 * u32le zeroShapeModel 4) 0).length = 0 ∧
    (ICOBLoader.new.Load (some zeroShapeModel) [] []).isNone = true := by
  refine ⟨by decide, by decide, by decide, by decide, ?_⟩
  rw [Load_zero_shapes ICOBLoader.new zeroShapeModel [] [] (by decide) (by decide) (by decide)
    (by decide)]
  rfl

/-! ### Core: the state machine -/

/-- A request for any state other than `SCELogo`, made while nothing is pending, is
carried out by the next `ProcessStateChange`. -/
theorem RequestStateChange_applied (p : ProcessTransition) (s : State)
    (hp : p.HasPendingTransition = false) (hs : s ≠ .SCELogo) :
    ((p.RequestStateChange s).ProcessStateChange).GetCurrentState = s.toInt ∧
    ((p.RequestStateChange s).ProcessStateChange).HasPendingTransition = false ∧
    (p.RequestStateChange s).HasPendingTransition = true := by
  have ht : p.trigger = -1 := by
    simpa [ProcessTransition.HasPendingTransition] using hp
  have hne : s.toInt ≠ -1 := by
    cases s <;> first | exact absurd rfl hs | decide
  simp [ProcessTransition.RequestStateChange, ProcessTransition.ProcessStateChange,
    ProcessTransition.GetCurrentState, ProcessTransition.HasPendingTransition, ht, hne]

/-- A request made while a transition is pending changes nothing. -/
theorem RequestStateChange_pending (p : ProcessTransition) (s : State)
    (hp : p.HasPendingTransition = true) : p.RequestStateChange s = p := by
  have ht : p.trigger ≠ -1 := by
    simpa [ProcessTransition.HasPendingTransition] using hp
  simp [ProcessTransition.RequestStateChange, ht]

/-- C30. The request for `State::SCELogo`, whose value `-1` is also the "no transition"
value of `trigger`, is lost: from the initial machine (state `Boot`, nothing pending)
`RequestStateChange(SCELogo)` leaves no pending transition, the following
`ProcessStateChange()` leaves `GetCurrentState()` at `Boot` and not at `SCELogo`, and a
later request for `Menu` is accepted although the `SCELogo` request came first. -/
theorem RequestStateChange_SCELogo_lost :
    ProcessTransition.new.HasPendingTransition = false ∧
    (ProcessTransition.new.RequestStateChange .SCELogo).HasPendingTransition = false ∧
    ((ProcessTransition.new.RequestStateChange .SCELogo).ProcessStateChange).GetCurrentState
      = State.Boot.toInt ∧
    ((ProcessTransition.new.RequestStateChange .SCELogo).ProcessStateChange).GetCurrentState
      ≠ State.SCELogo.toInt ∧
    (((ProcessTransition.new.RequestStateChange .SCELogo).RequestStateChange
      .Menu).ProcessStateChange).GetCurrentState = State.Menu.toInt := by
  decide


/-! ### SoundLoader: the split loop -/

theorem sub64_eq (a b : Nat) (hb : b ≤ a) (ha : a < 2 ^ 64) : sub64 a b = a - b := by
  unfold sub64
  omega

theorem u64_eq (n : Nat) (h : n < 2 ^ 64) : u64 n = n := Nat.mod_eq_of_lt h

theorem isDelimiter_iff (buffer : List Nat) (i : Nat) :
    isDelimiter buffer i = true ↔
      (buffer.getD i 0 = 0x07 ∧ buffer.getD (i + 1) 0 = 0x77 ∧ buffer.getD (i + 2) 0 = 0x77) ∨
      (buffer.getD i 0 = 0x00 ∧ buffer.getD (i + 1) 0 = 0x07 ∧ buffer.getD (i + 2) 0 = 0x77) := by
  unfold isDelimiter
  by_cases h1 : buffer.getD i 0 = 0x07 ∧ buffer.getD (i + 1) 0 = 0x77 ∧
      buffer.getD (i + 2) 0 = 0x77
  · simp only [if_pos h1, true_iff]
    exact Or.inl h1
  · by_cases h2 : buffer.getD i 0 = 0x00 ∧ buffer.getD (i + 1) 0 = 0x07 ∧
        buffer.getD (i + 2) 0 = 0x77
    · simp only [if_neg h1, if_pos h2, true_iff]
      exact Or.inr h2
    · simp only [if_neg h1, if_neg h2, Bool.false_eq_true, false_iff]
      rintro (h | h)
      · exact h1 h
      · exact h2 h

/-- The padding loop, given enough passes, stops at the first block from `n` on that
either has fewer than 17 bytes of buffer from its start or does not start with `00 00`
or `77 77`; every block it steps over passes that test. -/
theorem skipPadding_spec (buffer : List Nat) (hsz : buffer.length < 2 ^ 63) :
    ∀ (fuel n : Nat), n ≤ buffer.length → buffer.length ≤ n + 16 * fuel →
      ∃ m, skipPadding buffer fuel n = n + 16 * m ∧
        (∀ j, j < m → n + 16 * j + 16 < buffer.length ∧ paddingStart buffer (n + 16 * j)) ∧
        ¬ (n + 16 * m + 16 < buffer.length ∧ paddingStart buffer (n + 16 * m)) := by
  intro fuel
  induction fuel with
  | zero =>
    intro n h1 h2
    refine ⟨0, rfl, fun j hj => absurd hj (Nat.not_lt_zero j), ?_⟩
    rintro ⟨h, -⟩
    omega
  | succ fuel ih =>
    intro n h1 h2
    have hu : u64 (n + 16) = n + 16 := u64_eq _ (by omega)
    unfold skipPadding
    rw [hu]
    by_cases hc : n + 16 < buffer.length
    · rw [if_pos hc]
      by_cases hp : paddingStart buffer n
      · have hstep : (if buffer.getD n 0 = 0 ∧ buffer.getD (n + 1) 0 = 0 then
              skipPadding buffer fuel (n + 16)
            else if buffer.getD n 0 = 0x77 ∧ buffer.getD (n + 1) 0 = 0x77 then
              skipPadding buffer fuel (n + 16)
            else n) = skipPadding buffer fuel (n + 16) := by
          rcases hp with hp | hp
          · rw [if_pos hp]
          · by_cases h0 : buffer.getD n 0 = 0 ∧ buffer.getD (n + 1) 0 = 0
            · rw [if_pos h0]
            · rw [if_neg h0, if_pos hp]
        rw [hstep]
        obtain ⟨m, e, hs, hx⟩ := ih (n + 16) (by omega) (by omega)
        refine ⟨m + 1, by rw [e]; ring, ?_, ?_⟩
        · intro j hj
          rcases Nat.eq_zero_or_pos j with h0 | h0
          · subst h0
            exact ⟨hc, hp⟩
          · obtain ⟨j', rfl⟩ := Nat.exists_eq_succ_of_ne_zero (by omega : j ≠ 0)
            have := hs j' (by omega)
            have e2 : n + 16 * (j' + 1) = n + 16 + 16 * j' := by ring
            rw [e2]
            exact this
        · have e2 : n + 16 * (m + 1) = n + 16 + 16 * m := by ring
          rw [e2]
          exact hx
      · have hstep : (if buffer.getD n 0 = 0 ∧ buffer.getD (n + 1) 0 = 0 then
              skipPadding buffer fuel (n + 16)
            else if buffer.getD n 0 = 0x77 ∧ buffer.getD (n + 1) 0 = 0x77 then
              skipPadding buffer fuel (n + 16)
            else n) = n := by
          rw [if_neg (fun h => hp (Or.inl h)), if_neg (fun h => hp (Or.inr h))]
        rw [hstep]
        refine ⟨0, rfl, fun j hj => absurd hj (Nat.not_lt_zero j), ?_⟩
        rintro ⟨-, h⟩
        exact hp h
    · rw [if_neg hc]
      refine ⟨0, rfl, fun j hj => absurd hj (Nat.not_lt_zero j), ?_⟩
      rintro ⟨h, -⟩
      exact hc h

theorem emitSlice_fields (chunk : List Nat → Bool) (buffer : List Nat) (st : SplitState)
    (streamEnd : Nat) :
    (emitSlice chunk buffer st streamEnd).i = st.i ∧
    (emitSlice chunk buffer st streamEnd).streamStart = st.streamStart := by
  unfold emitSlice
  simp only
  split
  · split
    · exact ⟨rfl, rfl⟩
    · exact ⟨rfl, rfl⟩
  · exact ⟨rfl, rfl⟩

/-- What the emission block adds to the registrations: nothing, or (only for a slice
longer than 128 bytes) the slice as `name_index`, followed for index 0 by the same slice
as `name`. -/
theorem emitSlice_bank (chunk : List Nat → Bool) (buffer : List Nat) (st : SplitState)
    (streamEnd : Nat) (hle : st.streamStart ≤ streamEnd) (hlt : streamEnd < 2 ^ 64) :
    (emitSlice chunk buffer st streamEnd).bank = st.bank ∨
    (128 < streamEnd - st.streamStart ∧
      ((emitSlice chunk buffer st streamEnd).bank =
          st.bank ++ [{ key := .sub st.index, start := st.streamStart, stop := streamEnd }] ∨
       (emitSlice chunk buffer st streamEnd).bank =
          st.bank ++ [{ key := .sub st.index, start := st.streamStart, stop := streamEnd },
                      { key := .base, start := st.streamStart, stop := streamEnd }])) := by
  unfold emitSlice
  simp only [sub64_eq _ _ hle hlt]
  by_cases hlen : streamEnd - st.streamStart > 128
  · rw [if_pos hlen]
    by_cases hc : chunk ((buffer.take streamEnd).drop st.streamStart) = true
    · simp only [hc, ↓reduceIte]
      right
      refine ⟨hlen, ?_⟩
      by_cases h0 : st.index = 0
      · right
        simp only [h0, ↓reduceIte, List.append_assoc, List.singleton_append]
      · left
        simp only [h0, ↓reduceIte]
    · simp only [hc, Bool.false_eq_true, ↓reduceIte]
      left
      trivial
  · rw [if_neg hlen]
    left
    trivial


/-- A round whose test fails leaves the state as it is. -/
theorem splitStep_exit (chunk : List Nat → Bool) (buffer : List Nat)
    (hsz : buffer.length < 2 ^ 63) (h16 : 16 ≤ buffer.length) (st : SplitState)
    (hc : ¬ st.i + 16 < buffer.length) : splitStep chunk buffer st = st := by
  unfold splitStep
  rw [sub64_eq _ _ h16 (by omega), if_neg (by omega)]

/-- A round on a block that is not a delimiter only advances `i` by 16. -/
theorem splitStep_plain (chunk : List Nat → Bool) (buffer : List Nat)
    (hsz : buffer.length < 2 ^ 63) (h16 : 16 ≤ buffer.length) (st : SplitState)
    (hc : st.i + 16 < buffer.length) (hd : isDelimiter buffer st.i = false) :
    splitStep chunk buffer st = { st with i := st.i + 16 } := by
  unfold splitStep
  rw [sub64_eq _ _ h16 (by omega), if_pos (by omega)]
  simp only [splitBody, hd, Bool.false_eq_true, ↓reduceIte, u64_eq (st.i + 16) (by omega)]

/-- A round on a delimiter block: the emission block runs on the slice that ends after
the delimiter, and both `i` and the split point move to where the padding loop stops;
neither `nextData - 16` nor the sums wrap. -/
theorem splitStep_delim (chunk : List Nat → Bool) (buffer : List Nat)
    (hsz : buffer.length < 2 ^ 63) (h16 : 16 ≤ buffer.length) (st : SplitState)
    (hc : st.i + 16 < buffer.length) (hd : isDelimiter buffer st.i = true) :
    ∃ m, skipPadding buffer buffer.length (st.i + 16) = st.i + 16 + 16 * m ∧
      splitStep chunk buffer st =
        { emitSlice chunk buffer st (st.i + 16) with
          streamStart := st.i + 16 + 16 * m, i := st.i + 16 + 16 * m } ∧
      st.i + 16 + 16 * m < buffer.length ∧
      sub64 (st.i + 16 + 16 * m) 16 = st.i + 16 + 16 * m - 16 ∧
      (∀ j, j < m → st.i + 16 + 16 * j + 16 < buffer.length ∧
        paddingStart buffer (st.i + 16 + 16 * j)) ∧
      ¬ (st.i + 16 + 16 * m + 16 < buffer.length ∧
        paddingStart buffer (st.i + 16 + 16 * m)) := by
  obtain ⟨m, e, hs, hx⟩ := skipPadding_spec buffer hsz buffer.length (st.i + 16) (by omega)
    (by omega)
  have hlt : st.i + 16 + 16 * m < buffer.length := by
    rcases Nat.eq_zero_or_pos m with h0 | h0
    · subst h0
      omega
    · have := (hs (m - 1) (by omega)).1
      omega
  have hsub : sub64 (st.i + 16 + 16 * m) 16 = st.i + 16 + 16 * m - 16 :=
    sub64_eq _ _ (by omega) (by omega)
  refine ⟨m, e, ?_, hlt, hsub, hs, hx⟩
  unfold splitStep
  rw [sub64_eq _ _ h16 (by omega), if_pos (by omega)]
  have hgt : ¬ (st.i + 16 > buffer.length) := by omega
  simp only [splitBody, hd, ↓reduceIte, u64_eq (st.i + 16) (by omega), if_neg hgt, e, hsub]
  rw [u64_eq _ (by omega)]
  have e2 : st.i + 16 + 16 * m - 16 + 16 = st.i + 16 + 16 * m := by omega
  rw [e2]

/-- The invariant holds after every number of rounds, and while the test keeps
passing `i` has advanced by at least 16 a round. -/
theorem splitRounds_inv (chunk : List Nat → Bool) (buffer : List Nat)
    (hsz : buffer.length < 2 ^ 63) (h32 : 32 ≤ buffer.length) :
    ∀ k, SplitInv buffer (splitRounds chunk buffer k) ∧
      (16 * k ≤ (splitRounds chunk buffer k).i ∨
        ¬ (splitRounds chunk buffer k).i + 16 < buffer.length) := by
  intro k
  induction k with
  | zero =>
    refine ⟨⟨rfl, rfl, Nat.le_refl _, ?_⟩, Or.inl (Nat.zero_le _)⟩
    show 0 < buffer.length
    omega
  | succ k ih =>
    obtain ⟨⟨hi, hs, hle, hlt⟩, hk⟩ := ih
    show SplitInv buffer (splitStep chunk buffer (splitRounds chunk buffer k)) ∧
      (16 * (k + 1) ≤ (splitStep chunk buffer (splitRounds chunk buffer k)).i ∨
        ¬ (splitStep chunk buffer (splitRounds chunk buffer k)).i + 16 < buffer.length)
    generalize splitRounds chunk buffer k = st at hi hs hle hlt hk
    by_cases hc : st.i + 16 < buffer.length
    · have hk' : 16 * k ≤ st.i := by
        rcases hk with h | h
        · exact h
        · exact absurd hc h
      cases hd : isDelimiter buffer st.i
      · rw [splitStep_plain chunk buffer hsz (by omega) st hc hd]
        refine ⟨⟨?_, hs, ?_, ?_⟩, Or.inl ?_⟩
        · show (st.i + 16) % 16 = 0
          omega
        · show st.streamStart ≤ st.i + 16
          omega
        · show st.i + 16 < buffer.length
          exact hc
        · show 16 * (k + 1) ≤ st.i + 16
          omega
      · obtain ⟨m, -, e, hlt', -, -, -⟩ := splitStep_delim chunk buffer hsz (by omega) st hc hd
        rw [e]
        refine ⟨⟨?_, ?_, ?_, ?_⟩, Or.inl ?_⟩
        · show (st.i + 16 + 16 * m) % 16 = 0
          omega
        · show (st.i + 16 + 16 * m) % 16 = 0
          omega
        · show st.i + 16 + 16 * m ≤ st.i + 16 + 16 * m
          exact Nat.le_refl _
        · show st.i + 16 + 16 * m < buffer.length
          exact hlt'
        · show 16 * (k + 1) ≤ st.i + 16 + 16 * m
          omega
    · rw [splitStep_exit chunk buffer hsz (by omega) st hc]
      exact ⟨⟨hi, hs, hle, hlt⟩, Or.inr hc⟩

/-- After `buffer.size() / 16` rounds the loop test has failed. -/
theorem splitRounds_done (chunk : List Nat → Bool) (buffer : List Nat)
    (hsz : buffer.length < 2 ^ 63) (h32 : 32 ≤ buffer.length) :
    ¬ (splitRounds chunk buffer (buffer.length / 16)).i + 16 < buffer.length := by
  rcases (splitRounds_inv chunk buffer hsz h32 (buffer.length / 16)).2 with h | h
  · omega
  · exact h


/-- The registrations after `k` rounds: each one was made in an earlier round `j` whose
block is a delimiter inside the loop range, covers the bytes from the split point of
that round to the end of its delimiter block, is longer than 128 bytes and ends at or
before the current split point; and they are in increasing order, the base-name alias
repeating the range of the first one. -/
theorem splitRounds_bank (chunk : List Nat → Bool) (buffer : List Nat)
    (hsz : buffer.length < 2 ^ 63) (h32 : 32 ≤ buffer.length) :
    ∀ k, (∀ c ∈ (splitRounds chunk buffer k).bank,
        c.stop ≤ (splitRounds chunk buffer k).streamStart ∧
        ∃ j, j < k ∧ (splitRounds chunk buffer j).i + 16 < buffer.length ∧
          isDelimiter buffer (splitRounds chunk buffer j).i = true ∧
          c.start = (splitRounds chunk buffer j).streamStart ∧
          c.stop = (splitRounds chunk buffer j).i + 16 ∧ 128 < c.stop - c.start) ∧
      (splitRounds chunk buffer k).bank.Pairwise (fun a b =>
        a.stop ≤ b.start ∨ (b.key = .base ∧ a.start = b.start ∧ a.stop = b.stop)) := by
  intro k
  induction k with
  | zero =>
    refine ⟨fun c hc => ?_, ?_⟩
    · exact absurd hc (List.not_mem_nil c)
    · exact List.Pairwise.nil
  | succ k ih =>
    obtain ⟨hmem, hpw⟩ := ih
    obtain ⟨⟨hi, hs, hle, hlt⟩, -⟩ := splitRounds_inv chunk buffer hsz h32 k
    have hstep : splitRounds chunk buffer (k + 1) =
        splitStep chunk buffer (splitRounds chunk buffer k) := rfl
    have hold : ∀ c ∈ (splitRounds chunk buffer k).bank, ∀ s', 
        (splitRounds chunk buffer k).streamStart ≤ s' →
        c.stop ≤ s' ∧
        ∃ j, j < k + 1 ∧ (splitRounds chunk buffer j).i + 16 < buffer.length ∧
          isDelimiter buffer (splitRounds chunk buffer j).i = true ∧
          c.start = (splitRounds chunk buffer j).streamStart ∧
          c.stop = (splitRounds chunk buffer j).i + 16 ∧ 128 < c.stop - c.start := by
      intro c hc s' hs'
      obtain ⟨h1, j, hj, h2⟩ := hmem c hc
      exact ⟨Nat.le_trans h1 hs', j, Nat.lt_succ_of_lt hj, h2⟩
    by_cases hc : (splitRounds chunk buffer k).i + 16 < buffer.length
    · cases hd : isDelimiter buffer (splitRounds chunk buffer k).i
      · rw [hstep, splitStep_plain chunk buffer hsz (by omega) _ hc hd]
        exact ⟨fun c hc' => hold c hc' _ (Nat.le_refl _), hpw⟩
      · obtain ⟨m, -, e, -, -, -, -⟩ := splitStep_delim chunk buffer hsz (by omega) _ hc hd
        rw [hstep, e]
        show (∀ c ∈ (emitSlice chunk buffer (splitRounds chunk buffer k)
              ((splitRounds chunk buffer k).i + 16)).bank,
            c.stop ≤ (splitRounds chunk buffer k).i + 16 + 16 * m ∧ _) ∧
          (emitSlice chunk buffer (splitRounds chunk buffer k)
              ((splitRounds chunk buffer k).i + 16)).bank.Pairwise _
        have hnew : ∀ c : Chunk, c.start = (splitRounds chunk buffer k).streamStart →
            c.stop = (splitRounds chunk buffer k).i + 16 → 128 < c.stop - c.start →
            c.stop ≤ (splitRounds chunk buffer k).i + 16 + 16 * m ∧
            ∃ j, j < k + 1 ∧ (splitRounds chunk buffer j).i + 16 < buffer.length ∧
              isDelimiter buffer (splitRounds chunk buffer j).i = true ∧
              c.start = (splitRounds chunk buffer j).streamStart ∧
              c.stop = (splitRounds chunk buffer j).i + 16 ∧ 128 < c.stop - c.start := by
          intro c h1 h2 h3
          exact ⟨by omega, k, Nat.lt_succ_self k, hc, hd, h1, h2, h3⟩
        rcases emitSlice_bank chunk buffer (splitRounds chunk buffer k)
            ((splitRounds chunk buffer k).i + 16) (by omega) (by omega) with hb | ⟨h128, hb | hb⟩
        · rw [hb]
          exact ⟨fun c hc' => hold c hc' _ (by omega), hpw⟩
        · rw [hb]
          constructor
          · intro c hc'
            rcases List.mem_append.1 hc' with h | h
            · exact hold c h _ (by omega)
            · rw [List.mem_singleton] at h
              subst h
              exact hnew _ rfl rfl h128
          · rw [List.pairwise_append]
            refine ⟨hpw, List.pairwise_singleton _ _, ?_⟩
            intro a ha b hb'
            rw [List.mem_singleton] at hb'
            subst hb'
            exact Or.inl (hmem a ha).1
        · rw [hb]
          constructor
          · intro c hc'
            rcases List.mem_append.1 hc' with h | h
            · exact hold c h _ (by omega)
            · simp only [List.mem_cons, List.mem_singleton, List.not_mem_nil, or_false] at h
              rcases h with h | h
              · subst h
                exact hnew _ rfl rfl h128
              · subst h
                exact hnew _ rfl rfl h128
          · rw [List.pairwise_append]
            refine ⟨hpw, ?_, ?_⟩
            · rw [List.pairwise_cons]
              refine ⟨?_, List.pairwise_singleton _ _⟩
              intro b hb'
              rw [List.mem_singleton] at hb'
              subst hb'
              exact Or.inr ⟨rfl, rfl, rfl⟩
            · intro a ha b hb'
              simp only [List.mem_cons, List.mem_singleton, List.not_mem_nil, or_false] at hb'
              rcases hb' with h | h
              · subst h
                exact Or.inl (hmem a ha).1
              · subst h
                exact Or.inl (hmem a ha).1
    · rw [hstep, splitStep_exit chunk buffer hsz (by omega) _ hc]
      exact ⟨fun c hc' => hold c hc' _ (Nat.le_refl _), hpw⟩

/-- The result of `LoadFile` on a headerless buffer once the split loop has registered a
stream: true, with the registrations of the loop and nothing more. -/
theorem LoadFile_split (mix : List Nat → Bool) (buffer : List Nat)
    (h32 : 32 ≤ buffer.length) (hno : ScanForHeaders buffer = [])
    (hsplit : (splitRounds (RawToChunk mix) buffer (buffer.length / 16)).isSplit = true) :
    LoadFile mix (some buffer) =
      (true, (splitRounds (RawToChunk mix) buffer (buffer.length / 16)).bank) := by
  have h1 : ¬ buffer.length < 32 := by omega
  simp only [LoadFile, if_neg h1, hno, List.length_nil, gt_iff_lt, Nat.lt_irrefl, ↓reduceIte,
    hsplit, not_true_eq_false, false_and]

set_option maxRecDepth 100000 in
theorem twoStreams_scan : ScanForHeaders twoStreams = [] := by
  decide

/-- C24. For every buffer of at least 32 bytes with no `VAGp` header: after every
number of rounds of the split loop the split point `s` and the index `i` are multiples
of 16 with `s <= i`; every registration of the loop is the byte range `[s, i + 16)`
of an earlier round whose `i` is below `size - 16` and whose block starts with
`07 77 77` or `00 07 77`, with `s` the split point of that round, and has more than 128
bytes; the registrations are in increasing order without overlap (the alias under the
base name repeats the range of the first one); and when one was made, they are all
that `LoadFile` registers. -/
theorem splitter_ranges (mix : List Nat → Bool) (buffer : List Nat)
    (h32 : 32 ≤ buffer.length) (hsz : buffer.length < 2 ^ 63)
    (hno : ScanForHeaders buffer = []) :
    (∀ k, (splitRounds (RawToChunk mix) buffer k).streamStart % 16 = 0 ∧
      (splitRounds (RawToChunk mix) buffer k).i % 16 = 0 ∧
      (splitRounds (RawToChunk mix) buffer k).streamStart ≤
        (splitRounds (RawToChunk mix) buffer k).i) ∧
    (∀ k, ∀ c ∈ (splitRounds (RawToChunk mix) buffer k).bank, ∃ j, j < k ∧
      (splitRounds (RawToChunk mix) buffer j).i < buffer.length - 16 ∧
      ((buffer.getD (splitRounds (RawToChunk mix) buffer j).i 0 = 0x07 ∧
          buffer.getD ((splitRounds (RawToChunk mix) buffer j).i + 1) 0 = 0x77 ∧
          buffer.getD ((splitRounds (RawToChunk mix) buffer j).i + 2) 0 = 0x77) ∨
        (buffer.getD (splitRounds (RawToChunk mix) buffer j).i 0 = 0x00 ∧
          buffer.getD ((splitRounds (RawToChunk mix) buffer j).i + 1) 0 = 0x07 ∧
          buffer.getD ((splitRounds (RawToChunk mix) buffer j).i + 2) 0 = 0x77)) ∧
      c.start = (splitRounds (RawToChunk mix) buffer j).streamStart ∧
      c.stop = (splitRounds (RawToChunk mix) buffer j).i + 16 ∧
      128 < c.stop - c.start ∧ c.stop < buffer.length) ∧
    (∀ k, (splitRounds (RawToChunk mix) buffer k).bank.Pairwise (fun a b =>
      a.stop ≤ b.start ∨ (b.key = .base ∧ a.start = b.start ∧ a.stop = b.stop))) ∧
    ((splitRounds (RawToChunk mix) buffer (buffer.length / 16)).isSplit = true →
      LoadFile mix (some buffer) =
        (true, (splitRounds (RawToChunk mix) buffer (buffer.length / 16)).bank)) := by
  refine ⟨fun k => ?_, fun k c hc => ?_, fun k => ?_, fun h => LoadFile_split mix buffer h32 hno h⟩
  · obtain ⟨⟨hi, hs, hle, -⟩, -⟩ := splitRounds_inv (RawToChunk mix) buffer hsz h32 k
    exact ⟨hs, hi, hle⟩
  · obtain ⟨-, j, hj, h1, h2, h3, h4, h5⟩ :=
      (splitRounds_bank (RawToChunk mix) buffer hsz h32 k).1 c hc
    exact ⟨j, hj, by omega, (isDelimiter_iff buffer _).1 h2, h3, h4, h5, by omega⟩
  · exact (splitRounds_bank (RawToChunk mix) buffer hsz h32 k).2

set_option maxRecDepth 100000 in
theorem splitter_ranges_witness :
    (splitRounds (RawToChunk (fun _ => true)) twoStreams 18).streamStart % 16 = 0 ∧
    (splitRounds (RawToChunk (fun _ => true)) twoStreams 18).i % 16 = 0 ∧
    (splitRounds (RawToChunk (fun _ => true)) twoStreams 18).streamStart ≤
      (splitRounds (RawToChunk (fun _ => true)) twoStreams 18).i :=
  (splitter_ranges (fun _ => true) twoStreams (by decide) (by decide) twoStreams_scan).1 18

/-- C29. For every buffer of at least 32 bytes the split loop has ended after
`size / 16` rounds, and it makes at most that many iterations; in every iteration the
index `i` grows strictly, also when the body reassigns it to `nextData - 16`;
`buffer.size() - 16` does not underflow, and after a delimiter neither does
`nextData - 16` (`nextData` being where the padding loop stops from `i + 16`): the
increment brings `i` to `nextData`.  The bound on the length is the one every
`std::vector` meets (`max_size`). -/
theorem split_loop_terminates (chunk : List Nat → Bool) (buffer : List Nat)
    (h32 : 32 ≤ buffer.length) (hsz : buffer.length < 2 ^ 63) :
    16 ≤ buffer.length ∧ sub64 buffer.length 16 = buffer.length - 16 ∧
    ¬ ((splitRounds chunk buffer (buffer.length / 16)).i < sub64 buffer.length 16) ∧
    (∃ n, n ≤ buffer.length / 16 ∧
      ¬ ((splitRounds chunk buffer n).i < sub64 buffer.length 16) ∧
      ∀ k, k < n → (splitRounds chunk buffer k).i < sub64 buffer.length 16) ∧
    (∀ k, (splitRounds chunk buffer k).i < sub64 buffer.length 16 →
      (splitRounds chunk buffer k).i < (splitRounds chunk buffer (k + 1)).i ∧
      (isDelimiter buffer (splitRounds chunk buffer k).i = true →
        16 ≤ skipPadding buffer buffer.length ((splitRounds chunk buffer k).i + 16) ∧
        sub64 (skipPadding buffer buffer.length ((splitRounds chunk buffer k).i + 16)) 16 =
          skipPadding buffer buffer.length ((splitRounds chunk buffer k).i + 16) - 16 ∧
        (splitRounds chunk buffer (k + 1)).i =
          skipPadding buffer buffer.length ((splitRounds chunk buffer k).i + 16))) := by
  have h16 : 16 ≤ buffer.length := by omega
  have hsub : sub64 buffer.length 16 = buffer.length - 16 := sub64_eq _ _ h16 (by omega)
  have hdone : ¬ ((splitRounds chunk buffer (buffer.length / 16)).i < sub64 buffer.length 16) := by
    have := splitRounds_done chunk buffer hsz h32
    rw [hsub]
    omega
  refine ⟨h16, hsub, hdone, ?_, ?_⟩
  · have hex : ∃ n, ¬ ((splitRounds chunk buffer n).i < sub64 buffer.length 16) :=
      ⟨_, hdone⟩
    classical
    exact ⟨Nat.find hex, Nat.find_min' hex hdone, Nat.find_spec hex,
      fun k hk => not_not.1 (Nat.find_min hex hk)⟩
  · intro k hk
    rw [hsub] at hk
    have hc : (splitRounds chunk buffer k).i + 16 < buffer.length := by omega
    have hstep : splitRounds chunk buffer (k + 1) =
        splitStep chunk buffer (splitRounds chunk buffer k) := rfl
    cases hd : isDelimiter buffer (splitRounds chunk buffer k).i
    · rw [hstep, splitStep_plain chunk buffer hsz h16 _ hc hd]
      refine ⟨?_, fun h => Bool.noConfusion h⟩
      show (splitRounds chunk buffer k).i < (splitRounds chunk buffer k).i + 16
      omega
    · obtain ⟨m, e1, e2, -, e3, -, -⟩ := splitStep_delim chunk buffer hsz h16 _ hc hd
      rw [hstep, e2, e1]
      refine ⟨?_, fun _ => ⟨by omega, e3, rfl⟩⟩
      show (splitRounds chunk buffer k).i < (splitRounds chunk buffer k).i + 16 + 16 * m
      omega

set_option maxRecDepth 100000 in
theorem split_loop_terminates_witness :
    16 ≤ twoStreams.length ∧ sub64 twoStreams.length 16 = twoStreams.length - 16 ∧
    ¬ ((splitRounds (fun _ => true) twoStreams (twoStreams.length / 16)).i <
      sub64 twoStreams.length 16) :=
  match split_loop_terminates (fun _ => true) twoStreams (by decide) (by decide) with
  | ⟨h1, h2, h3, _, _⟩ => ⟨h1, h2, h3⟩

/-- C23 (as the code has it). After a delimiter block at offset `i` inside the loop
range, the next sub-stream starts at `i + 16 + 16 * m`, the first block from `i + 16`
on that either has no byte of the buffer beyond its own sixteen or does not begin with
the two bytes `00 00` or `77 77`: the `m` blocks stepped over all begin with `00 00` or
`77 77` and are followed by at least one more byte; bytes 2 to 15 of a block are not
examined. -/
theorem next_stream_start (chunk : List Nat → Bool) (buffer : List Nat) (st : SplitState)
    (h32 : 32 ≤ buffer.length) (hsz : buffer.length < 2 ^ 63)
    (hi : st.i < sub64 buffer.length 16) (hd : isDelimiter buffer st.i = true) :
    ∃ m, (splitStep chunk buffer st).streamStart = st.i + 16 + 16 * m ∧
      (splitStep chunk buffer st).i = st.i + 16 + 16 * m ∧
      (∀ j, j < m → st.i + 16 + 16 * j + 16 < buffer.length ∧
        ((buffer.getD (st.i + 16 + 16 * j) 0 = 0 ∧
            buffer.getD (st.i + 16 + 16 * j + 1) 0 = 0) ∨
          (buffer.getD (st.i + 16 + 16 * j) 0 = 0x77 ∧
            buffer.getD (st.i + 16 + 16 * j + 1) 0 = 0x77))) ∧
      (buffer.length ≤ st.i + 16 + 16 * m + 16 ∨
        ¬ ((buffer.getD (st.i + 16 + 16 * m) 0 = 0 ∧
            buffer.getD (st.i + 16 + 16 * m + 1) 0 = 0) ∨
          (buffer.getD (st.i + 16 + 16 * m) 0 = 0x77 ∧
            buffer.getD (st.i + 16 + 16 * m + 1) 0 = 0x77))) := by
  have h16 : 16 ≤ buffer.length := by omega
  rw [sub64_eq _ _ h16 (by omega)] at hi
  obtain ⟨m, -, e, -, -, hs, hx⟩ := splitStep_delim chunk buffer hsz h16 st (by omega) hd
  refine ⟨m, by rw [e], by rw [e], hs, ?_⟩
  by_cases hl : st.i + 16 + 16 * m + 16 < buffer.length
  · exact Or.inr (fun hp => hx ⟨hl, hp⟩)
  · exact Or.inl (by omega)

theorem next_stream_start_witness :
    ∃ m, (splitStep (fun _ => true) mixedPadding
        (splitRounds (fun _ => true) mixedPadding 0)).streamStart = 0 + 16 + 16 * m ∧
      (mixedPadding.length ≤ 0 + 16 + 16 * m + 16 ∨
        ¬ ((mixedPadding.getD (0 + 16 + 16 * m) 0 = 0 ∧
            mixedPadding.getD (0 + 16 + 16 * m + 1) 0 = 0) ∨
          (mixedPadding.getD (0 + 16 + 16 * m) 0 = 0x77 ∧
            mixedPadding.getD (0 + 16 + 16 * m + 1) 0 = 0x77))) :=
  match next_stream_start (fun _ => true) mixedPadding
    (splitRounds (fun _ => true) mixedPadding 0) (by decide) (by decide) (by decide)
    (by decide) with
  | ⟨m, h1, _, _, h4⟩ => ⟨m, h1, h4⟩

/-- C23 (counterexample). In `mixedPadding` the block after the delimiter begins
`00 00 01 02` and is neither all `00` nor all `77`, yet it is stepped over: the next
sub-stream starts at 32, not at 16.  In a 32-byte buffer of a delimiter block and an
all-zero block the next sub-stream starts at 16, on the all-zero block, which is not
stepped over as no byte follows it. -/
theorem padding_skip_tests_two_bytes :
    isDelimiter mixedPadding 0 = true ∧
    (mixedPadding.drop 16).take 16 ≠ List.replicate 16 0 ∧
    (mixedPadding.drop 16).take 16 ≠ List.replicate 16 0x77 ∧
    (splitStep (fun _ => true) mixedPadding
      (splitRounds (fun _ => true) mixedPadding 0)).streamStart = 32 ∧
    isDelimiter (stopBlock ++ List.replicate 16 0) 0 = true ∧
    ((stopBlock ++ List.replicate 16 0).drop 16).take 16 = List.replicate 16 0 ∧
    (splitStep (fun _ => true) (stopBlock ++ List.replicate 16 0)
      (splitRounds (fun _ => true) (stopBlock ++ List.replicate 16 0) 0)).streamStart = 16 := by
  decide

theorem RawToChunk_all :
    RawToChunk (fun _ => true) = fun data => decide (16 ≤ data.length) := by
  funext data
  unfold RawToChunk DecodeRaw
  by_cases h : 16 ≤ data.length
  · have := DecodeInternal_true data data.length [] 44100 h
    simp only [this, ↓reduceIte, h, decide_True]
  · rw [DecodeInternal_small data data.length [] 44100 (by omega)]
    simp only [Bool.false_eq_true, ↓reduceIte, h, decide_False]

set_option maxRecDepth 100000 in
theorem twoStreams_facts :
    twoStreams.length = 288 ∧ ScanForHeaders twoStreams = [] ∧
    isDelimiter twoStreams 128 = true ∧ isDelimiter twoStreams 272 = true := by
  decide

set_option maxRecDepth 100000 in
theorem twoStreams_rounds :
    (splitRounds (RawToChunk (fun _ => true)) twoStreams (twoStreams.length / 16)).streamStart
      = 144 ∧
    (splitRounds (RawToChunk (fun _ => true)) twoStreams (twoStreams.length / 16)).i = 272 := by
  rw [RawToChunk_all]
  decide

set_option maxRecDepth 100000 in
theorem LoadFile_twoStreams :
    LoadFile (fun _ => true) (some twoStreams) =
      (true, [{ key := .sub 0, start := 0, stop := 144 },
              { key := .base, start := 0, stop := 144 }]) := by
  simp only [LoadFile, RawToChunk_all]
  decide

/-- C27. Trailing data after the last processed delimiter is dropped.  `twoStreams`
holds two streams of 144 bytes, each closed by a delimiter block, the second delimiter
being the last 16 bytes of the buffer; it has no `VAGp` header, and every slice decodes
and loads.  The loop test `i < size - 16` fails at `i = 272`, before the last block is
looked at, with the split point at 144; after the loop nothing is registered once a
split was made: `LoadFile` returns true having registered only the first stream
`[0, 144)` (as `name_0` and as `name`); the 144 bytes `[144, 288)` of the second stream
are registered nowhere. -/
theorem LoadFile_drops_last_stream :
    twoStreams.length = 288 ∧ ScanForHeaders twoStreams = [] ∧
    isDelimiter twoStreams 128 = true ∧ isDelimiter twoStreams 272 = true ∧
    (splitRounds (RawToChunk (fun _ => true)) twoStreams (twoStreams.length / 16)).streamStart
      = 144 ∧
    (splitRounds (RawToChunk (fun _ => true)) twoStreams (twoStreams.length / 16)).i = 272 ∧
    LoadFile (fun _ => true) (some twoStreams) =
      (true, [{ key := .sub 0, start := 0, stop := 144 },
              { key := .base, start := 0, stop := 144 }]) :=
  ⟨twoStreams_facts.1, twoStreams_facts.2.1, twoStreams_facts.2.2.1, twoStreams_facts.2.2.2,
    twoStreams_rounds.1, twoStreams_rounds.2, LoadFile_twoStreams⟩

end OSDSYS
